import Mathlib

/-!
Gamma board game engine: shallow embedding and verification.

Embedding of `types.c`, `queue.c`, `board.c`, `moves.c`, `gamma.c`, `memory.c`,
`print.c`, and of `gamma_board_position` (`interactive.c`), `parse`, `strToInt` and
`numberOfTokens` (`gamma_main.c`).

* `uint32_t` / `uint64_t` values are natural numbers; arithmetic that can wrap
  is written with an explicit `% 2 ^ 32` or `% 2 ^ 64`.
* `int64_t` values (`Position` coordinates, `busy_areas`) are integers; the sums
  written are those of the source where its additions do not overflow, which is
  proved for the reachable states and assumed (`areas_in_range`) elsewhere.
* `FieldData **board` is a total map from positions to field records; every
  access in the source goes through `get_field` / `inside_board` first, and the
  map is only ever read or written at positions inside the board.
* `OwnerData *owners` is a total map from indices to owner records; the indices
  written are at most `number_of_players` in every reachable state, and the one
  read that the source does not guard (`gamma_golden_possible`) is guarded in
  the embedding.
* A loop that the source does not bound (`bfs`, `gamma_golden_possible`) takes a
  number of iterations allowed and returns `none` when they do not suffice.
* Functions that write to the session take the state and return the new state.
* Memory allocation is assumed to succeed.
-/

namespace Gamma

/-! ## types.c -/

/-- One cell of the board (`struct FieldData`). -/
structure FieldData where
  owner : Nat
  bfs_flag : Bool
deriving DecidableEq

/-- Per-owner record (`struct OwnerData`). -/
structure OwnerData where
  golden_move_used : Bool
  busy_fields : Nat
  busy_areas : Int
deriving DecidableEq

/-- A position on the board (`struct Position`), signed coordinates. -/
structure Position where
  x : Int
  y : Int
deriving DecidableEq

/-- The game state (`struct gamma`). -/
structure gamma_t where
  width : Nat
  height : Nat
  max_areas : Nat
  board : Position → FieldData
  owners : Nat → OwnerData
  number_of_players : Nat

/-- Write of one record of the board, `board[x][y] = f`. -/
def set_field (board : Position → FieldData) (p : Position) (f : FieldData) :
    Position → FieldData :=
  fun q => if q = p then f else board q

/-- Write of one record of the owners array, `owners[i] = o`. -/
def set_owner (owners : Nat → OwnerData) (i : Nat) (o : OwnerData) : Nat → OwnerData :=
  fun j => if j = i then o else owners j

/-! ## queue.c : a FIFO of positions -/

/-- The queue of `queue.c`: first element of the list is the first node. -/
abbrev Queue := List Position

/-- `queue_new`: the empty queue. -/
def queue_new : Queue := []

/-- `queue_empty`. -/
def queue_empty (queue : Queue) : Bool := queue.isEmpty

/-- `queue_insert`: append at the end. -/
def queue_insert (queue : Queue) (value : Position) : Queue := queue ++ [value]

/-! ## board.c -/

/-- `positions_equal`. -/
def positions_equal (a b : Position) : Bool := decide (a.x = b.x) && decide (a.y = b.y)

/-- `inside_board`. -/
def inside_board (g : gamma_t) (position : Position) : Bool :=
  decide (0 ≤ position.x) && decide (position.x < (g.width : Int)) &&
  decide (0 ≤ position.y) && decide (position.y < (g.height : Int))

/-- `get_field`: the field at the position, `none` (NULL) outside the board. -/
def get_field (g : gamma_t) (position : Position) : Option FieldData :=
  if inside_board g position then some (g.board position) else none

/-- `directions[i]`: RIGHT, UP, LEFT, DOWN, ITSELF. -/
def directions (i : Nat) : Position :=
  match i with
  | 0 => ⟨1, 0⟩
  | 1 => ⟨0, 1⟩
  | 2 => ⟨-1, 0⟩
  | 3 => ⟨0, -1⟩
  | _ => ⟨0, 0⟩

/-- `get_neighbour`. -/
def get_neighbour (position : Position) (i : Nat) : Position :=
  ⟨position.x + (directions i).x, position.y + (directions i).y⟩

/-- `bfs_visit_field`: returns the new state and the new queue. -/
def bfs_visit_field (g : gamma_t) (queue : Queue) (position : Position) (owner : Nat)
    (what_means_visited : Bool) : gamma_t × Queue :=
  match get_field g position with
  | some field_visited =>
    if field_visited.owner = owner ∧ field_visited.bfs_flag ≠ what_means_visited then
      ({ g with board := set_field g.board position
                  { field_visited with bfs_flag := what_means_visited } },
        (List.range 4).foldl (fun q i => queue_insert q (get_neighbour position i)) queue)
    else (g, queue)
  | none => (g, queue)

/-- The `while` loop of `bfs`, run for at most `fuel` dequeues; `none` when the
loop has not finished within `fuel` dequeues. The pattern `to_visit :: rest` is
`queue_pop` on a queue that is not `queue_empty`. -/
def bfs_loop (fuel : Nat) (g : gamma_t) (queue : Queue) (goal : Position) (owner : Nat)
    (what_means_visited : Bool) : Option (gamma_t × Bool) :=
  match queue with
  | [] => some (g, false)
  | to_visit :: rest =>
    match fuel with
    | 0 => none
    | fuel + 1 =>
      let r := bfs_visit_field g rest to_visit owner what_means_visited
      if positions_equal to_visit goal then some (r.1, true)
      else bfs_loop fuel r.1 r.2 goal owner what_means_visited

/-- `bfs`. The loop dequeues at most `1 + 4 * width * height` positions
(`bfs_loop_terminates`), so the fuel given here is never exhausted. -/
def bfs (g : gamma_t) (source goal : Position) (owner : Nat) (what_means_visited : Bool) :
    gamma_t × Bool :=
  match bfs_loop (4 * (g.width * g.height) + 1) g (queue_insert queue_new source) goal owner
      what_means_visited with
  | some r => r
  | none => (g, false)

/-- `are_in_the_same_area`. Both positions are on the board at every call site. -/
def are_in_the_same_area (g : gamma_t) (a b : Position) : gamma_t × Bool :=
  let player_a := (g.board a).owner
  let player_b := (g.board b).owner
  if player_a = player_b then
    let r := bfs g a b player_a true
    let r2 := bfs r.1 a b player_a false
    (r2.1, r.2)
  else (g, false)

/-- The inner loop of `neighbouring_areas` over `j < i`; carries the state and `is_new`. -/
def neighbouring_areas_inner (g : gamma_t) (position : Position) (i : Nat) : gamma_t × Bool :=
  (List.range i).foldl
    (fun (s : gamma_t × Bool) j =>
      let neighbour_j_position := get_neighbour position j
      if inside_board s.1 neighbour_j_position then
        let r := are_in_the_same_area s.1 (get_neighbour position i) neighbour_j_position
        if r.2 then (r.1, false) else (r.1, s.2)
      else s)
    (g, true)

/-- `neighbouring_areas`: returns the state and the count. -/
def neighbouring_areas (g : gamma_t) (player : Nat) (position : Position)
    (include_center : Bool) : gamma_t × Nat :=
  if player = 0 then (g, 0)
  else
    let number_of_neighbours := if include_center then 5 else 4
    (List.range number_of_neighbours).foldl
      (fun (s : gamma_t × Nat) i =>
        match get_field s.1 (get_neighbour position i) with
        | some neighbour_i =>
          if neighbour_i.owner = player then
            let r := neighbouring_areas_inner s.1 position i
            if r.2 then (r.1, s.2 + 1) else (r.1, s.2)
          else s
        | none => s)
      (g, 0)

/-! ## moves.c -/

/-- `field->owner = new_owner`. -/
def write_owner (g : gamma_t) (position : Position) (new_owner : Nat) : gamma_t :=
  { g with board := set_field g.board position { (g.board position) with owner := new_owner } }

/-- `g->owners[i].busy_fields += 1` on a `uint64_t`. -/
def busy_fields_inc (g : gamma_t) (i : Nat) : gamma_t :=
  { g with owners := set_owner g.owners i
                { (g.owners i) with busy_fields := ((g.owners i).busy_fields + 1) % 2 ^ 64 } }

/-- `g->owners[i].busy_fields -= 1` on a `uint64_t`. -/
def busy_fields_dec (g : gamma_t) (i : Nat) : gamma_t :=
  { g with owners := set_owner g.owners i
                { (g.owners i) with busy_fields := ((g.owners i).busy_fields + (2 ^ 64 - 1)) % 2 ^ 64 } }

/-- `g->owners[i].busy_areas += delta` on an `int64_t`. The exact sum is written; it is
the sum of the source whenever that addition does not overflow. In the reachable states
the counter is the number of regions of the owner (`WellFormed.areas_exact`), at most
`2 ^ 32`, and `delta` is between -5 and 5; the theorems about boards that need not be
reachable assume `areas_in_range` for the counters that are updated. -/
def busy_areas_add (g : gamma_t) (i : Nat) (delta : Int) : gamma_t :=
  { g with owners := set_owner g.owners i
                { (g.owners i) with busy_areas := (g.owners i).busy_areas + delta } }

/-- `change_owner`. The position is on the board at every call site. -/
def change_owner (g : gamma_t) (new_owner : Nat) (position : Position) : gamma_t :=
  let old_owner := (g.board position).owner
  let r1 := neighbouring_areas g new_owner position true
  let new_owner_areas_before : Int := r1.2
  let r2 := neighbouring_areas r1.1 old_owner position true
  let old_owner_areas_before : Int := r2.2
  let g3 := write_owner r2.1 position new_owner
  let g4 := busy_fields_inc g3 new_owner
  let g5 := busy_fields_dec g4 old_owner
  let r6 := neighbouring_areas g5 new_owner position true
  let new_owner_areas_after : Int := r6.2
  let r7 := neighbouring_areas r6.1 old_owner position true
  let old_owner_areas_after : Int := r7.2
  let g8 := busy_areas_add r7.1 new_owner (new_owner_areas_after - new_owner_areas_before)
  busy_areas_add g8 old_owner (old_owner_areas_after - old_owner_areas_before)

/-- `change_owner_valid`: speculative change, test of both counters, revert. -/
def change_owner_valid (g : gamma_t) (new_owner : Nat) (position : Position) :
    gamma_t × Bool :=
  match get_field g position with
  | some field =>
    let old_owner := field.owner
    let g1 := change_owner g new_owner position
    let result := decide ((g1.owners new_owner).busy_areas ≤ (g1.max_areas : Int)) &&
                  decide ((g1.owners old_owner).busy_areas ≤ (g1.max_areas : Int))
    (change_owner g1 old_owner position, result)
  | none => (g, false)

/-- `golden_move_valid`, with the short-circuit evaluation of `&&`. -/
def golden_move_valid (g : gamma_t) (player : Nat) (position : Position) : gamma_t × Bool :=
  if player ≤ g.number_of_players ∧ player > 0 ∧ (g.owners player).golden_move_used = false then
    match get_field g position with
    | some field =>
      if field.owner ≠ 0 ∧ field.owner ≠ player then change_owner_valid g player position
      else (g, false)
    | none => (g, false)
  else (g, false)

/-- `move_valid`, with the short-circuit evaluation of `&&`. -/
def move_valid (g : gamma_t) (player : Nat) (position : Position) : gamma_t × Bool :=
  if player ≤ g.number_of_players ∧ player > 0 then
    match get_field g position with
    | some field =>
      if field.owner = 0 then change_owner_valid g player position
      else (g, false)
    | none => (g, false)
  else (g, false)

/-- `g->owners[player].golden_move_used = true`. -/
def set_golden_move_used (g : gamma_t) (player : Nat) : gamma_t :=
  { g with owners := set_owner g.owners player
                { (g.owners player) with golden_move_used := true } }

/-- `gamma_golden_move` on a non-NULL session: new state and return value. -/
def gamma_golden_move (g : gamma_t) (player x y : Nat) : gamma_t × Bool :=
  let position : Position := ⟨x, y⟩
  let r := golden_move_valid g player position
  if r.2 then (set_golden_move_used (change_owner r.1 player position) player, true)
  else (r.1, false)

/-- `gamma_move` on a non-NULL session: new state and return value. -/
def gamma_move (g : gamma_t) (player x y : Nat) : gamma_t × Bool :=
  let position : Position := ⟨x, y⟩
  let r := move_valid g player position
  if r.2 then (change_owner r.1 player position, true)
  else (r.1, false)

/-- `gamma_free_fields` on a non-NULL session: new state and the `uint64_t` count. -/
def gamma_free_fields (g : gamma_t) (player : Nat) : gamma_t × Nat :=
  (List.range g.width).foldl
    (fun (s : gamma_t × Nat) (x : Nat) =>
      (List.range s.1.height).foldl
        (fun (s : gamma_t × Nat) (y : Nat) =>
          let r := move_valid s.1 player ⟨(x : Int), (y : Int)⟩
          if r.2 then (r.1, (s.2 + 1) % 2 ^ 64) else (r.1, s.2))
        s)
    (g, 0)

/-! ## gamma.c -/

/-- `gamma_busy_fields` on a non-NULL session. -/
def gamma_busy_fields (g : gamma_t) (player : Nat) : Nat :=
  if player = 0 ∨ player > g.number_of_players then 0
  else (g.owners player).busy_fields

/-- The `for` loop of `gamma_golden_possible`, run for at most `fuel` iterations,
with its `uint32_t` counter `i`; `none` when the loop has not finished within
`fuel` iterations or reads `owners[player]` outside the array. -/
def gamma_golden_possible_loop (fuel : Nat) (g : gamma_t) (player i : Nat) (result : Bool) :
    Option Bool :=
  if i ≤ g.number_of_players then
    match fuel with
    | 0 => none
    | fuel + 1 =>
      if i ≠ player ∧ (g.owners i).busy_fields > 0 then
        if player ≤ g.number_of_players then
          gamma_golden_possible_loop fuel g player ((i + 1) % 2 ^ 32)
            (!(g.owners player).golden_move_used)
        else none
      else gamma_golden_possible_loop fuel g player ((i + 1) % 2 ^ 32) result
  else some result

/-- `gamma_golden_possible` on a non-NULL session; `some b` when the call returns `b`.
A run that ends makes at most `2 ^ 32 - 1` iterations. -/
def gamma_golden_possible (g : gamma_t) (player : Nat) : Option Bool :=
  gamma_golden_possible_loop (2 ^ 32) g player 1 false

/-! ## memory.c -/

/-- `gamma_new`: `none` is the NULL result. The product `width * height` is a
product of two `uint32_t`. -/
def gamma_new (width height players areas : Nat) : Option gamma_t :=
  if width = 0 ∨ height = 0 ∨ players = 0 ∨ areas = 0 then none
  else some
    { width := width
      height := height
      max_areas := areas
      board := fun _ => ⟨0, false⟩
      owners := set_owner (fun _ => ⟨false, 0, 0⟩) 0 ⟨false, (width * height) % 2 ^ 32, 0⟩
      number_of_players := players }

/-! ## print.c -/

/-- `number_of_digits`: the length that `snprintf` reports for the format `%u`. -/
def number_of_digits (number : Nat) : Nat := (Nat.toDigits 10 number).length

/-- `owner_to_str`: `.` for owner 0, the decimal digits otherwise. -/
def owner_to_str (owner : Nat) : List Char :=
  if owner = 0 then ['.'] else Nat.toDigits 10 owner

/-- The characters that the body of the inner loop of `gamma_board` writes for the cell
`(x, y)`. The field width of `%*s` is the `uint32_t` difference
`column_width - strlen(owner_str)` read as an `int`; a negative width pads the empty
string on the other side, with as many blanks. -/
def gamma_board_cell (g : gamma_t) (column_width row_padding x y : Nat) : List Char :=
  let owner_str := owner_to_str (g.board ⟨(x : Int), (y : Int)⟩).owner
  let field_width := (column_width + (2 ^ 32 - owner_str.length % 2 ^ 32)) % 2 ^ 32
  let blanks := if field_width < 2 ^ 31 then field_width else 2 ^ 32 - field_width
  List.replicate blanks ' ' ++ owner_str ++
    (if x < (g.width + (2 ^ 32 - 1)) % 2 ^ 32 then List.replicate row_padding ' ' else [])

/-- The characters that `gamma_board` writes before the final `0` byte: the rows from
`y = height - 1` down to `y = 0`, each ended by a line break. -/
def gamma_board_text (g : gamma_t) : List Char :=
  let max_player_length := number_of_digits g.number_of_players
  let row_padding := if max_player_length = 1 then 0 else 1
  let column_width := max_player_length
  (List.range g.height).reverse.flatMap (fun (y : Nat) =>
    (List.range g.width).flatMap (fun (x : Nat) =>
      gamma_board_cell g column_width row_padding x y) ++ [Char.ofNat 10])

/-- The argument of `malloc` in `gamma_board`, `row_width * g->height + 1`, computed on
`uint32_t`. -/
def gamma_board_size (g : gamma_t) : Nat :=
  let max_player_length := number_of_digits g.number_of_players
  let row_padding := if max_player_length = 1 then 0 else 1
  let column_width := max_player_length
  let row_width :=
    (column_width * g.width + row_padding * ((g.width + (2 ^ 32 - 1)) % 2 ^ 32) + 1) % 2 ^ 32
  (row_width * g.height + 1) % 2 ^ 32

/-- `gamma_board` on a non-NULL session: the text written, or `none` when the text with
its final `0` byte does not fit the buffer allocated for it (the writes then leave the
buffer). -/
def gamma_board (g : gamma_t) : Option (List Char) :=
  if (gamma_board_text g).length + 1 ≤ gamma_board_size g then some (gamma_board_text g)
  else none

/-! ## interactive.c -/

/-- `gamma_board_position`: the screen position (column `x`, line `y`, both counted from
1) of a position of the board. The sum `column_width + row_padding` is a `uint32_t`;
the product and the difference are computed on `int64_t`. -/
def gamma_board_position (g : gamma_t) (positionOnBoard : Position) : Position :=
  let max_player_length := number_of_digits g.number_of_players
  let row_padding := if max_player_length = 1 then 0 else 1
  let column_width := max_player_length
  ⟨positionOnBoard.x * (((column_width + row_padding) % 2 ^ 32 : Nat) : Int) + 1,
    (g.height : Int) - positionOnBoard.y⟩

/-! ## gamma_main.c -/

/-- `MAX_NUMBER_OF_TOKENS`. -/
def MAX_NUMBER_OF_TOKENS : Nat := 5

/-- `UINT32_MAX`. -/
def UINT32_MAX : Nat := 2 ^ 32 - 1

/-- `isspace` of the C locale: space, `\t`, `\n`, `\v`, `\f`, `\r`. -/
def isspace (c : Char) : Bool := decide (c = ' ') || (decide (9 ≤ c.toNat) && decide (c.toNat ≤ 13))

/-- The `for` loop of `parse` with `n` iterations left, at the rest `string` of the
line: the slots from the current one to the last. A slot holds the token as the C string
that its pointer reads after `parse` has returned, `none` is NULL (the array comes from
`calloc`). The blanks after a token are overwritten with `0` by the next iteration, so
the token of the last iteration runs to the end of the line. -/
def parse_loop : Nat → List Char → List (Option (List Char))
  | 0, _ => []
  | n + 1, string =>
    if string = [] then List.replicate (n + 1) none
    else
      let token := string.dropWhile isspace
      let rest := token.dropWhile (fun c => !isspace c)
      (if token ≠ [] then
          some (if n = 0 then token else token.takeWhile (fun c => !isspace c))
        else none) :: parse_loop n rest

/-- `parse` when `calloc` succeeds: the array of `MAX_NUMBER_OF_TOKENS + 1` slots. -/
def parse (string : List Char) : List (Option (List Char)) :=
  parse_loop (MAX_NUMBER_OF_TOKENS + 1) string

/-- The `while` loop of `strToInt` with the `uint64_t` accumulator `result`: `none` when
the loop leaves with `return false`, `some result` when it reaches the end of the
string. -/
def strToInt_loop : List Char → Nat → Option Nat
  | [], result => some result
  | c :: str, result =>
    if '0' ≤ c ∧ c ≤ '9' ∧ result ≤ UINT32_MAX then
      strToInt_loop str ((10 * result + (c.toNat - '0'.toNat)) % 2 ^ 64)
    else none

/-- `strToInt`: the value returned and the content of `*output` after the call;
`str = none` is the NULL pointer. -/
def strToInt (str : Option (List Char)) (output : Nat) : Bool × Nat :=
  match str with
  | none => (false, output)
  | some s =>
    match strToInt_loop s 0 with
    | none => (false, output)
    | some result =>
      (decide (result ≤ UINT32_MAX), if result ≤ UINT32_MAX then result % 2 ^ 32 else output)

/-- The `while` loop of `numberOfTokens`; `tokens` is the advancing pointer, given as
the slots of the array from it on. `Except.error i` when the loop reads the slot of
index `i`, which lies behind the last slot of the array. -/
def numberOfTokens_loop : List (Option (List Char)) → Nat → Except Nat Nat
  | tokens, result =>
    if result ≤ MAX_NUMBER_OF_TOKENS + 1 then
      match tokens with
      | [] => Except.error result
      | none :: _ => Except.ok result
      | some _ :: rest => numberOfTokens_loop rest (result + 1)
    else Except.ok result

/-- `numberOfTokens` on an array given by its slots. -/
def numberOfTokens (tokens : List (Option (List Char))) : Except Nat Nat :=
  numberOfTokens_loop tokens 0

/-! ## Regions and reachable states -/

/-- All positions of the board. -/
def cells (g : gamma_t) : Finset Position :=
  ((Finset.range g.width) ×ˢ (Finset.range g.height)).image
    (fun c => (⟨(c.1 : Int), (c.2 : Int)⟩ : Position))

/-- The cells of the board owned by `o`. -/
def owned_cells (g : gamma_t) (o : Nat) : Finset Position :=
  (cells g).filter (fun p => (g.board p).owner = o)

/-- Four-directional adjacency. -/
def adjacent (a b : Position) : Prop := ∃ i, i < 4 ∧ get_neighbour a i = b

/-- Two adjacent cells of the set `C`. -/
def linked (C : Finset Position) (u v : Position) : Prop := u ∈ C ∧ v ∈ C ∧ adjacent u v

/-- Cells joined by a path of adjacent cells of `C`. -/
def connected (C : Finset Position) : Position → Position → Prop :=
  Relation.ReflTransGen (linked C)

/-- One round of growth: `S` with the cells of `C` that have a neighbour in `S`. -/
def expand (C S : Finset Position) : Finset Position :=
  S ∪ C.filter (fun v => ∃ i ∈ Finset.range 4, get_neighbour v i ∈ S)

/-- The region of `a` in `C`: the cells of `C` joined to `a` (`mem_region_iff`). -/
def region (C : Finset Position) (a : Position) : Finset Position :=
  if a ∈ C then (expand C)^[C.card] {a} else ∅

/-- Number of 4-connected regions formed by the cells of `C`. -/
def count_regions (C : Finset Position) : Nat := (C.image (region C)).card

/-- Number of 4-connected regions formed by the cells that `o` owns. -/
def region_count (g : gamma_t) (o : Nat) : Nat := count_regions (owned_cells g o)

/-- The board after giving the one cell `p` to `o`. -/
def with_owner (g : gamma_t) (p : Position) (o : Nat) : gamma_t := write_owner g p o

/-- States reachable from a successful `gamma_new width height players areas`
by calls of the state-changing public functions. -/
inductive Reachable (width height players areas : Nat) : gamma_t → Prop
  | new (g : gamma_t) : width < 2 ^ 32 → height < 2 ^ 32 → players < 2 ^ 32 →
      areas < 2 ^ 32 → gamma_new width height players areas = some g →
      Reachable width height players areas g
  | move (g : gamma_t) (player x y : Nat) : Reachable width height players areas g →
      Reachable width height players areas (gamma_move g player x y).1
  | golden_move (g : gamma_t) (player x y : Nat) : Reachable width height players areas g →
      Reachable width height players areas (gamma_golden_move g player x y).1
  | free_fields (g : gamma_t) (player : Nat) : Reachable width height players areas g →
      Reachable width height players areas (gamma_free_fields g player).1

/-- Reachable states together with the players whose golden move has succeeded so
far, most recent first. -/
inductive ReachableGold (width height players areas : Nat) : gamma_t → List Nat → Prop
  | new (g : gamma_t) : width < 2 ^ 32 → height < 2 ^ 32 → players < 2 ^ 32 →
      areas < 2 ^ 32 → gamma_new width height players areas = some g →
      ReachableGold width height players areas g []
  | move (g : gamma_t) (gold : List Nat) (player x y : Nat) :
      ReachableGold width height players areas g gold →
      ReachableGold width height players areas (gamma_move g player x y).1 gold
  | golden_move (g : gamma_t) (gold : List Nat) (player x y : Nat) :
      ReachableGold width height players areas g gold →
      ReachableGold width height players areas (gamma_golden_move g player x y).1
        (if (gamma_golden_move g player x y).2 = true then player :: gold else gold)
  | free_fields (g : gamma_t) (gold : List Nat) (player : Nat) :
      ReachableGold width height players areas g gold →
      ReachableGold width height players areas (gamma_free_fields g player).1 gold

/-- The session that a successful `gamma_new width height players areas` returns. -/
def initial (width height players areas : Nat) : gamma_t :=
  { width := width
    height := height
    max_areas := areas
    board := fun _ => ⟨0, false⟩
    owners := set_owner (fun _ => ⟨false, 0, 0⟩) 0 ⟨false, (width * height) % 2 ^ 32, 0⟩
    number_of_players := players }

/-! ## The layout of the rendered board, in the words of the specification -/

/-- The lists of `cells`, with `sep` between consecutive ones. -/
def separated (sep : List Char) : List (List Char) → List Char
  | [] => []
  | [a] => a
  | a :: b :: rest => a ++ sep ++ separated sep (b :: rest)

/-- The separator of the cells of a row: one space when `number_of_players` has more
than one decimal digit, nothing otherwise. -/
def cell_separator (g : gamma_t) : List Char :=
  if 1 < number_of_digits g.number_of_players then [' '] else []

/-- The rendering of a cell in the words of the specification: the decimal
representation of the owner, or `.` for an unowned cell. -/
def cell_text_spec (g : gamma_t) (x y : Nat) : List Char :=
  if (g.board ⟨(x : Int), (y : Int)⟩).owner = 0 then ['.']
  else Nat.toDigits 10 (g.board ⟨(x : Int), (y : Int)⟩).owner

/-- The layout in the words of the specification: rows from `height - 1` down to 0,
each the renderings of its cells, separated, then one line break. -/
def board_layout_spec (g : gamma_t) : List Char :=
  (List.range g.height).reverse.flatMap (fun (y : Nat) =>
    separated (cell_separator g) ((List.range g.width).map (fun (x : Nat) => cell_text_spec g x y))
      ++ [Char.ofNat 10])

/-- The rendering of a cell, right-aligned by leading spaces to the number of decimal
digits of `number_of_players`. -/
def cell_text_padded (g : gamma_t) (x y : Nat) : List Char :=
  List.replicate (number_of_digits g.number_of_players - (cell_text_spec g x y).length) ' ' ++
    cell_text_spec g x y

/-- The layout with right-aligned cells. -/
def board_layout_padded (g : gamma_t) : List Char :=
  (List.range g.height).reverse.flatMap (fun (y : Nat) =>
    separated (cell_separator g)
      ((List.range g.width).map (fun (x : Nat) => cell_text_padded g x y))
      ++ [Char.ofNat 10])

/-! ## Lines of a text and decimal strings, in the words of the specification -/

/-- The characters of line `n` of a text, lines counted from 0: those after the `n`-th
line break, up to the next line break. -/
def text_line : List Char → Nat → List Char
  | [], _ => []
  | c :: cs, 0 => if c = Char.ofNat 10 then [] else c :: text_line cs 0
  | c :: cs, n + 1 => if c = Char.ofNat 10 then text_line cs n else text_line cs (n + 1)

/-- The number that a string of decimal digits denotes, most significant digit first;
0 for the empty string. -/
def decimal_value (s : List Char) : Nat :=
  s.foldl (fun n c => 10 * n + (c.toNat - '0'.toNat)) 0

/-! ## Auxiliary definitions for the analysis of the search -/

/-- No cell carries a visited mark. -/
def all_clear (g : gamma_t) : Prop := ∀ p, (g.board p).bfs_flag = false

/-- The state `g` with the visited marks replaced by `f`. -/
def with_flags (g : gamma_t) (f : Position → Bool) : gamma_t :=
  { g with board := fun p => ⟨(g.board p).owner, f p⟩ }

/-- The visited marks of `g`. -/
def flags_of (g : gamma_t) : Position → Bool := fun p => (g.board p).bfs_flag

/-- The cell is on the board and owned by `o`. -/
def visitable (g : gamma_t) (o : Nat) (p : Position) : Bool :=
  inside_board g p && decide ((g.board p).owner = o)

/-- The four neighbours pushed by a visit, in queue order. -/
def pushed (p : Position) : List Position :=
  [get_neighbour p 0, get_neighbour p 1, get_neighbour p 2, get_neighbour p 3]

/-- The loop of `bfs` seen on the visited marks alone: `ok` tells which cells
may be visited, `f` holds the marks. -/
def bfs_flags (ok : Position → Bool) (fuel : Nat) (f : Position → Bool) (queue : List Position)
    (goal : Position) (w : Bool) : Option ((Position → Bool) × Bool) :=
  match queue with
  | [] => some (f, false)
  | p :: rest =>
    match fuel with
    | 0 => none
    | fuel + 1 =>
      if ok p = true ∧ f p ≠ w then
        if p = goal then some (Function.update f p w, true)
        else bfs_flags ok fuel (Function.update f p w) (rest ++ pushed p) goal w
      else
        if p = goal then some (f, true)
        else bfs_flags ok fuel f rest goal w

/-- Number of cells that a search for `ok` cells with polarity `w` can still visit. -/
def unvisited (g : gamma_t) (ok : Position → Bool) (f : Position → Bool) (w : Bool) : Nat :=
  ((cells g).filter (fun c => ok c = true ∧ f c ≠ w)).card

/-- The loop invariant of the first search (polarity `true`). -/
structure SearchInv (C : Finset Position) (src goal : Position) (f : Position → Bool)
    (q : List Position) : Prop where
  not_goal : ∀ c, f c = true → c ≠ goal
  queue_conn : ∀ c, c ∈ q → c ∈ C → connected C src c
  closed : ∀ v, f v = true → ∀ n, adjacent v n → n ∈ C → f n = true ∨ n ∈ q
  src_seen : src ∈ q ∨ f src = true

/-- Number of distinct regions of `C` that contain a cell of the list `l`. -/
def touching (C : Finset Position) (l : List Position) : Nat :=
  ((l.toFinset.filter (fun c => c ∈ C)).image (region C)).card

/-- The first `n` entries of the neighbourhood of a position, in the order of `directions`. -/
def neighbourhood (position : Position) (n : Nat) : List Position :=
  (List.range n).map (get_neighbour position)

/-- The value `neighbouring_areas g player position true` has on a clear board
(`neighbouring_areas_eq`). -/
def areas_at (g : gamma_t) (player : Nat) (position : Position) : Nat :=
  if player = 0 then 0 else touching (owned_cells g player) (neighbourhood position 5)

/-- The owner bookkeeping of `change_owner` before the area counters are updated. -/
def moved (g : gamma_t) (new_owner : Nat) (position : Position) : gamma_t :=
  busy_fields_dec (busy_fields_inc (write_owner g position new_owner) new_owner)
    (g.board position).owner

/-- The invariant of the reachable states. -/
structure WellFormed (g : gamma_t) : Prop where
  clear : all_clear g
  width_lt : g.width < 2 ^ 32
  height_lt : g.height < 2 ^ 32
  owner_le : ∀ p, (g.board p).owner ≤ g.number_of_players
  areas_exact : ∀ p, p ≠ 0 → (g.owners p).busy_areas = region_count g p
  areas_zero : (g.owners 0).busy_areas = 0
  fields_exact : ∀ p, p ≠ 0 → (g.owners p).busy_fields = (owned_cells g p).card
  fields_zero : (g.owners 0).busy_fields =
    ((g.width * g.height) % 2 ^ 32 +
      (2 ^ 64 - (g.width * g.height - (owned_cells g 0).card))) % 2 ^ 64
  areas_le : ∀ p, p ≠ 0 → region_count g p ≤ g.max_areas

set_option maxRecDepth 100000

/-! ## Basic facts -/

theorem positions_equal_iff (a b : Position) : positions_equal a b = true ↔ a = b := by
  cases a; cases b; simp [positions_equal]

theorem inside_board_iff (g : gamma_t) (p : Position) :
    inside_board g p = true ↔ 0 ≤ p.x ∧ p.x < (g.width : Int) ∧ 0 ≤ p.y ∧ p.y < (g.height : Int) := by
  simp [inside_board, and_assoc]

theorem mem_cells (g : gamma_t) (p : Position) : p ∈ cells g ↔ inside_board g p = true := by
  rw [inside_board_iff]
  constructor
  · intro h
    simp only [cells, Finset.mem_image, Finset.mem_product, Finset.mem_range, Prod.exists] at h
    obtain ⟨a, b, ⟨ha, hb⟩, rfl⟩ := h
    simp only
    omega
  · rintro ⟨h1, h2, h3, h4⟩
    simp only [cells, Finset.mem_image, Finset.mem_product, Finset.mem_range, Prod.exists]
    obtain ⟨px, py⟩ := p
    simp only at h1 h2 h3 h4
    refine ⟨px.toNat, py.toNat, ⟨by omega, by omega⟩, ?_⟩
    simp only [Position.mk.injEq]
    constructor <;> omega

theorem mem_owned_cells (g : gamma_t) (o : Nat) (p : Position) :
    p ∈ owned_cells g o ↔ inside_board g p = true ∧ (g.board p).owner = o := by
  simp [owned_cells, mem_cells]

theorem visitable_iff (g : gamma_t) (o : Nat) (p : Position) :
    visitable g o p = true ↔ p ∈ owned_cells g o := by
  simp [visitable, mem_owned_cells]

theorem card_cells (g : gamma_t) : (cells g).card = g.width * g.height := by
  unfold cells
  rw [Finset.card_image_of_injective]
  · simp
  · intro a b h
    simp only [Position.mk.injEq] at h
    obtain ⟨h1, h2⟩ := h
    ext <;> omega

@[simp] theorem with_flags_width (g : gamma_t) (f) : (with_flags g f).width = g.width := rfl
@[simp] theorem with_flags_height (g : gamma_t) (f) : (with_flags g f).height = g.height := rfl
@[simp] theorem with_flags_max_areas (g : gamma_t) (f) :
    (with_flags g f).max_areas = g.max_areas := rfl
@[simp] theorem with_flags_owners (g : gamma_t) (f) : (with_flags g f).owners = g.owners := rfl
@[simp] theorem with_flags_players (g : gamma_t) (f) :
    (with_flags g f).number_of_players = g.number_of_players := rfl
@[simp] theorem with_flags_owner (g : gamma_t) (f) (p : Position) :
    ((with_flags g f).board p).owner = (g.board p).owner := rfl
@[simp] theorem with_flags_flag (g : gamma_t) (f) (p : Position) :
    ((with_flags g f).board p).bfs_flag = f p := rfl
@[simp] theorem with_flags_with_flags (g : gamma_t) (f f2) :
    with_flags (with_flags g f) f2 = with_flags g f2 := rfl
@[simp] theorem inside_board_with_flags (g : gamma_t) (f) (p : Position) :
    inside_board (with_flags g f) p = inside_board g p := rfl
@[simp] theorem visitable_with_flags (g : gamma_t) (f) (o : Nat) (p : Position) :
    visitable (with_flags g f) o p = visitable g o p := rfl
@[simp] theorem cells_with_flags (g : gamma_t) (f) : cells (with_flags g f) = cells g := rfl
@[simp] theorem owned_cells_with_flags (g : gamma_t) (f) (o : Nat) :
    owned_cells (with_flags g f) o = owned_cells g o := rfl

theorem with_flags_flags_of (g : gamma_t) : with_flags g (flags_of g) = g := by
  cases g; rfl

theorem with_flags_clear (g : gamma_t) (h : all_clear g) : with_flags g (fun _ => false) = g := by
  have : flags_of g = fun _ => false := funext h
  rw [← this]; exact with_flags_flags_of g

theorem all_clear_with_flags (g : gamma_t) : all_clear (with_flags g (fun _ => false)) :=
  fun _ => rfl

/-! ## The search on the state and on the marks agree -/

theorem bfs_visit_field_with_flags (g : gamma_t) (f : Position → Bool) (q : Queue)
    (p : Position) (o : Nat) (w : Bool) :
    bfs_visit_field (with_flags g f) q p o w =
      if visitable g o p = true ∧ f p ≠ w then
        (with_flags g (Function.update f p w), q ++ pushed p)
      else (with_flags g f, q) := by
  unfold bfs_visit_field get_field
  by_cases hin : inside_board g p = true
  · simp only [inside_board_with_flags, hin, if_true, with_flags_owner, with_flags_flag,
      visitable, Bool.true_and, decide_eq_true_eq]
    by_cases hc : (g.board p).owner = o ∧ f p ≠ w
    · rw [if_pos hc, if_pos hc]
      refine Prod.ext ?_ ?_
      · simp only [with_flags]
        congr 1
        funext q'
        by_cases hq : q' = p
        · subst hq; simp [set_field]
        · simp [set_field, hq, Function.update_noteq hq]
      · simp [List.range, List.range.loop, List.foldl, queue_insert, pushed]
    · rw [if_neg hc, if_neg hc]
  · simp only [inside_board_with_flags, hin, visitable]
    simp

theorem bfs_loop_with_flags (g : gamma_t) (o : Nat) (goal : Position) (w : Bool) :
    ∀ (fuel : Nat) (f : Position → Bool) (q : List Position),
      bfs_loop fuel (with_flags g f) q goal o w =
        (bfs_flags (visitable g o) fuel f q goal w).map (fun r => (with_flags g r.1, r.2)) := by
  intro fuel
  induction fuel with
  | zero =>
    intro f q
    cases q <;> simp [bfs_loop, bfs_flags]
  | succ n ih =>
    intro f q
    cases q with
    | nil => simp [bfs_loop, bfs_flags]
    | cons p rest =>
      simp only [bfs_loop, bfs_flags, bfs_visit_field_with_flags]
      by_cases hc : visitable g o p = true ∧ f p ≠ w
      · simp only [if_pos hc]
        by_cases hg : p = goal
        · simp [hg, (positions_equal_iff goal goal).2 rfl]
        · have : positions_equal p goal = false := by
            rw [Bool.eq_false_iff]; intro h; exact hg ((positions_equal_iff _ _).1 h)
          simp [hg, this, ih]
      · simp only [if_neg hc]
        by_cases hg : p = goal
        · simp [hg, (positions_equal_iff goal goal).2 rfl]
        · have : positions_equal p goal = false := by
            rw [Bool.eq_false_iff]; intro h; exact hg ((positions_equal_iff _ _).1 h)
          simp [hg, this, ih]

/-! ## Termination of the search -/

theorem unvisited_update (g : gamma_t) (ok : Position → Bool) (f : Position → Bool) (w : Bool)
    (p : Position) (hp : p ∈ cells g) (hok : ok p = true) (hf : f p ≠ w) :
    unvisited g ok (Function.update f p w) w + 1 = unvisited g ok f w := by
  unfold unvisited
  have hmem : p ∈ (cells g).filter (fun c => ok c = true ∧ f c ≠ w) := by
    simp [hp, hok, hf]
  have heq : (cells g).filter (fun c => ok c = true ∧ Function.update f p w c ≠ w) =
      ((cells g).filter (fun c => ok c = true ∧ f c ≠ w)).erase p := by
    ext c
    by_cases hc : c = p
    · subst hc; simp
    · simp [Function.update_noteq hc, hc]
  rw [heq, Finset.card_erase_of_mem hmem]
  have : 0 < ((cells g).filter (fun c => ok c = true ∧ f c ≠ w)).card :=
    Finset.card_pos.2 ⟨p, hmem⟩
  omega

theorem unvisited_le (g : gamma_t) (ok : Position → Bool) (f : Position → Bool) (w : Bool) :
    unvisited g ok f w ≤ g.width * g.height := by
  rw [← card_cells]
  exact Finset.card_filter_le _ _

theorem bfs_flags_terminates (g : gamma_t) (ok : Position → Bool)
    (hok : ∀ p, ok p = true → p ∈ cells g) (goal : Position) (w : Bool) :
    ∀ (fuel : Nat) (f : Position → Bool) (q : List Position),
      q.length + 4 * unvisited g ok f w ≤ fuel →
      ∃ r, bfs_flags ok fuel f q goal w = some r := by
  intro fuel
  induction fuel with
  | zero =>
    intro f q h
    cases q with
    | nil => exact ⟨_, rfl⟩
    | cons p rest => simp at h
  | succ n ih =>
    intro f q h
    cases q with
    | nil => exact ⟨_, rfl⟩
    | cons p rest =>
      simp only [bfs_flags]
      by_cases hc : ok p = true ∧ f p ≠ w
      · rw [if_pos hc]
        by_cases hg : p = goal
        · rw [if_pos hg]; exact ⟨_, rfl⟩
        · rw [if_neg hg]
          apply ih
          have := unvisited_update g ok f w p (hok p hc.1) hc.1 hc.2
          simp only [List.length_cons, List.length_append, pushed, List.length_nil] at h ⊢
          omega
      · rw [if_neg hc]
        by_cases hg : p = goal
        · rw [if_pos hg]; exact ⟨_, rfl⟩
        · rw [if_neg hg]
          apply ih
          simp only [List.length_cons] at h
          omega

/-! ## Soundness and completeness of the search from a clear board -/

theorem adjacent_pushed (p n : Position) : n ∈ pushed p ↔ adjacent p n := by
  unfold pushed adjacent
  constructor
  · intro h
    simp only [List.mem_cons, List.mem_singleton, List.not_mem_nil, or_false] at h
    rcases h with h | h | h | h
    · exact ⟨0, by omega, h.symm⟩
    · exact ⟨1, by omega, h.symm⟩
    · exact ⟨2, by omega, h.symm⟩
    · exact ⟨3, by omega, h.symm⟩
  · rintro ⟨i, hi, rfl⟩
    have : i = 0 ∨ i = 1 ∨ i = 2 ∨ i = 3 := by omega
    rcases this with rfl | rfl | rfl | rfl <;> simp

theorem SearchInv_step_visit {C : Finset Position} {src goal : Position} {f : Position → Bool}
    {p : Position} {rest : List Position} (h : SearchInv C src goal f (p :: rest))
    (hp : p ∈ C) (hg : p ≠ goal) :
    SearchInv C src goal (Function.update f p true) (rest ++ pushed p) := by
  have hsp : connected C src p := h.queue_conn p (List.mem_cons_self _ _) hp
  refine ⟨?_, ?_, ?_, ?_⟩
  · intro c hc
    by_cases hcp : c = p
    · subst hcp; exact hg
    · rw [Function.update_noteq hcp] at hc; exact h.not_goal c hc
  · intro c hc hcC
    rcases List.mem_append.1 hc with hc | hc
    · exact h.queue_conn c (List.mem_cons_of_mem _ hc) hcC
    · exact Relation.ReflTransGen.tail hsp ⟨hp, hcC, (adjacent_pushed p c).1 hc⟩
  · intro v hv n hadj hn
    by_cases hnp : n = p
    · left; subst hnp; simp
    · rw [Function.update_noteq hnp]
      by_cases hvp : v = p
      · subst hvp
        right; exact List.mem_append.2 (Or.inr ((adjacent_pushed v n).2 hadj))
      · rw [Function.update_noteq hvp] at hv
        rcases h.closed v hv n hadj hn with h1 | h1
        · exact Or.inl h1
        · rcases List.mem_cons.1 h1 with h2 | h2
          · exact absurd h2 hnp
          · exact Or.inr (List.mem_append.2 (Or.inl h2))
  · by_cases hsp' : src = p
    · right; subst hsp'; simp
    · rw [Function.update_noteq hsp']
      rcases h.src_seen with h1 | h1
      · rcases List.mem_cons.1 h1 with h2 | h2
        · exact absurd h2 hsp'
        · exact Or.inl (List.mem_append.2 (Or.inl h2))
      · exact Or.inr h1

theorem SearchInv_step_skip {C : Finset Position} {src goal : Position} {f : Position → Bool}
    {p : Position} {rest : List Position} (h : SearchInv C src goal f (p :: rest))
    (hsrc : src ∈ C) (hp : p ∉ C ∨ f p = true) :
    SearchInv C src goal f rest := by
  refine ⟨h.not_goal, ?_, ?_, ?_⟩
  · intro c hc hcC
    exact h.queue_conn c (List.mem_cons_of_mem _ hc) hcC
  · intro v hv n hadj hn
    rcases h.closed v hv n hadj hn with h1 | h1
    · exact Or.inl h1
    · rcases List.mem_cons.1 h1 with h2 | h2
      · subst h2
        rcases hp with hp | hp
        · exact absurd hn hp
        · exact Or.inl hp
      · exact Or.inr h2
  · rcases h.src_seen with h1 | h1
    · rcases List.mem_cons.1 h1 with h2 | h2
      · subst h2
        rcases hp with hp | hp
        · exact absurd hsrc hp
        · exact Or.inr hp
      · exact Or.inl h2
    · exact Or.inr h1

theorem SearchInv_exhausted {C : Finset Position} {src goal : Position} {f : Position → Bool}
    (h : SearchInv C src goal f []) : ¬ connected C src goal := by
  intro hconn
  have hsrc : f src = true := by
    rcases h.src_seen with h1 | h1
    · simp at h1
    · exact h1
  have hall : ∀ c, connected C src c → f c = true := by
    intro c hc
    induction hc with
    | refl => exact hsrc
    | tail _ hl ih =>
      rcases h.closed _ ih _ hl.2.2 hl.2.1 with h1 | h1
      · exact h1
      · simp at h1
  exact h.not_goal goal (hall goal hconn) rfl

theorem bfs_flags_correct (C : Finset Position) (ok : Position → Bool)
    (hok : ∀ p, ok p = true ↔ p ∈ C) (src goal : Position) (hsrc : src ∈ C) (hgoal : goal ∈ C) :
    ∀ (fuel : Nat) (f : Position → Bool) (q : List Position) (r : (Position → Bool) × Bool),
      SearchInv C src goal f q → bfs_flags ok fuel f q goal true = some r →
      (r.2 = true ↔ connected C src goal) := by
  intro fuel
  induction fuel with
  | zero =>
    intro f q r hinv hr
    cases q with
    | nil =>
      simp only [bfs_flags, Option.some.injEq] at hr
      subst hr
      simpa using SearchInv_exhausted hinv
    | cons p rest => simp [bfs_flags] at hr
  | succ n ih =>
    intro f q r hinv hr
    cases q with
    | nil =>
      simp only [bfs_flags, Option.some.injEq] at hr
      subst hr
      simpa using SearchInv_exhausted hinv
    | cons p rest =>
      simp only [bfs_flags] at hr
      by_cases hg : p = goal
      · have hr2 : r.2 = true := by
          by_cases hc : ok p = true ∧ f p ≠ true
          · rw [if_pos hc, if_pos hg] at hr
            simp only [Option.some.injEq] at hr
            rw [← hr]
          · rw [if_neg hc, if_pos hg] at hr
            simp only [Option.some.injEq] at hr
            rw [← hr]
        have := hinv.queue_conn p (List.mem_cons_self _ _) (hg ▸ hgoal)
        rw [hg] at this
        simp [hr2, this]
      · by_cases hc : ok p = true ∧ f p ≠ true
        · rw [if_pos hc, if_neg hg] at hr
          exact ih _ _ r (SearchInv_step_visit hinv ((hok p).1 hc.1) hg) hr
        · rw [if_neg hc, if_neg hg] at hr
          refine ih _ _ r (SearchInv_step_skip hinv hsrc ?_) hr
          by_cases hpC : p ∈ C
          · right
            have : ¬ f p ≠ true := fun h => hc ⟨(hok p).2 hpC, h⟩
            simpa using this
          · exact Or.inl hpC

theorem SearchInv_init (C : Finset Position) (src goal : Position) :
    SearchInv C src goal (fun _ => false) [src] := by
  refine ⟨?_, ?_, ?_, ?_⟩
  · intro c hc; simp at hc
  · intro c hc _
    simp only [List.mem_singleton] at hc
    subst hc; exact Relation.ReflTransGen.refl
  · intro v hv; simp at hv
  · left; simp

/-! ## The second search clears every mark set by the first -/

theorem bfs_flags_mono (ok : Position → Bool) (goal : Position) :
    ∀ (fuel : Nat) (f : Position → Bool) (q : List Position) (r : (Position → Bool) × Bool),
      bfs_flags ok fuel f q goal true = some r → ∀ c, f c = true → r.1 c = true := by
  intro fuel
  induction fuel with
  | zero =>
    intro f q r hr c hc
    cases q with
    | nil => simp only [bfs_flags, Option.some.injEq] at hr; subst hr; exact hc
    | cons p rest => simp [bfs_flags] at hr
  | succ n ih =>
    intro f q r hr c hc
    cases q with
    | nil => simp only [bfs_flags, Option.some.injEq] at hr; subst hr; exact hc
    | cons p rest =>
      simp only [bfs_flags] at hr
      have hupd : Function.update f p true c = true := by
        by_cases hcp : c = p
        · subst hcp; simp
        · rw [Function.update_noteq hcp]; exact hc
      by_cases hc1 : ok p = true ∧ f p ≠ true
      · rw [if_pos hc1] at hr
        by_cases hg : p = goal
        · rw [if_pos hg] at hr
          simp only [Option.some.injEq] at hr; subst hr; exact hupd
        · rw [if_neg hg] at hr
          exact ih _ _ r hr c hupd
      · rw [if_neg hc1] at hr
        by_cases hg : p = goal
        · rw [if_pos hg] at hr
          simp only [Option.some.injEq] at hr; subst hr; exact hc
        · rw [if_neg hg] at hr
          exact ih _ _ r hr c hc

theorem flags_all_false (f1 f2 fE : Position → Bool) (h1 : ∀ c, f1 c = true → f2 c = false)
    (h2 : ∀ c, f1 c = false → f2 c = fE c) (hE : fE = f1) : f2 = fun _ => false := by
  funext c
  subst hE
  cases hc : fE c
  · rw [h2 c hc, hc]
  · exact h1 c hc

theorem bfs_flags_reset (ok : Position → Bool) (goal : Position) :
    ∀ (fuel : Nat) (f1 : Position → Bool) (q : List Position) (f2 : Position → Bool)
      (r : (Position → Bool) × Bool),
      bfs_flags ok fuel f1 q goal true = some r →
      (∀ c, f1 c = true → f2 c = false) → (∀ c, f1 c = false → f2 c = r.1 c) →
      bfs_flags ok fuel f2 q goal false = some (fun _ => false, r.2) := by
  intro fuel
  induction fuel with
  | zero =>
    intro f1 q f2 r hr h1 h2
    cases q with
    | nil =>
      simp only [bfs_flags, Option.some.injEq] at hr; subst hr
      simp only [bfs_flags, Option.some.injEq, Prod.mk.injEq, and_true]
      exact flags_all_false f1 f2 f1 h1 h2 rfl
    | cons p rest => simp [bfs_flags] at hr
  | succ n ih =>
    intro f1 q f2 r hr h1 h2
    cases q with
    | nil =>
      simp only [bfs_flags, Option.some.injEq] at hr; subst hr
      simp only [bfs_flags, Option.some.injEq, Prod.mk.injEq, and_true]
      exact flags_all_false f1 f2 f1 h1 h2 rfl
    | cons p rest =>
      simp only [bfs_flags] at hr ⊢
      by_cases hc1 : ok p = true ∧ f1 p ≠ true
      · have hf1p : f1 p = false := by simpa using hc1.2
        rw [if_pos hc1] at hr
        have hrp : r.1 p = true := by
          by_cases hg : p = goal
          · rw [if_pos hg] at hr
            simp only [Option.some.injEq] at hr; subst hr; simp
          · rw [if_neg hg] at hr
            exact bfs_flags_mono ok goal _ _ _ r hr p (by simp)
        have hf2p : f2 p = true := by rw [h2 p hf1p, hrp]
        have hc2 : ok p = true ∧ f2 p ≠ false := ⟨hc1.1, by simp [hf2p]⟩
        rw [if_pos hc2]
        have h1' : ∀ c, Function.update f1 p true c = true → Function.update f2 p false c = false := by
          intro c hc
          by_cases hcp : c = p
          · subst hcp; simp
          · rw [Function.update_noteq hcp] at hc ⊢; exact h1 c hc
        have h2' : ∀ c, Function.update f1 p true c = false →
            Function.update f2 p false c = r.1 c := by
          intro c hc
          by_cases hcp : c = p
          · subst hcp; simp at hc
          · rw [Function.update_noteq hcp] at hc ⊢; exact h2 c hc
        by_cases hg : p = goal
        · rw [if_pos hg] at hr ⊢
          simp only [Option.some.injEq] at hr
          have hE : r.1 = Function.update f1 p true := by rw [← hr]
          have hr2 : r.2 = true := by rw [← hr]
          simp only [Option.some.injEq, Prod.mk.injEq, hr2, and_true]
          exact flags_all_false _ _ r.1 h1' h2' hE
        · rw [if_neg hg] at hr ⊢
          exact ih _ _ _ r hr h1' h2'
      · rw [if_neg hc1] at hr
        have hc2 : ¬ (ok p = true ∧ f2 p ≠ false) := by
          rintro ⟨hokp, hf2⟩
          by_cases hf1p : f1 p = true
          · exact hf2 (h1 p hf1p)
          · exact hc1 ⟨hokp, hf1p⟩
        rw [if_neg hc2]
        by_cases hg : p = goal
        · rw [if_pos hg] at hr ⊢
          simp only [Option.some.injEq] at hr
          have hE : r.1 = f1 := by rw [← hr]
          have hr2 : r.2 = true := by rw [← hr]
          simp only [Option.some.injEq, Prod.mk.injEq, hr2, and_true]
          exact flags_all_false _ _ r.1 h1 h2 hE
        · rw [if_neg hg] at hr ⊢
          exact ih _ _ _ r hr h1 h2

/-! ## `are_in_the_same_area` on a clear board -/

theorem visitable_mem_cells (g : gamma_t) (o : Nat) (p : Position)
    (h : visitable g o p = true) : p ∈ cells g := by
  rw [visitable_iff, mem_owned_cells] at h
  exact (mem_cells g p).2 h.1

theorem bfs_with_flags (g : gamma_t) (f : Position → Bool) (source goal : Position) (o : Nat)
    (w : Bool) :
    ∃ r, bfs_flags (visitable g o) (4 * (g.width * g.height) + 1) f [source] goal w = some r ∧
      bfs (with_flags g f) source goal o w = (with_flags g r.1, r.2) := by
  obtain ⟨r, hr⟩ := bfs_flags_terminates g (visitable g o) (visitable_mem_cells g o) goal w
    (4 * (g.width * g.height) + 1) f [source] (by
      have := unvisited_le g (visitable g o) f w
      simp only [List.length_singleton]; omega)
  refine ⟨r, hr, ?_⟩
  unfold bfs
  simp only [with_flags_width, with_flags_height, queue_insert, queue_new, List.nil_append]
  rw [bfs_loop_with_flags, hr]
  rfl

/-- The loop of `bfs` ends within the fuel that `bfs` gives it, in every state. -/
theorem bfs_loop_terminates (g : gamma_t) (source goal : Position) (o : Nat) (w : Bool) :
    ∃ r, bfs_loop (4 * (g.width * g.height) + 1) g (queue_insert queue_new source) goal o w =
      some r := by
  obtain ⟨r, hr, _⟩ := bfs_with_flags g (flags_of g) source goal o w
  refine ⟨(with_flags g r.1, r.2), ?_⟩
  have h := bfs_loop_with_flags g o goal w (4 * (g.width * g.height) + 1) (flags_of g) [source]
  rw [with_flags_flags_of, hr] at h
  exact h

theorem are_in_the_same_area_clear (g : gamma_t) (hclear : all_clear g) (a b : Position)
    (ha : inside_board g a = true) (hb : inside_board g b = true) :
    (are_in_the_same_area g a b).1 = g ∧
    ((are_in_the_same_area g a b).2 = true ↔
      (g.board a).owner = (g.board b).owner ∧ connected (owned_cells g (g.board a).owner) a b) := by
  unfold are_in_the_same_area
  by_cases ho : (g.board a).owner = (g.board b).owner
  · simp only [ho, if_true, true_and]
    obtain ⟨r1, hr1, hb1⟩ := bfs_with_flags g (fun _ => false) a b (g.board b).owner true
    rw [with_flags_clear g hclear] at hb1
    have hreset := bfs_flags_reset (visitable g (g.board b).owner) b _ _ _ r1.1 r1 hr1
      (by intro c hc; simp at hc) (by intro c _; rfl)
    obtain ⟨r2, hr2, hb2⟩ := bfs_with_flags g r1.1 a b (g.board b).owner false
    rw [hreset] at hr2
    simp only [Option.some.injEq] at hr2
    rw [hb1]
    simp only
    rw [hb2, ← hr2]
    simp only
    refine ⟨with_flags_clear g hclear, ?_⟩
    have haC : a ∈ owned_cells g (g.board b).owner := (mem_owned_cells _ _ _).2 ⟨ha, ho⟩
    have hbC : b ∈ owned_cells g (g.board b).owner := (mem_owned_cells _ _ _).2 ⟨hb, rfl⟩
    exact bfs_flags_correct (owned_cells g (g.board b).owner) (visitable g (g.board b).owner)
      (visitable_iff g _) a b haC hbC _ _ _ r1 (SearchInv_init _ a b) hr1
  · simp [ho]

/-! ## Connectivity inside a set of cells -/

theorem adjacent_symm {a b : Position} (h : adjacent a b) : adjacent b a := by
  obtain ⟨i, hi, rfl⟩ := h
  have : i = 0 ∨ i = 1 ∨ i = 2 ∨ i = 3 := by omega
  obtain ⟨ax, ay⟩ := a
  rcases this with rfl | rfl | rfl | rfl
  · exact ⟨2, by omega, by simp [get_neighbour, directions]⟩
  · exact ⟨3, by omega, by simp [get_neighbour, directions]⟩
  · exact ⟨0, by omega, by simp [get_neighbour, directions]⟩
  · exact ⟨1, by omega, by simp [get_neighbour, directions]⟩

theorem adjacent_ne {a b : Position} (h : adjacent a b) : a ≠ b := by
  obtain ⟨i, hi, rfl⟩ := h
  have : i = 0 ∨ i = 1 ∨ i = 2 ∨ i = 3 := by omega
  obtain ⟨ax, ay⟩ := a
  rcases this with rfl | rfl | rfl | rfl <;> simp [get_neighbour, directions]

theorem linked_symm {C : Finset Position} {u v : Position} (h : linked C u v) : linked C v u :=
  ⟨h.2.1, h.1, adjacent_symm h.2.2⟩

theorem connected_refl (C : Finset Position) (a : Position) : connected C a a :=
  Relation.ReflTransGen.refl

theorem connected_trans {C : Finset Position} {a b c : Position} (h1 : connected C a b)
    (h2 : connected C b c) : connected C a c :=
  Relation.ReflTransGen.trans h1 h2

theorem connected_symm {C : Finset Position} {a b : Position} (h : connected C a b) :
    connected C b a := by
  induction h with
  | refl => exact Relation.ReflTransGen.refl
  | tail _ hl ih => exact Relation.ReflTransGen.head (linked_symm hl) ih

theorem connected_mem {C : Finset Position} {a b : Position} (h : connected C a b)
    (ha : a ∈ C) : b ∈ C := by
  induction h with
  | refl => exact ha
  | tail _ hl _ => exact hl.2.1

theorem connected_mono {C D : Finset Position} (hCD : C ⊆ D) {a b : Position}
    (h : connected C a b) : connected D a b := by
  induction h with
  | refl => exact Relation.ReflTransGen.refl
  | tail _ hl ih => exact Relation.ReflTransGen.tail ih ⟨hCD hl.1, hCD hl.2.1, hl.2.2⟩

/-! ## `region` computes the connectivity class -/

theorem subset_expand (C S : Finset Position) : S ⊆ expand C S :=
  Finset.subset_union_left

theorem expand_subset (C S : Finset Position) (h : S ⊆ C) : expand C S ⊆ C := by
  intro v hv
  rcases Finset.mem_union.1 hv with h1 | h1
  · exact h h1
  · exact (Finset.mem_filter.1 h1).1

theorem iterate_expand_subset (C : Finset Position) (a : Position) (ha : a ∈ C) (n : Nat) :
    (expand C)^[n] {a} ⊆ C := by
  induction n with
  | zero => simpa using ha
  | succ n ih =>
    rw [Function.iterate_succ_apply']
    exact expand_subset C _ ih

theorem iterate_expand_sound (C : Finset Position) (a : Position) (ha : a ∈ C) (n : Nat) :
    ∀ b, b ∈ (expand C)^[n] {a} → connected C a b := by
  induction n with
  | zero =>
    intro b hb
    simp only [Function.iterate_zero, id_eq, Finset.mem_singleton] at hb
    subst hb; exact connected_refl C _
  | succ n ih =>
    intro b hb
    rw [Function.iterate_succ_apply'] at hb
    rcases Finset.mem_union.1 hb with h1 | h1
    · exact ih b h1
    · obtain ⟨hbC, i, hi, hmem⟩ := Finset.mem_filter.1 h1
      have hu := ih _ hmem
      have huC : get_neighbour b i ∈ C := iterate_expand_subset C a ha n hmem
      exact Relation.ReflTransGen.tail hu
        ⟨huC, hbC, adjacent_symm ⟨i, Finset.mem_range.1 hi, rfl⟩⟩

theorem iterate_expand_fixed_or_grows (C : Finset Position) (a : Position) (n : Nat) :
    expand C ((expand C)^[n] {a}) = (expand C)^[n] {a} ∨ n + 1 ≤ ((expand C)^[n] {a}).card := by
  induction n with
  | zero => right; simp
  | succ n ih =>
    rw [Function.iterate_succ_apply']
    rcases ih with h | h
    · left; rw [h, h]
    · by_cases hfix : expand C ((expand C)^[n] {a}) = (expand C)^[n] {a}
      · left; rw [hfix, hfix]
      · right
        have hss : (expand C)^[n] {a} ⊂ expand C ((expand C)^[n] {a}) :=
          Finset.ssubset_iff_subset_ne.2 ⟨subset_expand C _, fun h => hfix h.symm⟩
        have := Finset.card_lt_card hss
        omega

theorem iterate_expand_fixed (C : Finset Position) (a : Position) (ha : a ∈ C) :
    expand C ((expand C)^[C.card] {a}) = (expand C)^[C.card] {a} := by
  rcases iterate_expand_fixed_or_grows C a C.card with h | h
  · exact h
  · have := Finset.card_le_card (iterate_expand_subset C a ha C.card)
    omega

theorem mem_iterate_expand_self (C : Finset Position) (a : Position) (n : Nat) :
    a ∈ (expand C)^[n] {a} := by
  induction n with
  | zero => simp
  | succ n ih =>
    rw [Function.iterate_succ_apply']
    exact subset_expand C _ ih

theorem mem_region_iff (C : Finset Position) (a b : Position) :
    b ∈ region C a ↔ a ∈ C ∧ connected C a b := by
  unfold region
  by_cases ha : a ∈ C
  · rw [if_pos ha]
    constructor
    · intro h
      exact ⟨ha, iterate_expand_sound C a ha _ b h⟩
    · rintro ⟨_, hconn⟩
      induction hconn with
      | refl => exact mem_iterate_expand_self C a _
      | tail _ hl ih =>
        rw [← iterate_expand_fixed C a ha]
        refine Finset.mem_union.2 (Or.inr (Finset.mem_filter.2 ⟨hl.2.1, ?_⟩))
        obtain ⟨i, hi, hi2⟩ := adjacent_symm hl.2.2
        exact ⟨i, Finset.mem_range.2 hi, by rw [hi2]; exact ih⟩
  · simp [ha]

theorem region_subset (C : Finset Position) (a : Position) : region C a ⊆ C := by
  intro b hb
  obtain ⟨ha, hc⟩ := (mem_region_iff C a b).1 hb
  exact connected_mem hc ha

theorem mem_region_self (C : Finset Position) (a : Position) (ha : a ∈ C) : a ∈ region C a :=
  (mem_region_iff C a a).2 ⟨ha, connected_refl C a⟩

theorem region_eq_iff (C : Finset Position) (a b : Position) (ha : a ∈ C) (hb : b ∈ C) :
    region C a = region C b ↔ connected C a b := by
  constructor
  · intro h
    have := mem_region_self C b hb
    rw [← h] at this
    exact ((mem_region_iff C a b).1 this).2
  · intro h
    ext c
    rw [mem_region_iff, mem_region_iff]
    constructor
    · rintro ⟨_, hc⟩
      exact ⟨hb, connected_trans (connected_symm h) hc⟩
    · rintro ⟨_, hc⟩
      exact ⟨ha, connected_trans h hc⟩

/-! ## Adding one cell to a set: the number of regions -/

/-- The cells of `C` among the four neighbours of `x`. -/
theorem mem_pushed_filter (C : Finset Position) (x n : Position) :
    n ∈ (pushed x).toFinset.filter (fun c => c ∈ C) ↔ adjacent x n ∧ n ∈ C := by
  simp [adjacent_pushed]

theorem connected_insert_of_untouched (C : Finset Position) (x c : Position) (hx : x ∉ C)
    (hc : c ∈ C)
    (hun : region C c ∉ ((pushed x).toFinset.filter (fun c => c ∈ C)).image (region C))
    (d : Position) (h : connected (insert x C) c d) : connected C c d := by
  induction h with
  | refl => exact connected_refl C c
  | tail _ hl ih =>
    rename_i u v _
    have huC : u ∈ C := connected_mem ih hc
    have hvx : v ≠ x := by
      rintro rfl
      apply hun
      refine Finset.mem_image.2 ⟨u, (mem_pushed_filter C v u).2 ⟨adjacent_symm hl.2.2, huC⟩, ?_⟩
      exact ((region_eq_iff C c u hc huC).2 ih).symm
    have hvC : v ∈ C := by
      rcases Finset.mem_insert.1 hl.2.1 with h | h
      · exact absurd h hvx
      · exact h
    exact Relation.ReflTransGen.tail ih ⟨huC, hvC, hl.2.2⟩

theorem region_insert_of_untouched (C : Finset Position) (x c : Position) (hx : x ∉ C)
    (hc : c ∈ C)
    (hun : region C c ∉ ((pushed x).toFinset.filter (fun c => c ∈ C)).image (region C)) :
    region (insert x C) c = region C c := by
  ext d
  rw [mem_region_iff, mem_region_iff]
  constructor
  · rintro ⟨_, h⟩
    exact ⟨hc, connected_insert_of_untouched C x c hx hc hun d h⟩
  · rintro ⟨_, h⟩
    exact ⟨Finset.mem_insert_of_mem hc, connected_mono (Finset.subset_insert x C) h⟩

theorem region_insert_of_touched (C : Finset Position) (x c : Position) (hc : c ∈ C)
    (ht : region C c ∈ ((pushed x).toFinset.filter (fun c => c ∈ C)).image (region C)) :
    region (insert x C) c = region (insert x C) x := by
  obtain ⟨n, hn, hreg⟩ := Finset.mem_image.1 ht
  obtain ⟨hadj, hnC⟩ := (mem_pushed_filter C x n).1 hn
  rw [region_eq_iff _ _ _ (Finset.mem_insert_of_mem hc) (Finset.mem_insert_self x C)]
  have h1 : connected C c n := (region_eq_iff C c n hc hnC).1 hreg.symm
  exact Relation.ReflTransGen.tail (connected_mono (Finset.subset_insert x C) h1)
    ⟨Finset.mem_insert_of_mem hnC, Finset.mem_insert_self x C, adjacent_symm hadj⟩

theorem count_regions_insert (C : Finset Position) (x : Position) (hx : x ∉ C) :
    count_regions (insert x C) +
        (((pushed x).toFinset.filter (fun c => c ∈ C)).image (region C)).card =
      count_regions C + 1 := by
  set T := ((pushed x).toFinset.filter (fun c => c ∈ C)).image (region C) with hT
  set U := (C.filter (fun c => region C c ∉ T)).image (region C) with hU
  have hC : C.image (region C) = T ∪ U := by
    ext R
    simp only [Finset.mem_image, Finset.mem_union, hU, Finset.mem_filter]
    constructor
    · rintro ⟨c, hc, rfl⟩
      by_cases h : region C c ∈ T
      · exact Or.inl h
      · exact Or.inr ⟨c, ⟨hc, h⟩, rfl⟩
    · rintro (h | ⟨c, ⟨hc, _⟩, rfl⟩)
      · obtain ⟨n, hn, rfl⟩ := Finset.mem_image.1 h
        exact ⟨n, ((mem_pushed_filter C x n).1 hn).2, rfl⟩
      · exact ⟨c, hc, rfl⟩
  have hTU : Disjoint T U := by
    rw [Finset.disjoint_left]
    intro R hR hRU
    obtain ⟨c, hc, rfl⟩ := Finset.mem_image.1 hRU
    exact (Finset.mem_filter.1 hc).2 hR
  have hD : (insert x C).image (region (insert x C)) = insert (region (insert x C) x) U := by
    ext R
    simp only [Finset.mem_image, Finset.mem_insert, hU, Finset.mem_filter]
    constructor
    · rintro ⟨c, hc, rfl⟩
      rcases hc with rfl | hc
      · exact Or.inl rfl
      · by_cases h : region C c ∈ T
        · exact Or.inl (region_insert_of_touched C x c hc h)
        · exact Or.inr ⟨c, ⟨hc, h⟩, (region_insert_of_untouched C x c hx hc h).symm⟩
    · rintro (h | ⟨c, ⟨hc, h⟩, rfl⟩)
      · exact ⟨x, Or.inl rfl, h.symm⟩
      · exact ⟨c, Or.inr hc, region_insert_of_untouched C x c hx hc h⟩
  have hxU : region (insert x C) x ∉ U := by
    intro h
    obtain ⟨c, _, hc⟩ := Finset.mem_image.1 h
    have h1 : x ∈ region (insert x C) x := mem_region_self _ x (Finset.mem_insert_self x C)
    rw [← hc] at h1
    exact hx (region_subset C c h1)
  unfold count_regions
  rw [hD, hC, Finset.card_insert_of_not_mem hxU, Finset.card_union_of_disjoint hTU]
  omega

/-! ## `neighbouring_areas` on a clear board -/

theorem neighbouring_areas_inner_clear (g : gamma_t) (hclear : all_clear g) (position : Position)
    (i : Nat) (hi : inside_board g (get_neighbour position i) = true) :
    ∀ m : Nat,
      ∃ b : Bool,
        (List.range m).foldl
          (fun (s : gamma_t × Bool) j =>
            let neighbour_j_position := get_neighbour position j
            if inside_board s.1 neighbour_j_position then
              let r := are_in_the_same_area s.1 (get_neighbour position i) neighbour_j_position
              if r.2 then (r.1, false) else (r.1, s.2)
            else s)
          (g, true) = (g, b) ∧
        (b = true ↔ ∀ j, j < m → inside_board g (get_neighbour position j) = true →
          ¬ ((g.board (get_neighbour position i)).owner = (g.board (get_neighbour position j)).owner ∧
            connected (owned_cells g (g.board (get_neighbour position i)).owner)
              (get_neighbour position i) (get_neighbour position j))) := by
  intro m
  induction m with
  | zero => exact ⟨true, rfl, by simp⟩
  | succ m ih =>
    obtain ⟨b, hb, hbiff⟩ := ih
    rw [List.range_succ, List.foldl_append, hb]
    simp only [List.foldl_cons, List.foldl_nil]
    by_cases hj : inside_board g (get_neighbour position m) = true
    · obtain ⟨h1, h2⟩ := are_in_the_same_area_clear g hclear _ _ hi hj
      rw [if_pos hj]
      by_cases hs : (are_in_the_same_area g (get_neighbour position i)
          (get_neighbour position m)).2 = true
      · refine ⟨false, ?_, ?_⟩
        · simp only [hs, if_true, h1]
        · simp only [Bool.false_eq_true, false_iff, not_forall]
          exact ⟨m, Nat.lt_succ_self m, hj, not_not.2 (h2.1 hs)⟩
      · refine ⟨b, ?_, ?_⟩
        · simp only [hs, h1]; rfl
        · rw [hbiff]
          constructor
          · intro h j hjlt
            rcases Nat.lt_succ_iff_lt_or_eq.1 hjlt with hlt | rfl
            · exact h j hlt
            · intro _ hc; exact hs (h2.2 hc)
          · intro h j hjlt; exact h j (Nat.lt_succ_of_lt hjlt)
    · refine ⟨b, ?_, ?_⟩
      · rw [if_neg hj]
      · rw [hbiff]
        constructor
        · intro h j hjlt
          rcases Nat.lt_succ_iff_lt_or_eq.1 hjlt with hlt | rfl
          · exact h j hlt
          · intro hin; exact absurd hin hj
        · intro h j hjlt; exact h j (Nat.lt_succ_of_lt hjlt)

theorem neighbouring_areas_inner_spec (g : gamma_t) (hclear : all_clear g) (position : Position)
    (i : Nat) (player : Nat)
    (hi : get_neighbour position i ∈ owned_cells g player) :
    (neighbouring_areas_inner g position i).1 = g ∧
    ((neighbouring_areas_inner g position i).2 = true ↔
      region (owned_cells g player) (get_neighbour position i) ∉
        ((neighbourhood position i).toFinset.filter (fun c => c ∈ owned_cells g player)).image
          (region (owned_cells g player))) := by
  obtain ⟨hin, hown⟩ := (mem_owned_cells g player _).1 hi
  obtain ⟨b, hb, hbiff⟩ := neighbouring_areas_inner_clear g hclear position i hin i
  unfold neighbouring_areas_inner
  rw [hb]
  refine ⟨rfl, ?_⟩
  simp only
  rw [hbiff, hown]
  constructor
  · intro h hmem
    obtain ⟨c, hc, hreg⟩ := Finset.mem_image.1 hmem
    obtain ⟨hcl, hcC⟩ := Finset.mem_filter.1 hc
    simp only [neighbourhood, List.mem_toFinset, List.mem_map, List.mem_range] at hcl
    obtain ⟨j, hj, rfl⟩ := hcl
    obtain ⟨hjin, hjown⟩ := (mem_owned_cells g player _).1 hcC
    exact h j hj hjin ⟨hjown.symm, (region_eq_iff _ _ _ hi hcC).1 hreg.symm⟩
  · intro h j hj hjin ⟨hjown, hconn⟩
    apply h
    have hcC : get_neighbour position j ∈ owned_cells g player :=
      (mem_owned_cells g player _).2 ⟨hjin, hjown.symm⟩
    refine Finset.mem_image.2 ⟨get_neighbour position j, Finset.mem_filter.2 ⟨?_, hcC⟩, ?_⟩
    · simp only [neighbourhood, List.mem_toFinset, List.mem_map, List.mem_range]
      exact ⟨j, hj, rfl⟩
    · exact ((region_eq_iff _ _ _ hi hcC).2 hconn).symm

theorem neighbourhood_succ (position : Position) (n : Nat) :
    neighbourhood position (n + 1) = neighbourhood position n ++ [get_neighbour position n] := by
  simp [neighbourhood, List.range_succ]

theorem touching_snoc_mem (C : Finset Position) (l : List Position) (a : Position) (ha : a ∈ C) :
    touching C (l ++ [a]) =
      if region C a ∈ (l.toFinset.filter (fun c => c ∈ C)).image (region C) then touching C l
      else touching C l + 1 := by
  unfold touching
  have : (l ++ [a]).toFinset.filter (fun c => c ∈ C) =
      insert a (l.toFinset.filter (fun c => c ∈ C)) := by
    ext c
    simp only [List.toFinset_append, List.toFinset_cons, List.toFinset_nil, insert_emptyc_eq,
      Finset.mem_filter, Finset.mem_union, Finset.mem_singleton, Finset.mem_insert]
    constructor
    · rintro ⟨h1 | h1, h2⟩
      · exact Or.inr ⟨h1, h2⟩
      · exact Or.inl h1
    · rintro (h | ⟨h1, h2⟩)
      · subst h; exact ⟨Or.inr rfl, ha⟩
      · exact ⟨Or.inl h1, h2⟩
  rw [this, Finset.image_insert]
  split_ifs with h
  · rw [Finset.insert_eq_of_mem h]
  · rw [Finset.card_insert_of_not_mem h]

theorem touching_snoc_not_mem (C : Finset Position) (l : List Position) (a : Position)
    (ha : a ∉ C) : touching C (l ++ [a]) = touching C l := by
  unfold touching
  have : (l ++ [a]).toFinset.filter (fun c => c ∈ C) = l.toFinset.filter (fun c => c ∈ C) := by
    ext c
    simp only [List.toFinset_append, List.toFinset_cons, List.toFinset_nil, insert_emptyc_eq,
      Finset.mem_filter, Finset.mem_union, Finset.mem_singleton]
    constructor
    · rintro ⟨h1 | h1, h2⟩
      · exact ⟨h1, h2⟩
      · subst h1; exact absurd h2 ha
    · rintro ⟨h1, h2⟩
      exact ⟨Or.inl h1, h2⟩
  rw [this]

theorem neighbouring_areas_loop_clear (g : gamma_t) (hclear : all_clear g) (player : Nat)
    (position : Position) :
    ∀ n : Nat,
      (List.range n).foldl
        (fun (s : gamma_t × Nat) i =>
          match get_field s.1 (get_neighbour position i) with
          | some neighbour_i =>
            if neighbour_i.owner = player then
              let r := neighbouring_areas_inner s.1 position i
              if r.2 then (r.1, s.2 + 1) else (r.1, s.2)
            else s
          | none => s)
        (g, 0) = (g, touching (owned_cells g player) (neighbourhood position n)) := by
  intro n
  induction n with
  | zero => simp [touching, neighbourhood]
  | succ n ih =>
    rw [List.range_succ, List.foldl_append, ih, neighbourhood_succ]
    simp only [List.foldl_cons, List.foldl_nil, get_field]
    by_cases hC : get_neighbour position n ∈ owned_cells g player
    · obtain ⟨hin, hown⟩ := (mem_owned_cells g player _).1 hC
      obtain ⟨h1, h2⟩ := neighbouring_areas_inner_spec g hclear position n player hC
      rw [touching_snoc_mem _ _ _ hC]
      simp only [hin, if_true, hown]
      by_cases hnew : (neighbouring_areas_inner g position n).2 = true
      · rw [if_pos hnew, if_neg (h2.1 hnew), h1]
      · rw [if_neg hnew, if_pos (not_not.1 (fun h => hnew (h2.2 h))), h1]
    · rw [touching_snoc_not_mem _ _ _ hC]
      rw [mem_owned_cells] at hC
      by_cases hin : inside_board g (get_neighbour position n) = true
      · have hown : ¬ (g.board (get_neighbour position n)).owner = player := fun h => hC ⟨hin, h⟩
        simp only [hin, if_true, hown, if_false]
      · simp only [hin]
        rfl

theorem neighbouring_areas_clear (g : gamma_t) (hclear : all_clear g) (player : Nat)
    (hplayer : player ≠ 0) (position : Position) (include_center : Bool) :
    neighbouring_areas g player position include_center =
      (g, touching (owned_cells g player)
        (neighbourhood position (if include_center then 5 else 4))) := by
  unfold neighbouring_areas
  rw [if_neg hplayer]
  exact neighbouring_areas_loop_clear g hclear player position _

theorem neighbouring_areas_zero (g : gamma_t) (position : Position) (include_center : Bool) :
    neighbouring_areas g 0 position include_center = (g, 0) := by
  simp [neighbouring_areas]

theorem neighbourhood_four (position : Position) : neighbourhood position 4 = pushed position := by
  simp [neighbourhood, pushed, List.range, List.range.loop]

theorem get_neighbour_four (position : Position) : get_neighbour position 4 = position := by
  cases position; simp [get_neighbour, directions]

theorem neighbourhood_five (position : Position) :
    neighbourhood position 5 = pushed position ++ [position] := by
  rw [neighbourhood_succ, neighbourhood_four, get_neighbour_four]

/-- With the centre not in `C`, the neighbourhood touches the regions its four neighbours touch. -/
theorem touching_five_not_mem (C : Finset Position) (position : Position) (h : position ∉ C) :
    touching C (neighbourhood position 5) = touching C (pushed position) := by
  rw [neighbourhood_five, touching_snoc_not_mem _ _ _ h]

/-- With the centre in `C`, the whole neighbourhood lies in the one region of the centre. -/
theorem touching_five_mem (C : Finset Position) (position : Position) (h : position ∈ C) :
    touching C (neighbourhood position 5) = 1 := by
  rw [neighbourhood_five]
  unfold touching
  have : ((pushed position ++ [position]).toFinset.filter (fun c => c ∈ C)).image (region C) =
      {region C position} := by
    ext R
    simp only [Finset.mem_image, Finset.mem_filter, List.mem_toFinset, List.mem_append,
      List.mem_singleton, Finset.mem_singleton]
    constructor
    · rintro ⟨c, ⟨hc | hc, hcC⟩, rfl⟩
      · rw [region_eq_iff C c position hcC h]
        exact Relation.ReflTransGen.single
          ⟨hcC, h, adjacent_symm ((adjacent_pushed position c).1 hc)⟩
      · rw [hc]
    · rintro rfl
      exact ⟨position, ⟨Or.inr rfl, h⟩, rfl⟩
  rw [this, Finset.card_singleton]

/-! ## `change_owner` on a clear board -/

theorem neighbouring_areas_eq (g : gamma_t) (hclear : all_clear g) (player : Nat)
    (position : Position) :
    neighbouring_areas g player position true = (g, areas_at g player position) := by
  unfold areas_at
  by_cases hp : player = 0
  · subst hp; simp [neighbouring_areas_zero]
  · rw [if_neg hp, neighbouring_areas_clear g hclear player hp]; rfl

@[simp] theorem moved_width (g : gamma_t) (o : Nat) (p : Position) :
    (moved g o p).width = g.width := rfl
@[simp] theorem moved_height (g : gamma_t) (o : Nat) (p : Position) :
    (moved g o p).height = g.height := rfl
@[simp] theorem moved_max_areas (g : gamma_t) (o : Nat) (p : Position) :
    (moved g o p).max_areas = g.max_areas := rfl
@[simp] theorem moved_players (g : gamma_t) (o : Nat) (p : Position) :
    (moved g o p).number_of_players = g.number_of_players := rfl
theorem moved_board (g : gamma_t) (o : Nat) (p : Position) :
    (moved g o p).board = set_field g.board p ⟨o, (g.board p).bfs_flag⟩ := rfl
theorem moved_board_self (g : gamma_t) (o : Nat) (p : Position) :
    (moved g o p).board p = ⟨o, (g.board p).bfs_flag⟩ := by
  simp [moved_board, set_field]
theorem moved_board_other (g : gamma_t) (o : Nat) (p q : Position) (h : q ≠ p) :
    (moved g o p).board q = g.board q := by
  simp [moved_board, set_field, h]
@[simp] theorem cells_moved (g : gamma_t) (o : Nat) (p : Position) :
    cells (moved g o p) = cells g := rfl
@[simp] theorem inside_board_moved (g : gamma_t) (o : Nat) (p q : Position) :
    inside_board (moved g o p) q = inside_board g q := rfl

theorem all_clear_moved (g : gamma_t) (hclear : all_clear g) (o : Nat) (p : Position) :
    all_clear (moved g o p) := by
  intro q
  by_cases h : q = p
  · subst h; rw [moved_board_self]; exact hclear q
  · rw [moved_board_other g o p q h]; exact hclear q

@[simp] theorem busy_areas_add_width (g : gamma_t) (i : Nat) (d : Int) :
    (busy_areas_add g i d).width = g.width := rfl
@[simp] theorem busy_areas_add_height (g : gamma_t) (i : Nat) (d : Int) :
    (busy_areas_add g i d).height = g.height := rfl
@[simp] theorem busy_areas_add_max_areas (g : gamma_t) (i : Nat) (d : Int) :
    (busy_areas_add g i d).max_areas = g.max_areas := rfl
@[simp] theorem busy_areas_add_players (g : gamma_t) (i : Nat) (d : Int) :
    (busy_areas_add g i d).number_of_players = g.number_of_players := rfl
theorem change_owner_eq (g : gamma_t) (hclear : all_clear g) (new_owner : Nat)
    (position : Position) :
    change_owner g new_owner position =
      busy_areas_add
        (busy_areas_add (moved g new_owner position) new_owner
          ((areas_at (moved g new_owner position) new_owner position : Int) -
            (areas_at g new_owner position : Int)))
        (g.board position).owner
        ((areas_at (moved g new_owner position) (g.board position).owner position : Int) -
          (areas_at g (g.board position).owner position : Int)) := by
  unfold change_owner
  simp only [neighbouring_areas_eq g hclear]
  have h5 : all_clear (busy_fields_dec (busy_fields_inc (write_owner g position new_owner)
      new_owner) (g.board position).owner) := all_clear_moved g hclear new_owner position
  simp only [neighbouring_areas_eq _ h5]
  rfl

@[simp] theorem change_owner_width (g : gamma_t) (hclear : all_clear g) (o : Nat)
    (p : Position) : (change_owner g o p).width = g.width := by
  rw [change_owner_eq g hclear]; rfl
@[simp] theorem change_owner_height (g : gamma_t) (hclear : all_clear g) (o : Nat)
    (p : Position) : (change_owner g o p).height = g.height := by
  rw [change_owner_eq g hclear]; rfl
@[simp] theorem change_owner_max_areas (g : gamma_t) (hclear : all_clear g) (o : Nat)
    (p : Position) : (change_owner g o p).max_areas = g.max_areas := by
  rw [change_owner_eq g hclear]; rfl
@[simp] theorem change_owner_players (g : gamma_t) (hclear : all_clear g) (o : Nat)
    (p : Position) : (change_owner g o p).number_of_players = g.number_of_players := by
  rw [change_owner_eq g hclear]; rfl
theorem change_owner_board (g : gamma_t) (hclear : all_clear g) (o : Nat) (p : Position) :
    (change_owner g o p).board = set_field g.board p ⟨o, (g.board p).bfs_flag⟩ := by
  rw [change_owner_eq g hclear]; rfl

theorem all_clear_change_owner (g : gamma_t) (hclear : all_clear g) (o : Nat) (p : Position) :
    all_clear (change_owner g o p) := by
  intro q
  rw [change_owner_board g hclear]
  by_cases h : q = p
  · subst h; simp only [set_field, if_true]; exact hclear q
  · simp only [set_field, if_neg h]; exact hclear q

/-! ## Cells of each owner after a change of one cell -/

theorem owned_cells_congr (g1 g2 : gamma_t) (hw : g1.width = g2.width)
    (hh : g1.height = g2.height) (hb : ∀ p, (g1.board p).owner = (g2.board p).owner) (o : Nat) :
    owned_cells g1 o = owned_cells g2 o := by
  ext p
  simp only [mem_owned_cells, inside_board, hw, hh, hb]

theorem owned_cells_moved_new (g : gamma_t) (o : Nat) (p : Position) (hp : p ∈ cells g) :
    owned_cells (moved g o p) o = insert p (owned_cells g o) := by
  ext q
  simp only [Finset.mem_insert, mem_owned_cells, inside_board_moved]
  by_cases h : q = p
  · subst h
    simp [moved_board_self, (mem_cells g q).1 hp]
  · rw [moved_board_other g o p q h]
    simp [h]

theorem owned_cells_moved_other (g : gamma_t) (o o2 : Nat) (p : Position) (ho : o2 ≠ o) :
    owned_cells (moved g o p) o2 = (owned_cells g o2).erase p := by
  ext q
  simp only [Finset.mem_erase, mem_owned_cells, inside_board_moved]
  by_cases h : q = p
  · subst h
    simp [moved_board_self, ho.symm]
  · rw [moved_board_other g o p q h]
    simp [h]

theorem owned_cells_moved_old (g : gamma_t) (o : Nat) (p : Position) (hp : p ∈ cells g)
    (ho : (g.board p).owner ≠ o) :
    insert p (owned_cells (moved g o p) (g.board p).owner) = owned_cells g (g.board p).owner ∧
      p ∉ owned_cells (moved g o p) (g.board p).owner := by
  rw [owned_cells_moved_other g o _ p ho]
  have hmem : p ∈ owned_cells g (g.board p).owner :=
    (mem_owned_cells g _ p).2 ⟨(mem_cells g p).1 hp, rfl⟩
  exact ⟨Finset.insert_erase hmem, Finset.not_mem_erase p _⟩

theorem owned_cells_moved_third (g : gamma_t) (o o2 : Nat) (p : Position) (ho : o2 ≠ o)
    (ho2 : o2 ≠ (g.board p).owner) : owned_cells (moved g o p) o2 = owned_cells g o2 := by
  rw [owned_cells_moved_other g o o2 p ho]
  apply Finset.erase_eq_of_not_mem
  intro h
  exact ho2 ((mem_owned_cells g o2 p).1 h).2.symm

/-! ## The change of the area counter is the change of the number of regions -/

theorem region_count_moved_new (g : gamma_t) (o : Nat) (p : Position) (hp : p ∈ cells g)
    (ho : (g.board p).owner ≠ o) (ho0 : o ≠ 0) :
    (region_count (moved g o p) o : Int) - region_count g o =
      (areas_at (moved g o p) o p : Int) - areas_at g o p := by
  have hnot : p ∉ owned_cells g o := fun h => ho ((mem_owned_cells g o p).1 h).2
  have hins := owned_cells_moved_new g o p hp
  have hcount := count_regions_insert (owned_cells g o) p hnot
  unfold region_count areas_at
  rw [if_neg ho0, if_neg ho0, hins, touching_five_mem _ p (Finset.mem_insert_self _ _),
    touching_five_not_mem _ p hnot]
  unfold touching
  omega

theorem region_count_moved_old (g : gamma_t) (o : Nat) (p : Position) (hp : p ∈ cells g)
    (ho : (g.board p).owner ≠ o) (ho0 : (g.board p).owner ≠ 0) :
    (region_count (moved g o p) (g.board p).owner : Int) - region_count g (g.board p).owner =
      (areas_at (moved g o p) (g.board p).owner p : Int) - areas_at g (g.board p).owner p := by
  obtain ⟨hins, hnot⟩ := owned_cells_moved_old g o p hp ho
  have hcount := count_regions_insert _ p hnot
  rw [hins] at hcount
  have hmem : p ∈ owned_cells g (g.board p).owner :=
    (mem_owned_cells g _ p).2 ⟨(mem_cells g p).1 hp, rfl⟩
  unfold region_count areas_at
  rw [if_neg ho0, if_neg ho0, touching_five_mem _ p hmem, touching_five_not_mem _ p hnot]
  unfold touching
  omega

theorem region_count_moved_third (g : gamma_t) (o o2 : Nat) (p : Position) (ho : o2 ≠ o)
    (ho2 : o2 ≠ (g.board p).owner) : region_count (moved g o p) o2 = region_count g o2 := by
  unfold region_count
  rw [owned_cells_moved_third g o o2 p ho ho2]

theorem gamma_t_ext (g1 g2 : gamma_t) (h1 : g1.width = g2.width) (h2 : g1.height = g2.height)
    (h3 : g1.max_areas = g2.max_areas) (h4 : g1.board = g2.board) (h5 : g1.owners = g2.owners)
    (h6 : g1.number_of_players = g2.number_of_players) : g1 = g2 := by
  cases g1; cases g2
  simp only at h1 h2 h3 h4 h5 h6
  subst h1 h2 h3 h4 h5 h6
  rfl

theorem card_owned_cells_le (g : gamma_t) (o : Nat) :
    (owned_cells g o).card ≤ g.width * g.height := by
  rw [← card_cells]
  exact Finset.card_filter_le _ _

theorem cells_lt (g : gamma_t) (hw : g.width < 2 ^ 32) (hh : g.height < 2 ^ 32) :
    g.width * g.height < 2 ^ 64 := by
  have : g.width * g.height ≤ (2 ^ 32 - 1) * (2 ^ 32 - 1) :=
    Nat.mul_le_mul (by omega) (by omega)
  have h2 : (2 ^ 32 - 1) * (2 ^ 32 - 1) < 2 ^ 64 := by norm_num
  omega

theorem WellFormed.busy_fields_lt {g : gamma_t} (h : WellFormed g) (p : Nat) :
    (g.owners p).busy_fields < 2 ^ 64 := by
  by_cases hp : p = 0
  · subst hp; rw [h.fields_zero]; exact Nat.mod_lt _ (by norm_num)
  · rw [h.fields_exact p hp]
    have := card_owned_cells_le g p
    have := cells_lt g h.width_lt h.height_lt
    omega

theorem areas_at_congr (g1 g2 : gamma_t) (hw : g1.width = g2.width)
    (hh : g1.height = g2.height) (hb : ∀ p, (g1.board p).owner = (g2.board p).owner) (o : Nat)
    (p : Position) : areas_at g1 o p = areas_at g2 o p := by
  unfold areas_at
  rw [owned_cells_congr g1 g2 hw hh hb]

theorem region_count_congr (g1 g2 : gamma_t) (hw : g1.width = g2.width)
    (hh : g1.height = g2.height) (hb : ∀ p, (g1.board p).owner = (g2.board p).owner) (o : Nat) :
    region_count g1 o = region_count g2 o := by
  unfold region_count
  rw [owned_cells_congr g1 g2 hw hh hb]

/-! ## The owner records after `change_owner` -/

theorem OwnerData_ext (a b : OwnerData) (h1 : a.golden_move_used = b.golden_move_used)
    (h2 : a.busy_fields = b.busy_fields) (h3 : a.busy_areas = b.busy_areas) : a = b := by
  cases a; cases b
  simp only at h1 h2 h3
  subst h1 h2 h3
  rfl

theorem busy_fields_inc_golden (g : gamma_t) (i j : Nat) :
    ((busy_fields_inc g i).owners j).golden_move_used = (g.owners j).golden_move_used := by
  by_cases h : j = i
  · subst h; simp [busy_fields_inc, set_owner]
  · simp [busy_fields_inc, set_owner, h]

theorem busy_fields_inc_areas (g : gamma_t) (i j : Nat) :
    ((busy_fields_inc g i).owners j).busy_areas = (g.owners j).busy_areas := by
  by_cases h : j = i
  · subst h; simp [busy_fields_inc, set_owner]
  · simp [busy_fields_inc, set_owner, h]

theorem busy_fields_inc_fields (g : gamma_t) (i j : Nat) :
    ((busy_fields_inc g i).owners j).busy_fields =
      if j = i then ((g.owners j).busy_fields + 1) % 2 ^ 64 else (g.owners j).busy_fields := by
  by_cases h : j = i
  · subst h; simp [busy_fields_inc, set_owner]
  · simp [busy_fields_inc, set_owner, h]

theorem busy_fields_dec_golden (g : gamma_t) (i j : Nat) :
    ((busy_fields_dec g i).owners j).golden_move_used = (g.owners j).golden_move_used := by
  by_cases h : j = i
  · subst h; simp [busy_fields_dec, set_owner]
  · simp [busy_fields_dec, set_owner, h]

theorem busy_fields_dec_areas (g : gamma_t) (i j : Nat) :
    ((busy_fields_dec g i).owners j).busy_areas = (g.owners j).busy_areas := by
  by_cases h : j = i
  · subst h; simp [busy_fields_dec, set_owner]
  · simp [busy_fields_dec, set_owner, h]

theorem busy_fields_dec_fields (g : gamma_t) (i j : Nat) :
    ((busy_fields_dec g i).owners j).busy_fields =
      if j = i then ((g.owners j).busy_fields + (2 ^ 64 - 1)) % 2 ^ 64
      else (g.owners j).busy_fields := by
  by_cases h : j = i
  · subst h; simp [busy_fields_dec, set_owner]
  · simp [busy_fields_dec, set_owner, h]

theorem busy_areas_add_golden (g : gamma_t) (i j : Nat) (d : Int) :
    ((busy_areas_add g i d).owners j).golden_move_used = (g.owners j).golden_move_used := by
  by_cases h : j = i
  · subst h; simp [busy_areas_add, set_owner]
  · simp [busy_areas_add, set_owner, h]

theorem busy_areas_add_fields (g : gamma_t) (i j : Nat) (d : Int) :
    ((busy_areas_add g i d).owners j).busy_fields = (g.owners j).busy_fields := by
  by_cases h : j = i
  · subst h; simp [busy_areas_add, set_owner]
  · simp [busy_areas_add, set_owner, h]

theorem busy_areas_add_areas (g : gamma_t) (i j : Nat) (d : Int) :
    ((busy_areas_add g i d).owners j).busy_areas =
      if j = i then (g.owners j).busy_areas + d else (g.owners j).busy_areas := by
  by_cases h : j = i
  · subst h; simp [busy_areas_add, set_owner]
  · simp [busy_areas_add, set_owner, h]

theorem moved_golden (g : gamma_t) (o : Nat) (p : Position) (j : Nat) :
    ((moved g o p).owners j).golden_move_used = (g.owners j).golden_move_used := by
  unfold moved
  rw [busy_fields_dec_golden, busy_fields_inc_golden]; rfl

theorem moved_areas (g : gamma_t) (o : Nat) (p : Position) (j : Nat) :
    ((moved g o p).owners j).busy_areas = (g.owners j).busy_areas := by
  unfold moved
  rw [busy_fields_dec_areas, busy_fields_inc_areas]; rfl

theorem moved_fields (g : gamma_t) (o : Nat) (p : Position) (j : Nat)
    (hne : (g.board p).owner ≠ o) :
    ((moved g o p).owners j).busy_fields =
      if j = o then ((g.owners j).busy_fields + 1) % 2 ^ 64
      else if j = (g.board p).owner then ((g.owners j).busy_fields + (2 ^ 64 - 1)) % 2 ^ 64
      else (g.owners j).busy_fields := by
  unfold moved
  rw [busy_fields_dec_fields, busy_fields_inc_fields]
  by_cases h1 : j = o
  · subst h1
    rw [if_neg (Ne.symm hne), if_pos rfl, if_pos rfl]; rfl
  · rw [if_neg h1, if_neg h1]; rfl

theorem change_owner_golden (g : gamma_t) (hclear : all_clear g) (o : Nat) (p : Position)
    (j : Nat) :
    ((change_owner g o p).owners j).golden_move_used = (g.owners j).golden_move_used := by
  rw [change_owner_eq g hclear, busy_areas_add_golden, busy_areas_add_golden, moved_golden]

theorem change_owner_fields (g : gamma_t) (hclear : all_clear g) (o : Nat) (p : Position)
    (j : Nat) (hne : (g.board p).owner ≠ o) :
    ((change_owner g o p).owners j).busy_fields =
      if j = o then ((g.owners j).busy_fields + 1) % 2 ^ 64
      else if j = (g.board p).owner then ((g.owners j).busy_fields + (2 ^ 64 - 1)) % 2 ^ 64
      else (g.owners j).busy_fields := by
  rw [change_owner_eq g hclear, busy_areas_add_fields, busy_areas_add_fields,
    moved_fields g o p j hne]

theorem change_owner_areas (g : gamma_t) (hclear : all_clear g) (o : Nat) (p : Position)
    (j : Nat) (hne : (g.board p).owner ≠ o) :
    ((change_owner g o p).owners j).busy_areas =
      if j = o then
        (g.owners j).busy_areas + ((areas_at (moved g o p) o p : Int) - areas_at g o p)
      else if j = (g.board p).owner then
        (g.owners j).busy_areas +
          ((areas_at (moved g o p) (g.board p).owner p : Int) - areas_at g (g.board p).owner p)
      else (g.owners j).busy_areas := by
  rw [change_owner_eq g hclear, busy_areas_add_areas, busy_areas_add_areas, moved_areas]
  by_cases h1 : j = o
  · subst h1
    rw [if_neg (Ne.symm hne), if_pos rfl, if_pos rfl]
  · rw [if_neg h1, if_neg h1]

/-! ## Speculate and revert -/

theorem change_owner_revert (g : gamma_t) (hclear : all_clear g)
    (hlt : ∀ p, (g.owners p).busy_fields < 2 ^ 64) (new_owner : Nat) (position : Position)
    (hne : (g.board position).owner ≠ new_owner) :
    change_owner (change_owner g new_owner position) (g.board position).owner position = g := by
  have hclear1 := all_clear_change_owner g hclear new_owner position
  have hb1 := change_owner_board g hclear new_owner position
  have hown1 : ((change_owner g new_owner position).board position).owner = new_owner := by
    rw [hb1]; simp [set_field]
  have hne1 : ((change_owner g new_owner position).board position).owner ≠
      (g.board position).owner := by rw [hown1]; exact Ne.symm hne
  have e1 : ∀ o, areas_at (change_owner g new_owner position) o position =
      areas_at (moved g new_owner position) o position := by
    intro o
    apply areas_at_congr
    · simp [hclear]
    · simp [hclear]
    · intro p; rw [hb1]; rfl
  have e2 : ∀ o, areas_at (moved (change_owner g new_owner position) (g.board position).owner
      position) o position = areas_at g o position := by
    intro o
    apply areas_at_congr
    · simp [hclear]
    · simp [hclear]
    · intro p
      rw [moved_board, hb1]
      by_cases hp : p = position
      · subst hp; simp [set_field]
      · simp [set_field, hp]
  apply gamma_t_ext
  · simp [hclear, hclear1]
  · simp [hclear, hclear1]
  · simp [hclear, hclear1]
  · rw [change_owner_board _ hclear1, hb1]
    funext p
    by_cases hp : p = position
    · subst hp
      have := hclear p
      cases hgp : g.board p
      simp [set_field, hgp] at this ⊢
    · simp [set_field, hp]
  · funext j
    have hjn := hlt new_owner
    have hjo := hlt (g.board position).owner
    apply OwnerData_ext
    · rw [change_owner_golden _ hclear1, change_owner_golden _ hclear]
    · rw [change_owner_fields _ hclear1 _ _ _ hne1, hown1, change_owner_fields _ hclear _ _ _ hne]
      by_cases h1 : j = new_owner
      · subst h1
        rw [if_neg (Ne.symm hne), if_pos rfl, if_pos rfl]
        omega
      · by_cases h2 : j = (g.board position).owner
        · rw [if_pos h2, if_neg h1, if_pos h2]
          rw [← h2] at hjo
          omega
        · rw [if_neg h2, if_neg h1, if_neg h1, if_neg h2]
    · rw [change_owner_areas _ hclear1 _ _ _ hne1, hown1, change_owner_areas _ hclear _ _ _ hne,
        e1, e1, e2, e2]
      by_cases h1 : j = new_owner
      · subst h1
        rw [if_neg (Ne.symm hne), if_pos rfl, if_pos rfl]
        omega
      · by_cases h2 : j = (g.board position).owner
        · rw [if_pos h2, if_neg h1, if_pos h2]
          omega
        · rw [if_neg h2, if_neg h1, if_neg h1, if_neg h2]
  · simp [hclear, hclear1]

/-! ## A change that passes the area test keeps the invariant -/

theorem region_count_change_owner (g : gamma_t) (hclear : all_clear g) (o : Nat) (p : Position)
    (j : Nat) : region_count (change_owner g o p) j = region_count (moved g o p) j := by
  apply region_count_congr
  · simp [hclear]
  · simp [hclear]
  · intro q; rw [change_owner_board g hclear]; rfl

theorem owned_cells_change_owner (g : gamma_t) (hclear : all_clear g) (o : Nat) (p : Position)
    (j : Nat) : owned_cells (change_owner g o p) j = owned_cells (moved g o p) j := by
  apply owned_cells_congr
  · simp [hclear]
  · simp [hclear]
  · intro q; rw [change_owner_board g hclear]; rfl

theorem areas_at_zero (g : gamma_t) (p : Position) : areas_at g 0 p = 0 := by
  simp [areas_at]

/-- The area counters after `change_owner` are the region counts of the new board. -/
theorem change_owner_areas_exact (g : gamma_t) (h : WellFormed g) (o : Nat) (p : Position)
    (hp : p ∈ cells g) (hne : (g.board p).owner ≠ o) (j : Nat) (hj : j ≠ 0) :
    ((change_owner g o p).owners j).busy_areas = region_count (moved g o p) j := by
  rw [change_owner_areas g h.clear o p j hne, h.areas_exact j hj]
  by_cases h1 : j = o
  · subst h1
    rw [if_pos rfl]
    have := region_count_moved_new g j p hp hne hj
    omega
  · rw [if_neg h1]
    by_cases h2 : j = (g.board p).owner
    · subst h2
      rw [if_pos rfl]
      have := region_count_moved_old g o p hp hne hj
      omega
    · rw [if_neg h2, region_count_moved_third g o j p h1 h2]

theorem change_owner_areas_zero (g : gamma_t) (h : WellFormed g) (o : Nat) (p : Position)
    (hne : (g.board p).owner ≠ o) (ho : o ≠ 0) :
    ((change_owner g o p).owners 0).busy_areas = 0 := by
  rw [change_owner_areas g h.clear o p 0 hne, h.areas_zero, if_neg (Ne.symm ho)]
  by_cases h2 : 0 = (g.board p).owner
  · rw [if_pos h2, ← h2, areas_at_zero, areas_at_zero]; simp
  · rw [if_neg h2]

theorem change_owner_wellformed (g : gamma_t) (h : WellFormed g) (o : Nat) (p : Position)
    (hp : p ∈ cells g) (hne : (g.board p).owner ≠ o) (ho : o ≠ 0)
    (hon : o ≤ g.number_of_players)
    (hle : ∀ j, j ≠ 0 → region_count (moved g o p) j ≤ g.max_areas) :
    WellFormed (change_owner g o p) := by
  have hcells := cells_lt g h.width_lt h.height_lt
  refine ⟨all_clear_change_owner g h.clear o p, ?_, ?_, ?_, ?_, ?_, ?_, ?_, ?_⟩
  · simp [h.clear]; exact h.width_lt
  · simp [h.clear]; exact h.height_lt
  · intro q
    rw [change_owner_board g h.clear, change_owner_players g h.clear]
    by_cases hq : q = p
    · subst hq; simp [set_field]; exact hon
    · simp [set_field, hq]; exact h.owner_le q
  · intro j hj
    rw [change_owner_areas_exact g h o p hp hne j hj, region_count_change_owner g h.clear]
  · exact change_owner_areas_zero g h o p hne ho
  · intro j hj
    rw [change_owner_fields g h.clear o p j hne, owned_cells_change_owner g h.clear,
      h.fields_exact j hj]
    by_cases h1 : j = o
    · subst h1
      rw [if_pos rfl, owned_cells_moved_new g j p hp]
      have hnot : p ∉ owned_cells g j := fun hm => hne ((mem_owned_cells g j p).1 hm).2
      rw [Finset.card_insert_of_not_mem hnot]
      have h3 := card_owned_cells_le (moved g j p) j
      rw [owned_cells_moved_new g j p hp, Finset.card_insert_of_not_mem hnot] at h3
      simp only [moved_width, moved_height] at h3
      omega
    · rw [if_neg h1, owned_cells_moved_other g o j p h1]
      by_cases h2 : j = (g.board p).owner
      · rw [if_pos h2]
        have hmem : p ∈ owned_cells g j :=
          (mem_owned_cells g j p).2 ⟨(mem_cells g p).1 hp, h2.symm⟩
        rw [Finset.card_erase_of_mem hmem]
        have hpos : 0 < (owned_cells g j).card := Finset.card_pos.2 ⟨p, hmem⟩
        have := card_owned_cells_le g j
        omega
      · rw [if_neg h2, Finset.erase_eq_of_not_mem]
        intro hm
        exact h2 ((mem_owned_cells g j p).1 hm).2.symm
  · rw [change_owner_fields g h.clear o p 0 hne, owned_cells_change_owner g h.clear,
      change_owner_width g h.clear, change_owner_height g h.clear, h.fields_zero,
      if_neg (Ne.symm ho), owned_cells_moved_other g o 0 p (Ne.symm ho)]
    have hle0 := card_owned_cells_le g 0
    by_cases h2 : 0 = (g.board p).owner
    · rw [if_pos h2]
      have hmem : p ∈ owned_cells g 0 :=
        (mem_owned_cells g 0 p).2 ⟨(mem_cells g p).1 hp, h2.symm⟩
      rw [Finset.card_erase_of_mem hmem]
      have hpos : 0 < (owned_cells g 0).card := Finset.card_pos.2 ⟨p, hmem⟩
      generalize (owned_cells g 0).card = c0 at hle0 hpos ⊢
      generalize g.width * g.height = wh at hcells hle0 ⊢
      omega
    · rw [if_neg h2, Finset.erase_eq_of_not_mem]
      intro hm
      exact h2 ((mem_owned_cells g 0 p).1 hm).2.symm
  · intro j hj
    rw [region_count_change_owner g h.clear, change_owner_max_areas g h.clear]
    exact hle j hj

/-! ## `change_owner_valid` -/

theorem change_owner_valid_eq (g : gamma_t) (h : WellFormed g) (o : Nat) (p : Position)
    (hp : inside_board g p = true) (hne : (g.board p).owner ≠ o) (ho : o ≠ 0) :
    (change_owner_valid g o p).1 = g ∧
    ((change_owner_valid g o p).2 = true ↔
      region_count (moved g o p) o ≤ g.max_areas ∧
      ((g.board p).owner ≠ 0 → region_count (moved g o p) (g.board p).owner ≤ g.max_areas)) := by
  have hpc : p ∈ cells g := (mem_cells g p).2 hp
  unfold change_owner_valid get_field
  simp only [hp, if_true]
  refine ⟨change_owner_revert g h.clear h.busy_fields_lt o p hne, ?_⟩
  rw [change_owner_areas_exact g h o p hpc hne o ho, change_owner_max_areas g h.clear]
  simp only [Bool.and_eq_true, decide_eq_true_eq, Nat.cast_le]
  by_cases h0 : (g.board p).owner = 0
  · rw [h0, change_owner_areas_zero g h o p hne ho]
    simp
  · rw [change_owner_areas_exact g h o p hpc hne _ h0]
    simp [h0]

/-! ## The initial state -/

theorem count_regions_empty : count_regions ∅ = 0 := by
  simp [count_regions]

theorem gamma_new_eq (width height players areas : Nat) (g : gamma_t)
    (h : gamma_new width height players areas = some g) :
    0 < width ∧ 0 < height ∧ 0 < players ∧ 0 < areas ∧
    g = { width := width
          height := height
          max_areas := areas
          board := fun _ => ⟨0, false⟩
          owners := set_owner (fun _ => ⟨false, 0, 0⟩) 0 ⟨false, (width * height) % 2 ^ 32, 0⟩
          number_of_players := players } := by
  unfold gamma_new at h
  by_cases hz : width = 0 ∨ height = 0 ∨ players = 0 ∨ areas = 0
  · rw [if_pos hz] at h; exact absurd h (by simp)
  · rw [if_neg hz] at h
    simp only [Option.some.injEq] at h
    refine ⟨by omega, by omega, by omega, by omega, h.symm⟩

theorem owned_cells_new_zero (g : gamma_t) (hb : ∀ p, (g.board p).owner = 0) :
    owned_cells g 0 = cells g := by
  ext p
  simp [owned_cells, hb]

theorem owned_cells_new_pos (g : gamma_t) (hb : ∀ p, (g.board p).owner = 0) (o : Nat)
    (ho : o ≠ 0) : owned_cells g o = ∅ := by
  ext p
  simp [owned_cells, hb, Ne.symm ho]

theorem gamma_new_wellformed (width height players areas : Nat) (g : gamma_t)
    (hw : width < 2 ^ 32) (hh : height < 2 ^ 32)
    (h : gamma_new width height players areas = some g) : WellFormed g := by
  obtain ⟨_, _, _, _, hg⟩ := gamma_new_eq width height players areas g h
  have hb : ∀ p, (g.board p).owner = 0 := by intro p; rw [hg]
  have hown : ∀ o, o ≠ 0 → g.owners o = ⟨false, 0, 0⟩ := by
    intro o ho; rw [hg]; simp [set_owner, ho]
  refine ⟨?_, ?_, ?_, ?_, ?_, ?_, ?_, ?_, ?_⟩
  · intro p; rw [hg]
  · rw [hg]; exact hw
  · rw [hg]; exact hh
  · intro p; rw [hb p]; exact Nat.zero_le _
  · intro o ho
    rw [hown o ho, region_count, owned_cells_new_pos g hb o ho, count_regions_empty]; rfl
  · rw [hg]; simp [set_owner]
  · intro o ho
    rw [hown o ho, owned_cells_new_pos g hb o ho]; rfl
  · rw [owned_cells_new_zero g hb, card_cells]
    have : (g.owners 0).busy_fields = (g.width * g.height) % 2 ^ 32 := by
      rw [hg]; simp [set_owner]
    rw [this]
    generalize g.width * g.height = wh
    omega
  · intro o ho
    rw [region_count, owned_cells_new_pos g hb o ho, count_regions_empty]
    exact Nat.zero_le _

/-! ## `move_valid`, `golden_move_valid` -/

theorem region_count_with_owner (g : gamma_t) (o : Nat) (p : Position) (j : Nat) :
    region_count (moved g o p) j = region_count (with_owner g p o) j := rfl

theorem move_valid_spec (g : gamma_t) (h : WellFormed g) (player : Nat) (p : Position) :
    (move_valid g player p).1 = g ∧
    ((move_valid g player p).2 = true ↔
      (1 ≤ player ∧ player ≤ g.number_of_players) ∧ inside_board g p = true ∧
      (g.board p).owner = 0 ∧ region_count (with_owner g p player) player ≤ g.max_areas) := by
  unfold move_valid get_field
  by_cases hpl : player ≤ g.number_of_players ∧ player > 0
  · rw [if_pos hpl]
    by_cases hin : inside_board g p = true
    · simp only [hin, if_true]
      by_cases ho : (g.board p).owner = 0
      · rw [if_pos ho]
        have hne : (g.board p).owner ≠ player := by omega
        obtain ⟨h1, h2⟩ := change_owner_valid_eq g h player p hin hne (by omega)
        refine ⟨h1, ?_⟩
        rw [h2, region_count_with_owner]
        constructor
        · rintro ⟨ha, _⟩
          exact ⟨⟨hpl.2, hpl.1⟩, trivial, ho, ha⟩
        · rintro ⟨_, _, _, ha⟩
          exact ⟨ha, fun hc => absurd ho hc⟩
      · rw [if_neg ho]
        simp [ho]
    · simp [hin]
  · rw [if_neg hpl]
    refine ⟨rfl, ?_⟩
    simp only [Bool.false_eq_true, false_iff]
    rintro ⟨⟨h1, h2⟩, _⟩
    exact hpl ⟨h2, h1⟩

theorem golden_move_valid_spec (g : gamma_t) (h : WellFormed g) (player : Nat) (p : Position) :
    (golden_move_valid g player p).1 = g ∧
    ((golden_move_valid g player p).2 = true ↔
      (1 ≤ player ∧ player ≤ g.number_of_players) ∧
      (g.owners player).golden_move_used = false ∧ inside_board g p = true ∧
      ((g.board p).owner ≠ 0 ∧ (g.board p).owner ≠ player) ∧
      region_count (with_owner g p player) player ≤ g.max_areas ∧
      region_count (with_owner g p player) (g.board p).owner ≤ g.max_areas) := by
  unfold golden_move_valid get_field
  by_cases hpl : player ≤ g.number_of_players ∧ player > 0 ∧
      (g.owners player).golden_move_used = false
  · rw [if_pos hpl]
    by_cases hin : inside_board g p = true
    · simp only [hin, if_true]
      by_cases ho : (g.board p).owner ≠ 0 ∧ (g.board p).owner ≠ player
      · rw [if_pos ho]
        obtain ⟨h1, h2⟩ := change_owner_valid_eq g h player p hin ho.2 (by omega)
        refine ⟨h1, ?_⟩
        rw [h2, region_count_with_owner, region_count_with_owner]
        constructor
        · rintro ⟨ha, hb⟩
          exact ⟨⟨hpl.2.1, hpl.1⟩, hpl.2.2, trivial, ho, ha, hb ho.1⟩
        · rintro ⟨_, _, _, _, ha, hb⟩
          exact ⟨ha, fun _ => hb⟩
      · rw [if_neg ho]
        refine ⟨rfl, ?_⟩
        simp only [Bool.false_eq_true, false_iff]
        rintro ⟨_, _, _, hc, _⟩
        exact ho hc
    · simp [hin]
  · rw [if_neg hpl]
    refine ⟨rfl, ?_⟩
    simp only [Bool.false_eq_true, false_iff]
    rintro ⟨⟨h1, h2⟩, h3, _⟩
    exact hpl ⟨h2, h1, h3⟩

/-! ## `gamma_move`, `gamma_golden_move` -/

theorem gamma_move_eq (g : gamma_t) (h : WellFormed g) (player x y : Nat) :
    gamma_move g player x y =
      if (move_valid g player ⟨x, y⟩).2 = true then (change_owner g player ⟨x, y⟩, true)
      else (g, false) := by
  unfold gamma_move
  simp only [(move_valid_spec g h player ⟨x, y⟩).1]

theorem gamma_golden_move_eq (g : gamma_t) (h : WellFormed g) (player x y : Nat) :
    gamma_golden_move g player x y =
      if (golden_move_valid g player ⟨x, y⟩).2 = true then
        (set_golden_move_used (change_owner g player ⟨x, y⟩) player, true)
      else (g, false) := by
  unfold gamma_golden_move
  simp only [(golden_move_valid_spec g h player ⟨x, y⟩).1]

theorem set_golden_move_used_wellformed (g : gamma_t) (h : WellFormed g) (player : Nat) :
    WellFormed (set_golden_move_used g player) := by
  have hown : ∀ j, ((set_golden_move_used g player).owners j).busy_areas =
      (g.owners j).busy_areas ∧
      ((set_golden_move_used g player).owners j).busy_fields = (g.owners j).busy_fields := by
    intro j
    by_cases hj : j = player
    · subst hj; simp [set_golden_move_used, set_owner]
    · simp [set_golden_move_used, set_owner, hj]
  refine ⟨h.clear, h.width_lt, h.height_lt, h.owner_le, ?_, ?_, ?_, ?_, h.areas_le⟩
  · intro j hj; rw [(hown j).1]; exact h.areas_exact j hj
  · rw [(hown 0).1]; exact h.areas_zero
  · intro j hj; rw [(hown j).2]; exact h.fields_exact j hj
  · rw [(hown 0).2]; exact h.fields_zero

theorem gamma_move_wellformed (g : gamma_t) (h : WellFormed g) (player x y : Nat) :
    WellFormed (gamma_move g player x y).1 := by
  rw [gamma_move_eq g h]
  by_cases hv : (move_valid g player ⟨x, y⟩).2 = true
  · rw [if_pos hv]
    obtain ⟨⟨h1, h2⟩, h3, h4, h5⟩ := (move_valid_spec g h player ⟨x, y⟩).2.1 hv
    have hne : (g.board ⟨x, y⟩).owner ≠ player := by omega
    apply change_owner_wellformed g h player _ ((mem_cells g _).2 h3) hne (by omega) h2
    intro j hj
    by_cases hj1 : j = player
    · subst hj1; exact h5
    · rw [region_count_moved_third g player j _ hj1 (by rw [h4]; exact hj)]
      exact h.areas_le j hj
  · rw [if_neg hv]; exact h

theorem gamma_golden_move_wellformed (g : gamma_t) (h : WellFormed g) (player x y : Nat) :
    WellFormed (gamma_golden_move g player x y).1 := by
  rw [gamma_golden_move_eq g h]
  by_cases hv : (golden_move_valid g player ⟨x, y⟩).2 = true
  · rw [if_pos hv]
    obtain ⟨⟨h1, h2⟩, _, h3, ⟨h4, h4'⟩, h5, h6⟩ :=
      (golden_move_valid_spec g h player ⟨x, y⟩).2.1 hv
    apply set_golden_move_used_wellformed
    apply change_owner_wellformed g h player _ ((mem_cells g _).2 h3) h4' (by omega) h2
    intro j hj
    by_cases hj1 : j = player
    · subst hj1; exact h5
    · by_cases hj2 : j = (g.board ⟨x, y⟩).owner
      · subst hj2; exact h6
      · rw [region_count_moved_third g player j _ hj1 hj2]
        exact h.areas_le j hj
  · rw [if_neg hv]; exact h

/-! ## `gamma_free_fields` -/

theorem free_fields_inner (g : gamma_t) (h : WellFormed g) (player x : Nat) :
    ∀ (m k : Nat), k < 2 ^ 64 →
      ∃ c, c < 2 ^ 64 ∧
        (List.range m).foldl
          (fun (s : gamma_t × Nat) (y : Nat) =>
            let r := move_valid s.1 player ⟨(x : Int), (y : Int)⟩
            if r.2 then (r.1, (s.2 + 1) % 2 ^ 64) else (r.1, s.2))
          (g, k) = (g, c) ∧
        c % 2 ^ 64 =
          (k + ∑ y in Finset.range m,
            if (move_valid g player ⟨x, y⟩).2 = true then 1 else 0) % 2 ^ 64 := by
  intro m
  induction m with
  | zero => intro k hk; exact ⟨k, hk, rfl, by simp⟩
  | succ m ih =>
    intro k hk
    obtain ⟨c, hc, hfold, hmod⟩ := ih k hk
    rw [List.range_succ, List.foldl_append, hfold, Finset.sum_range_succ]
    simp only [List.foldl_cons, List.foldl_nil, (move_valid_spec g h player _).1]
    by_cases hv : (move_valid g player ⟨x, m⟩).2 = true
    · rw [if_pos hv, if_pos hv]
      refine ⟨(c + 1) % 2 ^ 64, Nat.mod_lt _ (by norm_num), rfl, ?_⟩
      omega
    · rw [if_neg hv, if_neg hv]
      exact ⟨c, hc, rfl, by simpa using hmod⟩

theorem free_fields_outer (g : gamma_t) (h : WellFormed g) (player : Nat) :
    ∀ (n : Nat),
      ∃ c, c < 2 ^ 64 ∧
        (List.range n).foldl
          (fun (s : gamma_t × Nat) (x : Nat) =>
            (List.range s.1.height).foldl
              (fun (s : gamma_t × Nat) (y : Nat) =>
                let r := move_valid s.1 player ⟨(x : Int), (y : Int)⟩
                if r.2 then (r.1, (s.2 + 1) % 2 ^ 64) else (r.1, s.2))
              s)
          (g, 0) = (g, c) ∧
        c % 2 ^ 64 =
          (∑ x in Finset.range n, ∑ y in Finset.range g.height,
            if (move_valid g player ⟨x, y⟩).2 = true then 1 else 0) % 2 ^ 64 := by
  intro n
  induction n with
  | zero => exact ⟨0, by norm_num, rfl, by simp⟩
  | succ n ih =>
    obtain ⟨c, hc, hfold, hmod⟩ := ih
    rw [List.range_succ, List.foldl_append, hfold, Finset.sum_range_succ]
    simp only [List.foldl_cons, List.foldl_nil]
    obtain ⟨c2, hc2, hfold2, hmod2⟩ := free_fields_inner g h player n g.height c hc
    refine ⟨c2, hc2, hfold2, ?_⟩
    rw [hmod2]
    omega

/-- The positions of the board where `gamma_move` by `player` would succeed. -/
theorem card_legal_eq_sum (g : gamma_t) (player : Nat) :
    ((Finset.range g.width ×ˢ Finset.range g.height).filter
        (fun c => (move_valid g player ⟨c.1, c.2⟩).2 = true)).card =
      ∑ x in Finset.range g.width, ∑ y in Finset.range g.height,
        if (move_valid g player ⟨x, y⟩).2 = true then 1 else 0 := by
  rw [Finset.card_filter, Finset.sum_product]

theorem gamma_free_fields_spec (g : gamma_t) (h : WellFormed g) (player : Nat) :
    gamma_free_fields g player =
      (g, ((Finset.range g.width ×ˢ Finset.range g.height).filter
        (fun c => (move_valid g player ⟨c.1, c.2⟩).2 = true)).card) := by
  obtain ⟨c, hc, hfold, hmod⟩ := free_fields_outer g h player g.width
  unfold gamma_free_fields
  rw [hfold, card_legal_eq_sum]
  rw [← card_legal_eq_sum] at hmod ⊢
  have hle : ((Finset.range g.width ×ˢ Finset.range g.height).filter
        (fun c => (move_valid g player ⟨c.1, c.2⟩).2 = true)).card ≤ g.width * g.height := by
    refine (Finset.card_filter_le _ _).trans ?_
    simp
  have := cells_lt g h.width_lt h.height_lt
  congr 1
  omega

/-! ## Every reachable state satisfies the invariant -/

theorem reachable_wellformed {width height players areas : Nat} {g : gamma_t}
    (h : Reachable width height players areas g) : WellFormed g := by
  induction h with
  | new g hw hh _ _ hnew => exact gamma_new_wellformed width height players areas g hw hh hnew
  | move g player x y _ ih => exact gamma_move_wellformed g ih player x y
  | golden_move g player x y _ ih => exact gamma_golden_move_wellformed g ih player x y
  | free_fields g player _ ih => rw [gamma_free_fields_spec g ih]; exact ih

theorem gamma_move_params (g : gamma_t) (h : WellFormed g) (player x y : Nat) :
    (gamma_move g player x y).1.width = g.width ∧ (gamma_move g player x y).1.height = g.height ∧
    (gamma_move g player x y).1.max_areas = g.max_areas ∧
    (gamma_move g player x y).1.number_of_players = g.number_of_players := by
  rw [gamma_move_eq g h]
  split_ifs <;> simp [h.clear]

theorem gamma_golden_move_params (g : gamma_t) (h : WellFormed g) (player x y : Nat) :
    (gamma_golden_move g player x y).1.width = g.width ∧
    (gamma_golden_move g player x y).1.height = g.height ∧
    (gamma_golden_move g player x y).1.max_areas = g.max_areas ∧
    (gamma_golden_move g player x y).1.number_of_players = g.number_of_players := by
  rw [gamma_golden_move_eq g h]
  split_ifs
  · simp [set_golden_move_used, h.clear]
  · simp

theorem reachable_params {width height players areas : Nat} {g : gamma_t}
    (h : Reachable width height players areas g) :
    g.width = width ∧ g.height = height ∧ g.max_areas = areas ∧
    g.number_of_players = players ∧
    (0 < width ∧ width < 2 ^ 32) ∧ (0 < height ∧ height < 2 ^ 32) ∧
    (0 < players ∧ players < 2 ^ 32) ∧ (0 < areas ∧ areas < 2 ^ 32) := by
  induction h with
  | new g hw hh hp ha hnew =>
    obtain ⟨h1, h2, h3, h4, hg⟩ := gamma_new_eq width height players areas g hnew
    rw [hg]
    exact ⟨rfl, rfl, rfl, rfl, ⟨h1, hw⟩, ⟨h2, hh⟩, ⟨h3, hp⟩, ⟨h4, ha⟩⟩
  | move g player x y hr ih =>
    obtain ⟨e1, e2, e3, e4⟩ := gamma_move_params g (reachable_wellformed hr) player x y
    rw [e1, e2, e3, e4]; exact ih
  | golden_move g player x y hr ih =>
    obtain ⟨e1, e2, e3, e4⟩ := gamma_golden_move_params g (reachable_wellformed hr) player x y
    rw [e1, e2, e3, e4]; exact ih
  | free_fields g player hr ih =>
    rw [gamma_free_fields_spec g (reachable_wellformed hr)]; exact ih

/-! ## Helpers for the statements about the public functions -/

theorem gamma_new_initial (width height players areas : Nat) (hw : 0 < width) (hh : 0 < height)
    (hp : 0 < players) (ha : 0 < areas) :
    gamma_new width height players areas = some (initial width height players areas) := by
  unfold gamma_new
  rw [if_neg (by omega)]
  rfl

theorem on_board_iff (g : gamma_t) (x y : Nat) :
    inside_board g ⟨x, y⟩ = true ↔ x < g.width ∧ y < g.height := by
  rw [inside_board_iff]
  simp only
  omega

theorem owned_cells_with_owner_new (g : gamma_t) (o : Nat) (p : Position) (hp : p ∈ cells g) :
    owned_cells (with_owner g p o) o = insert p (owned_cells g o) :=
  owned_cells_moved_new g o p hp

theorem owned_cells_with_owner_old (g : gamma_t) (o o2 : Nat) (p : Position) (ho : o2 ≠ o) :
    owned_cells (with_owner g p o) o2 = (owned_cells g o2).erase p :=
  owned_cells_moved_other g o o2 p ho

theorem gamma_move_result (g : gamma_t) (h : WellFormed g) (player x y : Nat) :
    (gamma_move g player x y).2 = (move_valid g player ⟨x, y⟩).2 := by
  rw [gamma_move_eq g h]
  by_cases hv : (move_valid g player ⟨x, y⟩).2 = true
  · rw [if_pos hv, hv]
  · rw [if_neg hv]; simp at hv; rw [hv]

theorem gamma_golden_move_result (g : gamma_t) (h : WellFormed g) (player x y : Nat) :
    (gamma_golden_move g player x y).2 = (golden_move_valid g player ⟨x, y⟩).2 := by
  rw [gamma_golden_move_eq g h]
  by_cases hv : (golden_move_valid g player ⟨x, y⟩).2 = true
  · rw [if_pos hv, hv]
  · rw [if_neg hv]; simp at hv; rw [hv]

theorem gamma_move_iff_wf (g : gamma_t) (h : WellFormed g) (player x y : Nat) :
    (gamma_move g player x y).2 = true ↔
      (1 ≤ player ∧ player ≤ g.number_of_players) ∧ (x < g.width ∧ y < g.height) ∧
      (g.board ⟨x, y⟩).owner = 0 ∧
      count_regions (insert ⟨x, y⟩ (owned_cells g player)) ≤ g.max_areas := by
  rw [gamma_move_result g h, (move_valid_spec g h player ⟨x, y⟩).2, on_board_iff]
  constructor
  · rintro ⟨h1, h2, h3, h4⟩
    refine ⟨h1, h2, h3, ?_⟩
    rw [← owned_cells_with_owner_new g player _ ((mem_cells g _).2 ((on_board_iff g x y).2 h2))]
    exact h4
  · rintro ⟨h1, h2, h3, h4⟩
    refine ⟨h1, h2, h3, ?_⟩
    unfold region_count
    rw [owned_cells_with_owner_new g player _ ((mem_cells g _).2 ((on_board_iff g x y).2 h2))]
    exact h4

theorem gamma_golden_move_iff_wf (g : gamma_t) (h : WellFormed g) (player x y : Nat) :
    (gamma_golden_move g player x y).2 = true ↔
      (1 ≤ player ∧ player ≤ g.number_of_players) ∧
      (g.owners player).golden_move_used = false ∧ (x < g.width ∧ y < g.height) ∧
      (1 ≤ (g.board ⟨x, y⟩).owner ∧ (g.board ⟨x, y⟩).owner ≤ g.number_of_players ∧
        (g.board ⟨x, y⟩).owner ≠ player) ∧
      count_regions (insert ⟨x, y⟩ (owned_cells g player)) ≤ g.max_areas ∧
      count_regions ((owned_cells g (g.board ⟨x, y⟩).owner).erase ⟨x, y⟩) ≤ g.max_areas := by
  rw [gamma_golden_move_result g h, (golden_move_valid_spec g h player ⟨x, y⟩).2, on_board_iff]
  have hle := h.owner_le ⟨x, y⟩
  constructor
  · rintro ⟨h1, h2, h3, ⟨h4, h4'⟩, h5, h6⟩
    refine ⟨h1, h2, h3, ⟨by omega, hle, h4'⟩, ?_, ?_⟩
    · rw [← owned_cells_with_owner_new g player _ ((mem_cells g _).2 ((on_board_iff g x y).2 h3))]
      exact h5
    · rw [← owned_cells_with_owner_old g player _ _ h4']
      exact h6
  · rintro ⟨h1, h2, h3, ⟨h4, _, h4'⟩, h5, h6⟩
    refine ⟨h1, h2, h3, ⟨by omega, h4'⟩, ?_, ?_⟩
    · unfold region_count
      rw [owned_cells_with_owner_new g player _ ((mem_cells g _).2 ((on_board_iff g x y).2 h3))]
      exact h5
    · unfold region_count
      rw [owned_cells_with_owner_old g player _ _ h4']
      exact h6

theorem gamma_move_rejected_wf (g : gamma_t) (h : WellFormed g) (player x y : Nat)
    (hr : (gamma_move g player x y).2 = false) : (gamma_move g player x y).1 = g := by
  rw [gamma_move_result g h] at hr
  rw [gamma_move_eq g h, if_neg (by simp [hr])]

theorem gamma_golden_move_rejected_wf (g : gamma_t) (h : WellFormed g) (player x y : Nat)
    (hr : (gamma_golden_move g player x y).2 = false) : (gamma_golden_move g player x y).1 = g := by
  rw [gamma_golden_move_result g h] at hr
  rw [gamma_golden_move_eq g h, if_neg (by simp [hr])]

theorem gamma_move_accepted_wf (g : gamma_t) (h : WellFormed g) (player x y : Nat)
    (hr : (gamma_move g player x y).2 = true) :
    (gamma_move g player x y).1 = change_owner g player ⟨x, y⟩ := by
  rw [gamma_move_result g h] at hr
  rw [gamma_move_eq g h, if_pos hr]

theorem gamma_golden_move_accepted_wf (g : gamma_t) (h : WellFormed g) (player x y : Nat)
    (hr : (gamma_golden_move g player x y).2 = true) :
    (gamma_golden_move g player x y).1 =
      set_golden_move_used (change_owner g player ⟨x, y⟩) player := by
  rw [gamma_golden_move_result g h] at hr
  rw [gamma_golden_move_eq g h, if_pos hr]

theorem set_golden_move_used_board (g : gamma_t) (player : Nat) :
    (set_golden_move_used g player).board = g.board := rfl

theorem set_golden_move_used_golden (g : gamma_t) (player j : Nat) :
    ((set_golden_move_used g player).owners j).golden_move_used =
      if j = player then true else (g.owners j).golden_move_used := by
  by_cases hj : j = player
  · subst hj; simp [set_golden_move_used, set_owner]
  · simp [set_golden_move_used, set_owner, hj]

theorem gamma_move_golden_flags (g : gamma_t) (h : WellFormed g) (player x y j : Nat) :
    ((gamma_move g player x y).1.owners j).golden_move_used = (g.owners j).golden_move_used := by
  rw [gamma_move_eq g h]
  split_ifs
  · exact change_owner_golden g h.clear player _ j
  · rfl

theorem reachableGold_reachable {width height players areas : Nat} {g : gamma_t}
    {gold : List Nat} (h : ReachableGold width height players areas g gold) :
    Reachable width height players areas g := by
  induction h with
  | new g hw hh hp ha hnew => exact Reachable.new g hw hh hp ha hnew
  | move g gold player x y _ ih => exact Reachable.move g player x y ih
  | golden_move g gold player x y _ ih => exact Reachable.golden_move g player x y ih
  | free_fields g gold player _ ih => exact Reachable.free_fields g player ih

theorem reachable_reachableGold {width height players areas : Nat} {g : gamma_t}
    (h : Reachable width height players areas g) :
    ∃ gold, ReachableGold width height players areas g gold := by
  induction h with
  | new g hw hh hp ha hnew => exact ⟨[], ReachableGold.new g hw hh hp ha hnew⟩
  | move g player x y _ ih =>
    obtain ⟨gold, hg⟩ := ih
    exact ⟨gold, ReachableGold.move g gold player x y hg⟩
  | golden_move g player x y _ ih =>
    obtain ⟨gold, hg⟩ := ih
    exact ⟨_, ReachableGold.golden_move g gold player x y hg⟩
  | free_fields g player _ ih =>
    obtain ⟨gold, hg⟩ := ih
    exact ⟨gold, ReachableGold.free_fields g gold player hg⟩

/-- The flag `golden_move_used` of a player is set exactly when one of the player's
golden moves has succeeded. -/
theorem golden_flag_iff {width height players areas : Nat} {g : gamma_t} {gold : List Nat}
    (h : ReachableGold width height players areas g gold) (p : Nat) :
    (g.owners p).golden_move_used = true ↔ p ∈ gold := by
  induction h with
  | new g hw hh hp ha hnew =>
    obtain ⟨_, _, _, _, hg⟩ := gamma_new_eq width height players areas g hnew
    rw [hg]
    by_cases h0 : p = 0
    · subst h0; simp [set_owner]
    · simp [set_owner, h0]
  | move g gold player x y hr ih =>
    rw [gamma_move_golden_flags g (reachable_wellformed (reachableGold_reachable hr))]
    exact ih
  | golden_move g gold player x y hr ih =>
    have hwf := reachable_wellformed (reachableGold_reachable hr)
    by_cases hv : (gamma_golden_move g player x y).2 = true
    · rw [if_pos hv, gamma_golden_move_accepted_wf g hwf player x y hv,
        set_golden_move_used_golden, List.mem_cons]
      by_cases hp : p = player
      · simp [hp]
      · rw [if_neg hp, change_owner_golden g hwf.clear, ih]
        simp [hp]
    · rw [if_neg hv]
      have hv' : (gamma_golden_move g player x y).2 = false := by simpa using hv
      rw [gamma_golden_move_rejected_wf g hwf player x y hv']
      exact ih
  | free_fields g gold player hr ih =>
    rw [gamma_free_fields_spec g (reachable_wellformed (reachableGold_reachable hr))]
    exact ih

/-! ## `gamma_golden_possible` -/

theorem golden_possible_loop_used (g : gamma_t) (player : Nat)
    (hN : g.number_of_players < 2 ^ 32 - 1) (hp : player ≤ g.number_of_players)
    (hused : (g.owners player).golden_move_used = true) :
    ∀ (fuel i : Nat), i ≤ g.number_of_players + 1 → g.number_of_players + 1 - i ≤ fuel →
      gamma_golden_possible_loop fuel g player i false = some false := by
  intro fuel
  induction fuel with
  | zero =>
    intro i hi hf
    have : ¬ i ≤ g.number_of_players := by omega
    unfold gamma_golden_possible_loop
    rw [if_neg this]
  | succ n ih =>
    intro i hi hf
    unfold gamma_golden_possible_loop
    by_cases hle : i ≤ g.number_of_players
    · have hmod : (i + 1) % 2 ^ 32 = i + 1 := Nat.mod_eq_of_lt (by omega)
      rw [if_pos hle, hmod]
      simp only [hused, Bool.not_true, if_pos hp]
      split_ifs
      · exact ih (i + 1) (by omega) (by omega)
      · exact ih (i + 1) (by omega) (by omega)
    · rw [if_neg hle]

theorem golden_possible_used (g : gamma_t) (player : Nat)
    (hN : g.number_of_players < 2 ^ 32 - 1) (hp : player ≤ g.number_of_players)
    (hused : (g.owners player).golden_move_used = true) :
    gamma_golden_possible g player = some false := by
  unfold gamma_golden_possible
  exact golden_possible_loop_used g player hN hp hused _ 1 (by omega) (by omega)

/-- With `2 ^ 32 - 1` players the counter `i` never exceeds `number_of_players`. -/
theorem golden_possible_loop_max_players (g : gamma_t) (player : Nat)
    (hN : g.number_of_players = 2 ^ 32 - 1) :
    ∀ (fuel i : Nat) (result : Bool), i < 2 ^ 32 →
      gamma_golden_possible_loop fuel g player i result = none := by
  intro fuel
  induction fuel with
  | zero =>
    intro i result hi
    unfold gamma_golden_possible_loop
    rw [if_pos (by omega)]
  | succ n ih =>
    intro i result hi
    unfold gamma_golden_possible_loop
    have hmod : (i + 1) % 2 ^ 32 < 2 ^ 32 := Nat.mod_lt _ (by norm_num)
    rw [if_pos (by omega)]
    simp only
    split_ifs
    · exact ih _ _ hmod
    · rfl
    · exact ih _ _ hmod

theorem golden_possible_max_players (g : gamma_t) (player : Nat)
    (hN : g.number_of_players = 2 ^ 32 - 1) : gamma_golden_possible g player = none := by
  unfold gamma_golden_possible
  exact golden_possible_loop_max_players g player hN _ 1 false (by norm_num)

/-! ## Golden moves in a run -/

theorem golden_move_used_rejected {width height players areas : Nat} {g : gamma_t}
    {gold : List Nat} (h : ReachableGold width height players areas g gold) (p : Nat)
    (hp : p ∈ gold) (x y : Nat) : (gamma_golden_move g p x y).2 = false := by
  have hwf := reachable_wellformed (reachableGold_reachable h)
  have hflag := (golden_flag_iff h p).2 hp
  rw [Bool.eq_false_iff]
  intro hv
  have := ((gamma_golden_move_iff_wf g hwf p x y).1 hv).2.1
  rw [hflag] at this
  exact absurd this (by simp)

theorem gold_nodup {width height players areas : Nat} {g : gamma_t} {gold : List Nat}
    (h : ReachableGold width height players areas g gold) : gold.Nodup := by
  induction h with
  | new g hw hh hp ha hnew => exact List.nodup_nil
  | move g gold player x y _ ih => exact ih
  | golden_move g gold player x y hr ih =>
    by_cases hv : (gamma_golden_move g player x y).2 = true
    · rw [if_pos hv]
      refine List.nodup_cons.2 ⟨?_, ih⟩
      intro hmem
      have := golden_move_used_rejected hr player hmem x y
      rw [hv] at this
      exact absurd this (by simp)
    · rw [if_neg hv]; exact ih
  | free_fields g gold player _ ih => exact ih

theorem gold_le_players {width height players areas : Nat} {g : gamma_t} {gold : List Nat}
    (h : ReachableGold width height players areas g gold) (p : Nat) (hp : p ∈ gold) :
    1 ≤ p ∧ p ≤ players := by
  induction h with
  | new g hw hh hp' ha hnew => simp at hp
  | move g gold player x y _ ih => exact ih hp
  | golden_move g gold player x y hr ih =>
    by_cases hv : (gamma_golden_move g player x y).2 = true
    · rw [if_pos hv] at hp
      rcases List.mem_cons.1 hp with h1 | h1
      · subst h1
        have hreach := reachableGold_reachable hr
        have := ((gamma_golden_move_iff_wf g (reachable_wellformed hreach) p x y).1 hv).1
        rw [(reachable_params hreach).2.2.2.1] at this
        exact this
      · exact ih h1
    · rw [if_neg hv] at hp; exact ih hp
  | free_fields g gold player _ ih => exact ih hp

/-- The golden move succeeds at most once per player; afterwards the player's golden
moves are rejected, and `gamma_golden_possible` returns false whenever its loop ends
(fewer than `2 ^ 32 - 1` players). -/
theorem golden_move_once {width height players areas : Nat} {g : gamma_t} {gold : List Nat}
    (h : ReachableGold width height players areas g gold) (p : Nat) :
    gold.count p ≤ 1 ∧
    (p ∈ gold → ∀ x y, (gamma_golden_move g p x y).2 = false) ∧
    (p ∈ gold → players < 2 ^ 32 - 1 → gamma_golden_possible g p = some false) := by
  refine ⟨List.nodup_iff_count_le_one.1 (gold_nodup h) p,
    fun hp x y => golden_move_used_rejected h p hp x y, ?_⟩
  intro hp hlt
  have hreach := reachableGold_reachable h
  have hN := (reachable_params hreach).2.2.2.1
  apply golden_possible_used g p (by rw [hN]; exact hlt)
  · rw [hN]; exact (gold_le_players h p hp).2
  · exact (golden_flag_iff h p).2 hp

/-! ## The counters `busy_fields` on a board of fewer than `2 ^ 32` cells -/

theorem sum_card_owned_cells (g : gamma_t) (h : ∀ p, (g.board p).owner ≤ g.number_of_players) :
    ∑ i in Finset.range (g.number_of_players + 1), (owned_cells g i).card =
      g.width * g.height := by
  rw [← card_cells]
  unfold owned_cells
  rw [← Finset.card_eq_sum_card_fiberwise]
  intro p _
  exact Finset.mem_range.2 (Nat.lt_succ_of_le (h p))

theorem sum_busy_fields_small (g : gamma_t) (h : WellFormed g)
    (hsmall : g.width * g.height < 2 ^ 32) :
    ∑ i in Finset.range (g.number_of_players + 1), (g.owners i).busy_fields =
      g.width * g.height := by
  rw [← sum_card_owned_cells g h.owner_le]
  apply Finset.sum_congr rfl
  intro i _
  by_cases hi : i = 0
  · subst hi
    rw [h.fields_zero]
    have := card_owned_cells_le g 0
    generalize (owned_cells g 0).card = c at this ⊢
    generalize g.width * g.height = wh at this hsmall ⊢
    omega
  · exact h.fields_exact i hi

/-! ## Concrete sessions used as instances -/

theorem reachable_initial (width height players areas : Nat)
    (hw : 0 < width ∧ width < 2 ^ 32) (hh : 0 < height ∧ height < 2 ^ 32)
    (hp : 0 < players ∧ players < 2 ^ 32) (ha : 0 < areas ∧ areas < 2 ^ 32) :
    Reachable width height players areas (initial width height players areas) :=
  Reachable.new _ hw.2 hh.2 hp.2 ha.2 (gamma_new_initial width height players areas hw.1 hh.1 hp.1 ha.1)

theorem reachableGold_initial (width height players areas : Nat)
    (hw : 0 < width ∧ width < 2 ^ 32) (hh : 0 < height ∧ height < 2 ^ 32)
    (hp : 0 < players ∧ players < 2 ^ 32) (ha : 0 < areas ∧ areas < 2 ^ 32) :
    ReachableGold width height players areas (initial width height players areas) [] :=
  ReachableGold.new _ hw.2 hh.2 hp.2 ha.2
    (gamma_new_initial width height players areas hw.1 hh.1 hp.1 ha.1)

/-- On the 2x1 board for two players and one area, player 1 has taken `(0, 0)`. -/
theorem reachable_one_move :
    Reachable 2 1 2 1 (gamma_move (initial 2 1 2 1) 1 0 0).1 :=
  Reachable.move _ 1 0 0
    (reachable_initial 2 1 2 1 (by decide) (by decide) (by decide) (by decide))

theorem reachableGold_one_move :
    ReachableGold 2 1 2 1 (gamma_move (initial 2 1 2 1) 1 0 0).1 [] :=
  ReachableGold.move _ [] 1 0 0
    (reachableGold_initial 2 1 2 1 (by decide) (by decide) (by decide) (by decide))

/-- After player 1 took `(0, 0)`, player 2 captured it with the golden move. -/
theorem reachableGold_captured :
    ReachableGold 2 1 2 1
      (gamma_golden_move (gamma_move (initial 2 1 2 1) 1 0 0).1 2 0 0).1 [2] := by
  have h := ReachableGold.golden_move _ [] 2 0 0 reachableGold_one_move
  rw [if_pos (by decide)] at h
  exact h

/-! ## The claims -/

/-- C1: in every state reachable from a successful `gamma_new width height players areas`
by any sequence of `gamma_move` and `gamma_golden_move` calls, the cells of every real
player `p` in `[1, players]` form at most `areas` 4-connected regions. -/
theorem area_limit_invariant (width height players areas : Nat) (g : gamma_t)
    (h : Reachable width height players areas g) (p : Nat) (hp1 : 1 ≤ p) (_hp2 : p ≤ players) :
    region_count g p ≤ areas := by
  have := (reachable_wellformed h).areas_le p (by omega)
  rwa [(reachable_params h).2.2.1] at this

/-- Instance of C1: player 1 after its move on the 2x1 board. -/
theorem area_limit_invariant_witness :
    Reachable 2 1 2 1 (gamma_move (initial 2 1 2 1) 1 0 0).1 ∧
      region_count (gamma_move (initial 2 1 2 1) 1 0 0).1 1 ≤ 1 :=
  ⟨reachable_one_move,
    area_limit_invariant 2 1 2 1 _ reachable_one_move 1 (by decide) (by decide)⟩

/-- C2: in every reachable state `gamma_move g player x y` returns true exactly when
`1 ≤ player ≤ players`, `(x, y)` is on the board, the cell is unowned, and the cells of
`player` together with `(x, y)` form at most `areas` regions; nothing about the
pseudo-owner 0 is required. -/
theorem gamma_move_iff (width height players areas : Nat) (g : gamma_t)
    (h : Reachable width height players areas g) (player x y : Nat) :
    (gamma_move g player x y).2 = true ↔
      (1 ≤ player ∧ player ≤ players) ∧ (x < width ∧ y < height) ∧
      (g.board ⟨x, y⟩).owner = 0 ∧
      count_regions (insert ⟨x, y⟩ (owned_cells g player)) ≤ areas := by
  obtain ⟨e1, e2, e3, e4, _⟩ := reachable_params h
  rw [gamma_move_iff_wf g (reachable_wellformed h), e1, e2, e3, e4]

/-- Instance of C2: player 2 asking for `(1, 0)` after player 1 took `(0, 0)`. -/
theorem gamma_move_iff_witness :
    Reachable 2 1 2 1 (gamma_move (initial 2 1 2 1) 1 0 0).1 ∧
      ((gamma_move (gamma_move (initial 2 1 2 1) 1 0 0).1 2 1 0).2 = true ↔
        (1 ≤ 2 ∧ 2 ≤ 2) ∧ (1 < 2 ∧ 0 < 1) ∧
        ((gamma_move (initial 2 1 2 1) 1 0 0).1.board ⟨(1 : Nat), (0 : Nat)⟩).owner = 0 ∧
        count_regions (insert ⟨(1 : Nat), (0 : Nat)⟩
          (owned_cells (gamma_move (initial 2 1 2 1) 1 0 0).1 2)) ≤ 1) :=
  ⟨reachable_one_move, gamma_move_iff 2 1 2 1 _ reachable_one_move 2 1 0⟩

/-- C3: in every reachable state, with `gold` the players whose golden move has
succeeded so far, `gamma_golden_move g player x y` returns true exactly when
`1 ≤ player ≤ players`, `player` is not in `gold`, `(x, y)` is on the board, the cell
belongs to a real player other than `player`, and after the capture both the cells of
`player` and the remaining cells of the previous owner form at most `areas` regions. -/
theorem gamma_golden_move_iff (width height players areas : Nat) (g : gamma_t)
    (gold : List Nat) (h : ReachableGold width height players areas g gold)
    (player x y : Nat) :
    (gamma_golden_move g player x y).2 = true ↔
      (1 ≤ player ∧ player ≤ players) ∧ player ∉ gold ∧ (x < width ∧ y < height) ∧
      (1 ≤ (g.board ⟨x, y⟩).owner ∧ (g.board ⟨x, y⟩).owner ≤ players ∧
        (g.board ⟨x, y⟩).owner ≠ player) ∧
      count_regions (insert ⟨x, y⟩ (owned_cells g player)) ≤ areas ∧
      count_regions ((owned_cells g (g.board ⟨x, y⟩).owner).erase ⟨x, y⟩) ≤ areas := by
  have hr := reachableGold_reachable h
  obtain ⟨e1, e2, e3, e4, _⟩ := reachable_params hr
  have hflag : (g.owners player).golden_move_used = false ↔ player ∉ gold := by
    rw [← golden_flag_iff h player]; simp
  rw [gamma_golden_move_iff_wf g (reachable_wellformed hr), e1, e2, e3, e4, hflag]

/-- Instance of C3: player 2 asking for the cell `(0, 0)` of player 1. -/
theorem gamma_golden_move_iff_witness :
    ReachableGold 2 1 2 1 (gamma_move (initial 2 1 2 1) 1 0 0).1 [] ∧
      ((gamma_golden_move (gamma_move (initial 2 1 2 1) 1 0 0).1 2 0 0).2 = true ↔
        (1 ≤ 2 ∧ 2 ≤ 2) ∧ 2 ∉ ([] : List Nat) ∧ (0 < 2 ∧ 0 < 1) ∧
        (1 ≤ ((gamma_move (initial 2 1 2 1) 1 0 0).1.board ⟨(0 : Nat), (0 : Nat)⟩).owner ∧
          ((gamma_move (initial 2 1 2 1) 1 0 0).1.board ⟨(0 : Nat), (0 : Nat)⟩).owner ≤ 2 ∧
          ((gamma_move (initial 2 1 2 1) 1 0 0).1.board ⟨(0 : Nat), (0 : Nat)⟩).owner ≠ 2) ∧
        count_regions (insert ⟨(0 : Nat), (0 : Nat)⟩
          (owned_cells (gamma_move (initial 2 1 2 1) 1 0 0).1 2)) ≤ 1 ∧
        count_regions ((owned_cells (gamma_move (initial 2 1 2 1) 1 0 0).1
          ((gamma_move (initial 2 1 2 1) 1 0 0).1.board ⟨(0 : Nat), (0 : Nat)⟩).owner).erase
            ⟨(0 : Nat), (0 : Nat)⟩) ≤ 1) :=
  ⟨reachableGold_one_move, gamma_golden_move_iff 2 1 2 1 _ [] reachableGold_one_move 2 0 0⟩

/-- C4: in every reachable state a `gamma_move` or `gamma_golden_move` that returns
false leaves the whole state (every cell's owner and visited flag, every owner record)
as it was, so `gamma_busy_fields`, `gamma_free_fields`, `gamma_golden_possible` and any
other function of the state give the same results before and after. -/
theorem rejected_call_changes_nothing (width height players areas : Nat) (g : gamma_t)
    (h : Reachable width height players areas g) (player x y : Nat) (r : gamma_t × Bool)
    (hcall : r = gamma_move g player x y ∨ r = gamma_golden_move g player x y)
    (hfalse : r.2 = false) :
    r.1 = g ∧
    (∀ q, gamma_busy_fields r.1 q = gamma_busy_fields g q) ∧
    (∀ q, (gamma_free_fields r.1 q).2 = (gamma_free_fields g q).2) ∧
    (∀ q, gamma_golden_possible r.1 q = gamma_golden_possible g q) ∧
    (∀ (α : Type) (query : gamma_t → α), query r.1 = query g) := by
  have hwf := reachable_wellformed h
  have hsame : r.1 = g := by
    rcases hcall with hc | hc
    · subst hc; exact gamma_move_rejected_wf g hwf player x y hfalse
    · subst hc; exact gamma_golden_move_rejected_wf g hwf player x y hfalse
  rw [hsame]
  exact ⟨rfl, fun _ => rfl, fun _ => rfl, fun _ => rfl, fun _ _ => rfl⟩

/-- Instances of C4 in which the call is rejected by the area limit, after the
speculative change of `change_owner_valid` and its revert. On the 3x1 board for two
players and one area, with player 1 on `(0, 0)`: the move of player 1 onto the free cell
`(2, 0)` would give player 1 two areas (the speculative state counts 2); and with
player 2 on `(2, 0)`, the golden move of player 1 onto `(2, 0)` likewise. Both calls
return false and the state they were given. -/
theorem rejected_call_changes_nothing_witness :
    (((gamma_move (initial 3 1 2 1) 1 0 0).1.board ⟨2, 0⟩).owner = 0 ∧
      ((change_owner (gamma_move (initial 3 1 2 1) 1 0 0).1 1 ⟨2, 0⟩).owners 1).busy_areas = 2 ∧
      (change_owner_valid (gamma_move (initial 3 1 2 1) 1 0 0).1 1 ⟨2, 0⟩).2 = false ∧
      (gamma_move (gamma_move (initial 3 1 2 1) 1 0 0).1 1 2 0).2 = false ∧
      (gamma_move (gamma_move (initial 3 1 2 1) 1 0 0).1 1 2 0).1 =
        (gamma_move (initial 3 1 2 1) 1 0 0).1) ∧
    (((gamma_move (gamma_move (initial 3 1 2 1) 1 0 0).1 2 2 0).1.board ⟨2, 0⟩).owner = 2 ∧
      ((change_owner (gamma_move (gamma_move (initial 3 1 2 1) 1 0 0).1 2 2 0).1 1
        ⟨2, 0⟩).owners 1).busy_areas = 2 ∧
      (change_owner_valid (gamma_move (gamma_move (initial 3 1 2 1) 1 0 0).1 2 2 0).1 1
        ⟨2, 0⟩).2 = false ∧
      (gamma_golden_move (gamma_move (gamma_move (initial 3 1 2 1) 1 0 0).1 2 2 0).1
        1 2 0).2 = false ∧
      (gamma_golden_move (gamma_move (gamma_move (initial 3 1 2 1) 1 0 0).1 2 2 0).1
        1 2 0).1 = (gamma_move (gamma_move (initial 3 1 2 1) 1 0 0).1 2 2 0).1) :=
  ⟨⟨by decide, by decide, by decide, by decide,
      (rejected_call_changes_nothing 3 1 2 1 _
        (Reachable.move _ 1 0 0
          (reachable_initial 3 1 2 1 (by decide) (by decide) (by decide) (by decide)))
        1 2 0 _ (Or.inl rfl) (by decide)).1⟩,
    ⟨by decide, by decide, by decide, by decide,
      (rejected_call_changes_nothing 3 1 2 1 _
        (Reachable.move _ 2 2 0 (Reachable.move _ 1 0 0
          (reachable_initial 3 1 2 1 (by decide) (by decide) (by decide) (by decide))))
        1 2 0 _ (Or.inr rfl) (by decide)).1⟩⟩

/-- C5: when `gamma_move` or `gamma_golden_move` returns true in a reachable state, the
cell `(x, y)` is owned by `player` afterwards and every other cell keeps its owner. -/
theorem accepted_call_frame (width height players areas : Nat) (g : gamma_t)
    (h : Reachable width height players areas g) (player x y : Nat) (r : gamma_t × Bool)
    (hcall : r = gamma_move g player x y ∨ r = gamma_golden_move g player x y)
    (htrue : r.2 = true) :
    (r.1.board ⟨x, y⟩).owner = player ∧
    ∀ q : Position, q ≠ ⟨x, y⟩ → (r.1.board q).owner = (g.board q).owner := by
  have hwf := reachable_wellformed h
  have hboard : r.1.board = set_field g.board ⟨x, y⟩ ⟨player, (g.board ⟨x, y⟩).bfs_flag⟩ := by
    rcases hcall with hc | hc
    · subst hc
      rw [gamma_move_accepted_wf g hwf player x y htrue, change_owner_board g hwf.clear]
    · subst hc
      rw [gamma_golden_move_accepted_wf g hwf player x y htrue, set_golden_move_used_board,
        change_owner_board g hwf.clear]
  rw [hboard]
  refine ⟨by simp [set_field], ?_⟩
  intro q hq
  simp [set_field, hq]

/-- Instance of C5: the golden move of player 2 onto the cell `(0, 0)` of player 1. -/
theorem accepted_call_frame_witness :
    (gamma_golden_move (gamma_move (initial 2 1 2 1) 1 0 0).1 2 0 0).2 = true ∧
    ((gamma_golden_move (gamma_move (initial 2 1 2 1) 1 0 0).1 2 0 0).1.board
        ⟨(0 : Nat), (0 : Nat)⟩).owner = 2 ∧
    ∀ q : Position, q ≠ ⟨(0 : Nat), (0 : Nat)⟩ →
      ((gamma_golden_move (gamma_move (initial 2 1 2 1) 1 0 0).1 2 0 0).1.board q).owner =
        ((gamma_move (initial 2 1 2 1) 1 0 0).1.board q).owner :=
  ⟨by decide,
    accepted_call_frame 2 1 2 1 _ reachable_one_move 2 0 0 _ (Or.inr rfl) (by decide)⟩

/-- C6: in every reachable state a `gamma_golden_move` by `player` that returns true
sets `golden_move_used` of `player` and leaves the flag of every other owner as it was,
and `gamma_move`, whatever it returns, changes no `golden_move_used` flag. -/
theorem golden_flag_effect (width height players areas : Nat) (g : gamma_t)
    (h : Reachable width height players areas g) (player x y : Nat) :
    ((gamma_golden_move g player x y).2 = true →
      ((gamma_golden_move g player x y).1.owners player).golden_move_used = true ∧
      ∀ j, j ≠ player →
        ((gamma_golden_move g player x y).1.owners j).golden_move_used =
          (g.owners j).golden_move_used) ∧
    (∀ j, ((gamma_move g player x y).1.owners j).golden_move_used =
      (g.owners j).golden_move_used) := by
  have hwf := reachable_wellformed h
  refine ⟨?_, fun j => gamma_move_golden_flags g hwf player x y j⟩
  intro htrue
  rw [gamma_golden_move_accepted_wf g hwf player x y htrue]
  refine ⟨by rw [set_golden_move_used_golden, if_pos rfl], ?_⟩
  intro j hj
  rw [set_golden_move_used_golden, if_neg hj, change_owner_golden g hwf.clear]

/-- Instance of C6: the golden move of player 2 onto the cell `(0, 0)` of player 1. -/
theorem golden_flag_effect_witness :
    (gamma_golden_move (gamma_move (initial 2 1 2 1) 1 0 0).1 2 0 0).2 = true ∧
    ((gamma_golden_move (gamma_move (initial 2 1 2 1) 1 0 0).1 2 0 0).1.owners 2).golden_move_used
      = true :=
  ⟨by decide, ((golden_flag_effect 2 1 2 1 _ reachable_one_move 2 0 0).1 (by decide)).1⟩

/-- C7: the golden move of a player succeeds at most once and is rejected afterwards
(`golden_move_once`), but `gamma_golden_possible` does not return false after it in
every session: with `2 ^ 32 - 1` players the test `i <= number_of_players` on the
`uint32_t` counter never fails. On the 2x1 board with `4294967295` players, after
player 1 took `(0, 0)` and player 2 captured it with the golden move, the loop of
`gamma_golden_possible g 2` does not end, whatever the number of iterations allowed. -/
theorem golden_possible_never_returns :
    ReachableGold 2 1 4294967295 1
      (gamma_golden_move (gamma_move (initial 2 1 4294967295 1) 1 0 0).1 2 0 0).1 [2] ∧
    (∀ fuel, gamma_golden_possible_loop fuel
      (gamma_golden_move (gamma_move (initial 2 1 4294967295 1) 1 0 0).1 2 0 0).1 2 1 false =
        none) ∧
    gamma_golden_possible
      (gamma_golden_move (gamma_move (initial 2 1 4294967295 1) 1 0 0).1 2 0 0).1 2 = none := by
  have h0 := reachableGold_initial 2 1 4294967295 1 (by decide) (by decide) (by decide)
    (by decide)
  have h2 := ReachableGold.golden_move _ [] 2 0 0 (ReachableGold.move _ [] 1 0 0 h0)
  rw [if_pos (by decide)] at h2
  have hN := (reachable_params (reachableGold_reachable h2)).2.2.2.1
  have hN' : (gamma_golden_move (gamma_move (initial 2 1 4294967295 1) 1 0 0).1
      2 0 0).1.number_of_players = 2 ^ 32 - 1 := by rw [hN]; norm_num
  exact ⟨h2, fun fuel => golden_possible_loop_max_players _ 2 hN' fuel 1 false (by norm_num),
    golden_possible_max_players _ 2 hN'⟩

/-- C8: the sum of `busy_fields` over all owners is not `width * height` in every
reachable state: `gamma_new 65536 65536 1 1` stores the `uint32_t` product
`65536 * 65536 = 0` in `owners[0].busy_fields`, so the sum over the owners 0 and 1 is 0.
On boards of fewer than `2 ^ 32` cells the sum is right (`sum_busy_fields_small`). -/
theorem field_count_overflow :
    gamma_new 65536 65536 1 1 = some (initial 65536 65536 1 1) ∧
    Reachable 65536 65536 1 1 (initial 65536 65536 1 1) ∧
    ∑ i in Finset.range (1 + 1), ((initial 65536 65536 1 1).owners i).busy_fields = 0 ∧
    ∑ i in Finset.range (1 + 1), ((initial 65536 65536 1 1).owners i).busy_fields ≠
      65536 * 65536 := by
  refine ⟨gamma_new_initial _ _ _ _ (by decide) (by decide) (by decide) (by decide),
    reachable_initial _ _ _ _ (by decide) (by decide) (by decide) (by decide), ?_, ?_⟩ <;>
  simp [Finset.sum_range_succ, initial, set_owner]

/-- C9: in every reachable state `gamma_busy_fields g player` is the number of cells of
the board owned by `player` when `1 ≤ player ≤ players`, and 0 when `player` is 0 or
greater than `players`. -/
theorem gamma_busy_fields_counts (width height players areas : Nat) (g : gamma_t)
    (h : Reachable width height players areas g) (player : Nat) :
    (1 ≤ player ∧ player ≤ players →
      gamma_busy_fields g player = (owned_cells g player).card) ∧
    (player = 0 ∨ players < player → gamma_busy_fields g player = 0) := by
  have hN := (reachable_params h).2.2.2.1
  unfold gamma_busy_fields
  rw [hN]
  constructor
  · rintro ⟨h1, h2⟩
    rw [if_neg (by omega)]
    exact (reachable_wellformed h).fields_exact player (by omega)
  · intro hout
    rw [if_pos (by omega)]

/-- Instance of C9: player 1 after its move on the 2x1 board. -/
theorem gamma_busy_fields_counts_witness :
    Reachable 2 1 2 1 (gamma_move (initial 2 1 2 1) 1 0 0).1 ∧
    gamma_busy_fields (gamma_move (initial 2 1 2 1) 1 0 0).1 1 =
      (owned_cells (gamma_move (initial 2 1 2 1) 1 0 0).1 1).card :=
  ⟨reachable_one_move,
    (gamma_busy_fields_counts 2 1 2 1 _ reachable_one_move 1).1 ⟨by decide, by decide⟩⟩

theorem golden_possible_loop_eq (g : gamma_t) (player : Nat)
    (hN : g.number_of_players < 2 ^ 32 - 1) (hp : player ≤ g.number_of_players) :
    ∀ (fuel i : Nat) (result : Bool), i ≤ g.number_of_players + 1 →
      g.number_of_players + 1 - i ≤ fuel →
      ∃ b, gamma_golden_possible_loop fuel g player i result = some b ∧
        ((∃ j, i ≤ j ∧ j ≤ g.number_of_players ∧ j ≠ player ∧ 0 < (g.owners j).busy_fields) →
          b = !(g.owners player).golden_move_used) ∧
        ((¬ ∃ j, i ≤ j ∧ j ≤ g.number_of_players ∧ j ≠ player ∧
            0 < (g.owners j).busy_fields) → b = result) := by
  intro fuel
  induction fuel with
  | zero =>
    intro i result hi hf
    have hnot : ¬ i ≤ g.number_of_players := by omega
    unfold gamma_golden_possible_loop
    rw [if_neg hnot]
    refine ⟨result, rfl, ?_, fun _ => rfl⟩
    rintro ⟨j, h1, h2, _⟩
    omega
  | succ n ih =>
    intro i result hi hf
    unfold gamma_golden_possible_loop
    by_cases hle : i ≤ g.number_of_players
    · have hmod : (i + 1) % 2 ^ 32 = i + 1 := Nat.mod_eq_of_lt (by omega)
      rw [if_pos hle, hmod]
      simp only
      by_cases hc : i ≠ player ∧ (g.owners i).busy_fields > 0
      · rw [if_pos hc, if_pos hp]
        obtain ⟨b, hb, h1, h2⟩ := ih (i + 1) (!(g.owners player).golden_move_used)
          (by omega) (by omega)
        have hb' : b = !(g.owners player).golden_move_used := by
          by_cases hex : ∃ j, i + 1 ≤ j ∧ j ≤ g.number_of_players ∧ j ≠ player ∧
              0 < (g.owners j).busy_fields
          · exact h1 hex
          · exact h2 hex
        refine ⟨b, hb, fun _ => hb', ?_⟩
        intro hex
        exact absurd ⟨i, le_refl i, hle, hc.1, hc.2⟩ hex
      · rw [if_neg hc]
        obtain ⟨b, hb, h1, h2⟩ := ih (i + 1) result (by omega) (by omega)
        have hiff : (∃ j, i + 1 ≤ j ∧ j ≤ g.number_of_players ∧ j ≠ player ∧
            0 < (g.owners j).busy_fields) ↔
            (∃ j, i ≤ j ∧ j ≤ g.number_of_players ∧ j ≠ player ∧
              0 < (g.owners j).busy_fields) := by
          constructor
          · rintro ⟨j, h1, h2⟩
            exact ⟨j, by omega, h2⟩
          · rintro ⟨j, h1, h2, h3, h4⟩
            refine ⟨j, ?_, h2, h3, h4⟩
            by_contra hlt
            have hji : j = i := by omega
            subst hji
            exact hc ⟨h3, h4⟩
        rw [hiff] at h1 h2
        exact ⟨b, hb, h1, h2⟩
    · rw [if_neg hle]
      refine ⟨result, rfl, ?_, fun _ => rfl⟩
      rintro ⟨j, h1, h2, _⟩
      omega

theorem golden_possible_eq (g : gamma_t) (player : Nat)
    (hN : g.number_of_players < 2 ^ 32 - 1) (hp : player ≤ g.number_of_players) :
    ∃ b, gamma_golden_possible g player = some b ∧
      (b = true ↔ (g.owners player).golden_move_used = false ∧
        ∃ j, 1 ≤ j ∧ j ≤ g.number_of_players ∧ j ≠ player ∧ 0 < (g.owners j).busy_fields) := by
  unfold gamma_golden_possible
  obtain ⟨b, hb, h1, h2⟩ := golden_possible_loop_eq g player hN hp (2 ^ 32) 1 false
    (by omega) (by omega)
  refine ⟨b, hb, ?_⟩
  by_cases hex : ∃ j, 1 ≤ j ∧ j ≤ g.number_of_players ∧ j ≠ player ∧
      0 < (g.owners j).busy_fields
  · rw [h1 hex]
    cases (g.owners player).golden_move_used <;> simp [hex]
  · rw [h2 hex]
    simp [hex]

/-- With fewer than `2 ^ 32 - 1` players, `gamma_golden_possible` returns true for a
player in range exactly when the player has not used the golden move and another
real player owns a cell. -/
theorem golden_possible_iff_small {width height players areas : Nat} {g : gamma_t}
    (h : Reachable width height players areas g) (hsmall : players < 2 ^ 32 - 1)
    (player : Nat) (hp : player ≤ players) :
    ∃ b, gamma_golden_possible g player = some b ∧
      (b = true ↔ (g.owners player).golden_move_used = false ∧
        ∃ j, 1 ≤ j ∧ j ≤ players ∧ j ≠ player ∧ 0 < (owned_cells g j).card) := by
  have hN := (reachable_params h).2.2.2.1
  have hwf := reachable_wellformed h
  obtain ⟨b, hb, hiff⟩ := golden_possible_eq g player (by rw [hN]; exact hsmall)
    (by rw [hN]; exact hp)
  refine ⟨b, hb, ?_⟩
  rw [hiff, hN]
  have hiff2 : (∃ j, 1 ≤ j ∧ j ≤ players ∧ j ≠ player ∧ 0 < (g.owners j).busy_fields) ↔
      (∃ j, 1 ≤ j ∧ j ≤ players ∧ j ≠ player ∧ 0 < (owned_cells g j).card) := by
    constructor
    · rintro ⟨j, h1, h2, h3, h4⟩
      exact ⟨j, h1, h2, h3, by rwa [hwf.fields_exact j (by omega)] at h4⟩
    · rintro ⟨j, h1, h2, h3, h4⟩
      exact ⟨j, h1, h2, h3, by rwa [hwf.fields_exact j (by omega)]⟩
  rw [hiff2]

theorem reachableGold_two_moves_max :
    ReachableGold 2 1 4294967295 1 (gamma_move (initial 2 1 4294967295 1) 1 0 0).1 [] :=
  ReachableGold.move _ [] 1 0 0
    (reachableGold_initial 2 1 4294967295 1 (by decide) (by decide) (by decide) (by decide))

/-- C12: `gamma_golden_possible` is not true in every reachable state where a player in
range has the golden move unused and another real player owns a cell. On the 2x1 board
with `4294967295` players, after player 1 took `(0, 0)`, player 2 has not used the
golden move and player 1 owns a cell, but the loop of `gamma_golden_possible g 2` does
not end (the same defect as in C7). With fewer than `2 ^ 32 - 1` players the claim
holds (`golden_possible_iff_small`). -/
theorem golden_possible_no_answer :
    ReachableGold 2 1 4294967295 1 (gamma_move (initial 2 1 4294967295 1) 1 0 0).1 [] ∧
    ((gamma_move (initial 2 1 4294967295 1) 1 0 0).1.owners 2).golden_move_used = false ∧
    gamma_busy_fields (gamma_move (initial 2 1 4294967295 1) 1 0 0).1 1 = 1 ∧
    (∀ fuel, gamma_golden_possible_loop fuel
      (gamma_move (initial 2 1 4294967295 1) 1 0 0).1 2 1 false = none) ∧
    gamma_golden_possible (gamma_move (initial 2 1 4294967295 1) 1 0 0).1 2 ≠ some true := by
  have h1 := reachableGold_two_moves_max
  have hN := (reachable_params (reachableGold_reachable h1)).2.2.2.1
  have hN' : (gamma_move (initial 2 1 4294967295 1) 1 0 0).1.number_of_players = 2 ^ 32 - 1 := by
    rw [hN]; norm_num
  refine ⟨h1, by decide, by decide,
    fun fuel => golden_possible_loop_max_players _ 2 hN' fuel 1 false (by norm_num), ?_⟩
  rw [golden_possible_max_players _ 2 hN']
  simp

/-- C13: `gamma_golden_possible` does not return false for every player out of range:
on the 2x1 board for two players, after player 1 took `(0, 0)`,
`gamma_golden_possible g 0` returns true, because the loop only compares `i` with
`player` and reads `owners[0].golden_move_used`, which is never set. -/
theorem golden_possible_player_zero :
    Reachable 2 1 2 1 (gamma_move (initial 2 1 2 1) 1 0 0).1 ∧
    gamma_golden_possible (gamma_move (initial 2 1 2 1) 1 0 0).1 0 = some true :=
  ⟨reachable_one_move, by decide⟩

/-- In every reachable state with fewer than `2 ^ 32 - 1` players where a real player
owns a cell, `gamma_golden_possible g 0` returns true. -/
theorem golden_possible_zero_true {width height players areas : Nat} {g : gamma_t}
    {gold : List Nat} (h : ReachableGold width height players areas g gold)
    (hsmall : players < 2 ^ 32 - 1) (j : Nat) (hj : 1 ≤ j ∧ j ≤ players)
    (hown : 0 < (owned_cells g j).card) : gamma_golden_possible g 0 = some true := by
  have hr := reachableGold_reachable h
  obtain ⟨b, hb, hiff⟩ := golden_possible_iff_small hr hsmall 0 (Nat.zero_le _)
  have hflag : (g.owners 0).golden_move_used = false := by
    cases hu : (g.owners 0).golden_move_used
    · rfl
    · have := gold_le_players h 0 ((golden_flag_iff h 0).1 hu)
      omega
  have : b = true := hiff.2 ⟨hflag, j, hj.1, hj.2, by omega, hown⟩
  rw [hb, this]

theorem touching_of_no_neighbour (C : Finset Position) (l : List Position)
    (h : ∀ n, n ∈ l → n ∉ C) : touching C l = 0 := by
  unfold touching
  have : l.toFinset.filter (fun c => c ∈ C) = ∅ := by
    rw [Finset.filter_eq_empty_iff]
    intro n hn
    exact h n (List.mem_toFinset.1 hn)
  rw [this]
  simp

theorem count_regions_insert_isolated (C : Finset Position) (x : Position) (hx : x ∉ C)
    (h : ∀ n, adjacent x n → n ∉ C) : count_regions (insert x C) = count_regions C + 1 := by
  have h1 := count_regions_insert C x hx
  have h2 : touching C (pushed x) = 0 :=
    touching_of_no_neighbour C (pushed x) (fun n hn => h n ((adjacent_pushed x n).1 hn))
  unfold touching at h2
  omega

/-- C14: in a reachable state where player `p` in range has exactly `areas` regions, a
`gamma_move` by `p` onto an unowned cell of the board none of whose four neighbours is
a cell of `p` returns false, and `gamma_busy_fields g p` is unchanged. -/
theorem isolated_move_rejected (width height players areas : Nat) (g : gamma_t)
    (h : Reachable width height players areas g) (p x y : Nat)
    (hp : 1 ≤ p ∧ p ≤ players) (hfull : region_count g p = areas)
    (_hon : x < width ∧ y < height) (hfree : (g.board ⟨x, y⟩).owner = 0)
    (hnb : ∀ i, i < 4 → get_neighbour ⟨x, y⟩ i ∉ owned_cells g p) :
    (gamma_move g p x y).2 = false ∧
    gamma_busy_fields (gamma_move g p x y).1 p = gamma_busy_fields g p := by
  have hwf := reachable_wellformed h
  obtain ⟨_, _, e3, _⟩ := reachable_params h
  have hnot : (⟨x, y⟩ : Position) ∉ owned_cells g p := by
    intro hm
    have := ((mem_owned_cells g p _).1 hm).2
    omega
  have hcount := count_regions_insert_isolated (owned_cells g p) ⟨x, y⟩ hnot (by
    rintro n ⟨i, hi, rfl⟩
    exact hnb i hi)
  have hfalse : (gamma_move g p x y).2 = false := by
    rw [Bool.eq_false_iff]
    intro hv
    have := ((gamma_move_iff_wf g hwf p x y).1 hv).2.2.2
    rw [hcount, e3] at this
    unfold region_count at hfull
    omega
  exact ⟨hfalse, by rw [gamma_move_rejected_wf g hwf p x y hfalse]⟩

/-- Player 1 holds `(0, 0)` on the 3x1 board for two players and one area. -/
theorem reachable_scenario_c :
    Reachable 3 1 2 1 (gamma_move (initial 3 1 2 1) 1 0 0).1 :=
  Reachable.move _ 1 0 0
    (reachable_initial 3 1 2 1 (by decide) (by decide) (by decide) (by decide))

/-- Player 1 holds `(0, 0)` and `(1, 0)` on the 4x4 board for two players and one area. -/
theorem reachable_scenario_a :
    Reachable 4 4 2 1 (gamma_move (gamma_move (initial 4 4 2 1) 1 0 0).1 1 1 0).1 :=
  Reachable.move _ 1 1 0 (Reachable.move _ 1 0 0
    (reachable_initial 4 4 2 1 (by decide) (by decide) (by decide) (by decide)))

theorem region_count_of_busy_areas {width height players areas : Nat} {g : gamma_t}
    (h : Reachable width height players areas g) (p k : Nat) (hp : p ≠ 0)
    (hk : (g.owners p).busy_areas = (k : Int)) : region_count g p = k := by
  have := (reachable_wellformed h).areas_exact p hp
  rw [hk] at this
  exact_mod_cast this.symm

theorem not_mem_owned_cells_of {g : gamma_t} {o : Nat} {p : Position}
    (h : inside_board g p = false ∨ (g.board p).owner ≠ o) : p ∉ owned_cells g o := by
  intro hm
  obtain ⟨h1, h2⟩ := (mem_owned_cells g o p).1 hm
  rcases h with h | h
  · rw [h1] at h; exact absurd h (by simp)
  · exact h h2

/-- Instances of C14. Scenario C: on the 3x1 board player 1 holds `(0, 0)` and asks
for `(2, 0)`. Scenario A: on the 4x4 board player 1 holds `(0, 0)` and `(1, 0)` and asks
for `(3, 3)`; its `busy_fields` stays 2. -/
theorem isolated_move_rejected_witness :
    ((gamma_move (gamma_move (initial 3 1 2 1) 1 0 0).1 1 2 0).2 = false ∧
      gamma_busy_fields (gamma_move (gamma_move (initial 3 1 2 1) 1 0 0).1 1 2 0).1 1 =
        gamma_busy_fields (gamma_move (initial 3 1 2 1) 1 0 0).1 1) ∧
    ((gamma_move (gamma_move (gamma_move (initial 4 4 2 1) 1 0 0).1 1 1 0).1 1 3 3).2 = false ∧
      gamma_busy_fields
        (gamma_move (gamma_move (gamma_move (initial 4 4 2 1) 1 0 0).1 1 1 0).1 1 3 3).1 1 =
          gamma_busy_fields (gamma_move (gamma_move (initial 4 4 2 1) 1 0 0).1 1 1 0).1 1 ∧
      gamma_busy_fields (gamma_move (gamma_move (initial 4 4 2 1) 1 0 0).1 1 1 0).1 1 = 2) := by
  have hc := isolated_move_rejected 3 1 2 1 _ reachable_scenario_c 1 2 0
    ⟨by decide, by decide⟩
    (region_count_of_busy_areas reachable_scenario_c 1 1 (by decide) (by decide))
    ⟨by decide, by decide⟩ (by decide)
    (by
      intro i hi
      apply not_mem_owned_cells_of
      have : i = 0 ∨ i = 1 ∨ i = 2 ∨ i = 3 := by omega
      rcases this with rfl | rfl | rfl | rfl <;> decide)
  have ha := isolated_move_rejected 4 4 2 1 _ reachable_scenario_a 1 3 3
    ⟨by decide, by decide⟩
    (region_count_of_busy_areas reachable_scenario_a 1 1 (by decide) (by decide))
    ⟨by decide, by decide⟩ (by decide)
    (by
      intro i hi
      apply not_mem_owned_cells_of
      have : i = 0 ∨ i = 1 ∨ i = 2 ∨ i = 3 := by omega
      rcases this with rfl | rfl | rfl | rfl <;> decide)
  exact ⟨hc, ha.1, ha.2, by decide⟩

/-! ## A capture that splits the regions of the owner -/

/-- A golden move that would leave the previous owner with more than `areas` regions
is rejected, the cell keeps its owner, and with fewer than `2 ^ 32 - 1` players
`gamma_golden_possible` still returns true for the player. -/
theorem split_capture_rejected {width height players areas : Nat} {g : gamma_t}
    {gold : List Nat} (h : ReachableGold width height players areas g gold) (p x y : Nat)
    (hp : 1 ≤ p ∧ p ≤ players) (hunused : p ∉ gold) (hon : x < width ∧ y < height)
    (hv : 1 ≤ (g.board ⟨x, y⟩).owner ∧ (g.board ⟨x, y⟩).owner ≠ p)
    (hsplit : areas < count_regions ((owned_cells g (g.board ⟨x, y⟩).owner).erase ⟨x, y⟩)) :
    (gamma_golden_move g p x y).2 = false ∧
    ((gamma_golden_move g p x y).1.board ⟨x, y⟩).owner = (g.board ⟨x, y⟩).owner ∧
    (players < 2 ^ 32 - 1 → gamma_golden_possible (gamma_golden_move g p x y).1 p = some true) := by
  have hr := reachableGold_reachable h
  have hwf := reachable_wellformed hr
  obtain ⟨e1, e2, e3, e4, _⟩ := reachable_params hr
  have hfalse : (gamma_golden_move g p x y).2 = false := by
    rw [Bool.eq_false_iff]
    intro hv'
    have := ((gamma_golden_move_iff_wf g hwf p x y).1 hv').2.2.2.2.2
    rw [e3] at this
    omega
  have hsame := gamma_golden_move_rejected_wf g hwf p x y hfalse
  rw [hsame]
  refine ⟨hfalse, rfl, ?_⟩
  intro hsmall
  obtain ⟨b, hb, hiff⟩ := golden_possible_iff_small hr hsmall p hp.2
  have hflag : (g.owners p).golden_move_used = false := by
    cases hu : (g.owners p).golden_move_used
    · rfl
    · exact absurd ((golden_flag_iff h p).1 hu) hunused
  have hmem : (⟨x, y⟩ : Position) ∈ owned_cells g (g.board ⟨x, y⟩).owner :=
    (mem_owned_cells g _ _).2 ⟨(on_board_iff g x y).2 (by rw [e1, e2]; exact hon), rfl⟩
  have hb' : b = true := hiff.2 ⟨hflag, (g.board ⟨x, y⟩).owner, hv.1,
    by rw [← e4]; exact hwf.owner_le _, hv.2, Finset.card_pos.2 ⟨_, hmem⟩⟩
  rw [hb, hb']

/-- Player 1 holds the three cells of the 3x1 board with `4294967295` players. -/
theorem reachableGold_row_max :
    ReachableGold 3 1 4294967295 1
      (gamma_move (gamma_move (gamma_move (initial 3 1 4294967295 1) 1 0 0).1 1 1 0).1 1 2 0).1
      [] :=
  ReachableGold.move _ [] 1 2 0 (ReachableGold.move _ [] 1 1 0 (ReachableGold.move _ [] 1 0 0
    (reachableGold_initial 3 1 4294967295 1 (by decide) (by decide) (by decide) (by decide))))

/-- C15: a golden move that would split the regions of the owner beyond `areas` is
rejected and the cell keeps its owner (`split_capture_rejected`), but
`gamma_golden_possible` is not true afterwards in every session. On the 3x1 board with
`4294967295` players and one area, player 1 holds the three cells; the golden move of
player 2 onto `(1, 0)` would leave player 1 two regions and is rejected, the cell stays
with player 1, and the loop of `gamma_golden_possible g 2` does not end (the same
defect as in C7). -/
theorem split_capture_no_answer :
    ReachableGold 3 1 4294967295 1
      (gamma_move (gamma_move (gamma_move (initial 3 1 4294967295 1) 1 0 0).1 1 1 0).1 1 2 0).1
      [] ∧
    (gamma_golden_move
      (gamma_move (gamma_move (gamma_move (initial 3 1 4294967295 1) 1 0 0).1 1 1 0).1 1 2 0).1
      2 1 0).2 = false ∧
    ((gamma_golden_move
      (gamma_move (gamma_move (gamma_move (initial 3 1 4294967295 1) 1 0 0).1 1 1 0).1 1 2 0).1
      2 1 0).1.board ⟨(1 : Nat), (0 : Nat)⟩).owner = 1 ∧
    count_regions ((owned_cells
      (gamma_move (gamma_move (gamma_move (initial 3 1 4294967295 1) 1 0 0).1 1 1 0).1 1 2 0).1
      1).erase ⟨(1 : Nat), (0 : Nat)⟩) = 2 ∧
    (∀ fuel, gamma_golden_possible_loop fuel
      (gamma_golden_move
        (gamma_move (gamma_move (gamma_move (initial 3 1 4294967295 1) 1 0 0).1 1 1 0).1
          1 2 0).1 2 1 0).1 2 1 false = none) ∧
    gamma_golden_possible
      (gamma_golden_move
        (gamma_move (gamma_move (gamma_move (initial 3 1 4294967295 1) 1 0 0).1 1 1 0).1
          1 2 0).1 2 1 0).1 2 ≠ some true := by
  have h3 := reachableGold_row_max
  have h4 := ReachableGold.golden_move _ [] 2 1 0 h3
  have hN := (reachable_params (reachableGold_reachable h4)).2.2.2.1
  have hN' : (gamma_golden_move
      (gamma_move (gamma_move (gamma_move (initial 3 1 4294967295 1) 1 0 0).1 1 1 0).1 1 2 0).1
      2 1 0).1.number_of_players = 2 ^ 32 - 1 := by rw [hN]; norm_num
  refine ⟨h3, by decide, by decide, by decide,
    fun fuel => golden_possible_loop_max_players _ 2 hN' fuel 1 false (by norm_num), ?_⟩
  rw [golden_possible_max_players _ 2 hN']
  simp

/-! ## The search, for every board with clear marks -/

/-- C16: on every board whose visited flags are clear and for on-board positions `a`
and `b`, `are_in_the_same_area g a b` returns true exactly when `a` and `b` have the
same owner (a player or the pseudo-owner 0) and a path of four-directionally adjacent
cells of the board, all of that owner, joins them; it returns false when the owners
differ. -/
theorem same_area_correct (g : gamma_t) (hclear : all_clear g) (a b : Position)
    (ha : inside_board g a = true) (hb : inside_board g b = true) :
    ((are_in_the_same_area g a b).2 = true ↔
      (g.board a).owner = (g.board b).owner ∧
        connected (owned_cells g (g.board a).owner) a b) ∧
    ((g.board a).owner ≠ (g.board b).owner → (are_in_the_same_area g a b).2 = false) := by
  have h := (are_in_the_same_area_clear g hclear a b ha hb).2
  refine ⟨h, ?_⟩
  intro hne
  rw [Bool.eq_false_iff]
  intro ht
  exact hne (h.1 ht).1

/-- Instances of C16 on the 2x1 board: the two unowned cells of the initial board, and
the cell `(0, 0)` of player 1 with the unowned cell `(1, 0)` after one move. -/
theorem same_area_correct_witness :
    ((are_in_the_same_area (initial 2 1 2 1) ⟨(0 : Nat), (0 : Nat)⟩ ⟨(1 : Nat), (0 : Nat)⟩).2 =
        true ↔
      ((initial 2 1 2 1).board ⟨(0 : Nat), (0 : Nat)⟩).owner =
          ((initial 2 1 2 1).board ⟨(1 : Nat), (0 : Nat)⟩).owner ∧
        connected (owned_cells (initial 2 1 2 1)
          ((initial 2 1 2 1).board ⟨(0 : Nat), (0 : Nat)⟩).owner)
          ⟨(0 : Nat), (0 : Nat)⟩ ⟨(1 : Nat), (0 : Nat)⟩) ∧
    (are_in_the_same_area (gamma_move (initial 2 1 2 1) 1 0 0).1
      ⟨(0 : Nat), (0 : Nat)⟩ ⟨(1 : Nat), (0 : Nat)⟩).2 = false :=
  ⟨(same_area_correct (initial 2 1 2 1) (fun _ => rfl) ⟨(0 : Nat), (0 : Nat)⟩
      ⟨(1 : Nat), (0 : Nat)⟩ (by decide) (by decide)).1,
    (same_area_correct (gamma_move (initial 2 1 2 1) 1 0 0).1
      (reachable_wellformed reachable_one_move).clear ⟨(0 : Nat), (0 : Nat)⟩
      ⟨(1 : Nat), (0 : Nat)⟩ (by decide) (by decide)).2 (by decide)⟩

/-- C17: on every board whose visited flags are clear and for on-board positions `a`
and `b`, `are_in_the_same_area g a b` returns the state it was given: every flag is
clear again and no owner or owner record has changed, so the query can be repeated any
number of times and every later query answers as before. -/
theorem same_area_resets (g : gamma_t) (hclear : all_clear g) (a b : Position)
    (ha : inside_board g a = true) (hb : inside_board g b = true) :
    (are_in_the_same_area g a b).1 = g ∧
    all_clear (are_in_the_same_area g a b).1 ∧
    (∀ n : Nat, (fun s => (are_in_the_same_area s a b).1)^[n] g = g) ∧
    (∀ (n : Nat) (c d : Position),
      are_in_the_same_area ((fun s => (are_in_the_same_area s a b).1)^[n] g) c d =
        are_in_the_same_area g c d) := by
  have h1 := (are_in_the_same_area_clear g hclear a b ha hb).1
  have hiter : ∀ n : Nat, (fun s => (are_in_the_same_area s a b).1)^[n] g = g := by
    intro n
    induction n with
    | zero => rfl
    | succ n ih => rw [Function.iterate_succ_apply', ih]; exact h1
  refine ⟨h1, by rw [h1]; exact hclear, hiter, ?_⟩
  intro n c d
  rw [hiter n]

/-- Instances of C17 in which the search runs. On the 3x1 board with player 1 on
`(0, 0)` and `(1, 0)`, the query on these two cells finds the goal early: the first
search marks `(0, 0)`, the answer is true and the state returned is the state given.
On the 3x1 board with player 1 on `(1, 0)`, the query on the unowned cells `(0, 0)` and
`(2, 0)` exhausts the frontier: the first search marks `(0, 0)`, the answer is false
and the state returned is the state given. -/
theorem same_area_resets_witness :
    (((gamma_move (gamma_move (initial 3 1 2 1) 1 0 0).1 1 1 0).1.board ⟨0, 0⟩).owner = 1 ∧
      ((gamma_move (gamma_move (initial 3 1 2 1) 1 0 0).1 1 1 0).1.board ⟨1, 0⟩).owner = 1 ∧
      ((bfs (gamma_move (gamma_move (initial 3 1 2 1) 1 0 0).1 1 1 0).1 ⟨0, 0⟩ ⟨1, 0⟩ 1
        true).1.board ⟨0, 0⟩).bfs_flag = true ∧
      (are_in_the_same_area (gamma_move (gamma_move (initial 3 1 2 1) 1 0 0).1 1 1 0).1
        ⟨0, 0⟩ ⟨1, 0⟩).2 = true ∧
      (are_in_the_same_area (gamma_move (gamma_move (initial 3 1 2 1) 1 0 0).1 1 1 0).1
        ⟨0, 0⟩ ⟨1, 0⟩).1 = (gamma_move (gamma_move (initial 3 1 2 1) 1 0 0).1 1 1 0).1) ∧
    (((gamma_move (initial 3 1 2 1) 1 1 0).1.board ⟨0, 0⟩).owner = 0 ∧
      ((gamma_move (initial 3 1 2 1) 1 1 0).1.board ⟨2, 0⟩).owner = 0 ∧
      ((bfs (gamma_move (initial 3 1 2 1) 1 1 0).1 ⟨0, 0⟩ ⟨2, 0⟩ 0
        true).1.board ⟨0, 0⟩).bfs_flag = true ∧
      (are_in_the_same_area (gamma_move (initial 3 1 2 1) 1 1 0).1 ⟨0, 0⟩ ⟨2, 0⟩).2 = false ∧
      (are_in_the_same_area (gamma_move (initial 3 1 2 1) 1 1 0).1 ⟨0, 0⟩ ⟨2, 0⟩).1 =
        (gamma_move (initial 3 1 2 1) 1 1 0).1) :=
  ⟨⟨by decide, by decide, by decide, by decide,
      (same_area_resets (gamma_move (gamma_move (initial 3 1 2 1) 1 0 0).1 1 1 0).1
        (reachable_wellformed (Reachable.move _ 1 1 0 (Reachable.move _ 1 0 0
          (reachable_initial 3 1 2 1 (by decide) (by decide) (by decide)
            (by decide))))).clear
        ⟨0, 0⟩ ⟨1, 0⟩ (by decide) (by decide)).1⟩,
    ⟨by decide, by decide, by decide, by decide,
      (same_area_resets (gamma_move (initial 3 1 2 1) 1 1 0).1
        (reachable_wellformed (Reachable.move _ 1 1 0
          (reachable_initial 3 1 2 1 (by decide) (by decide) (by decide)
            (by decide)))).clear
        ⟨0, 0⟩ ⟨2, 0⟩ (by decide) (by decide)).1⟩⟩

/-! ## The count of `neighbouring_areas` -/

/-- C20: `gamma_new` returns NULL (`none`) whenever one of its four parameters is 0;
when all four are positive it returns a session with the given dimensions in which
every cell is owned by the pseudo-owner 0 with a clear visited flag, and every real
player has `busy_fields = 0`, `busy_areas = 0` and `golden_move_used = false`. -/
theorem gamma_new_spec (width height players areas : Nat) :
    (width = 0 ∨ height = 0 ∨ players = 0 ∨ areas = 0 →
      gamma_new width height players areas = none) ∧
    (0 < width ∧ 0 < height ∧ 0 < players ∧ 0 < areas →
      ∃ g, gamma_new width height players areas = some g ∧
        (g.width = width ∧ g.height = height ∧ g.number_of_players = players ∧
          g.max_areas = areas) ∧
        (∀ p, (g.board p).owner = 0 ∧ (g.board p).bfs_flag = false) ∧
        (∀ j, 1 ≤ j → j ≤ players →
          (g.owners j).busy_fields = 0 ∧ (g.owners j).busy_areas = 0 ∧
            (g.owners j).golden_move_used = false)) := by
  constructor
  · intro hz
    unfold gamma_new
    rw [if_pos hz]
  · rintro ⟨hw, hh, hp, ha⟩
    refine ⟨initial width height players areas,
      gamma_new_initial width height players areas hw hh hp ha, ⟨rfl, rfl, rfl, rfl⟩,
      fun p => ⟨rfl, rfl⟩, ?_⟩
    intro j hj _
    have hj0 : j ≠ 0 := by omega
    simp [initial, set_owner, hj0]

/-- Instance of C20: a zero width and the 2x1 board for two players. -/
theorem gamma_new_spec_witness :
    gamma_new 0 1 1 1 = none ∧
    ∃ g, gamma_new 2 1 2 1 = some g ∧
      (g.width = 2 ∧ g.height = 1 ∧ g.number_of_players = 2 ∧ g.max_areas = 1) ∧
      (∀ p, (g.board p).owner = 0 ∧ (g.board p).bfs_flag = false) ∧
      (∀ j, 1 ≤ j → j ≤ 2 →
        (g.owners j).busy_fields = 0 ∧ (g.owners j).busy_areas = 0 ∧
          (g.owners j).golden_move_used = false) :=
  ⟨(gamma_new_spec 0 1 1 1).1 (Or.inl rfl),
    (gamma_new_spec 2 1 2 1).2 ⟨by decide, by decide, by decide, by decide⟩⟩

/-- C21: `owners[0].busy_fields` of a new session is not the product `width * height`
for every positive 32-bit width and height: `gamma_new 65536 65536 1 1` stores the
`uint32_t` product, which is 0, while the board has `4294967296` cells (the same defect
as in C8). When the product is below `2 ^ 32` the stored value is the product
(`gamma_new_free_cells_small`). -/
theorem free_cells_overflow :
    gamma_new 65536 65536 1 1 = some (initial 65536 65536 1 1) ∧
    ((initial 65536 65536 1 1).owners 0).busy_fields = 0 ∧
    ((initial 65536 65536 1 1).owners 0).busy_fields ≠ 65536 * 65536 := by
  refine ⟨gamma_new_initial _ _ _ _ (by decide) (by decide) (by decide) (by decide), ?_, ?_⟩ <;>
  simp [initial, set_owner]

/-- When `width * height < 2 ^ 32`, `gamma_new` stores the number of cells of the board
in `owners[0].busy_fields`. -/
theorem gamma_new_free_cells_small (width height players areas : Nat) (g : gamma_t)
    (h : gamma_new width height players areas = some g) (hsmall : width * height < 2 ^ 32) :
    (g.owners 0).busy_fields = width * height := by
  obtain ⟨_, _, _, _, hg⟩ := gamma_new_eq width height players areas g h
  rw [hg]
  simp only [set_owner, if_true]
  exact Nat.mod_eq_of_lt hsmall

/-- C22: for every session and every signed position, `get_field` returns NULL
(`none`) exactly when `x < 0` or `x ≥ width` or `y < 0` or `y ≥ height`, and returns the
record stored at `board[x][y]` otherwise. -/
theorem get_field_bounds (g : gamma_t) (position : Position) :
    (get_field g position = none ↔
      position.x < 0 ∨ position.x ≥ (g.width : Int) ∨ position.y < 0 ∨
        position.y ≥ (g.height : Int)) ∧
    (¬ (position.x < 0 ∨ position.x ≥ (g.width : Int) ∨ position.y < 0 ∨
        position.y ≥ (g.height : Int)) → get_field g position = some (g.board position)) := by
  unfold get_field
  by_cases hin : inside_board g position = true
  · have h := (inside_board_iff g position).1 hin
    simp only [hin, if_true]
    constructor
    · constructor
      · intro hc; exact absurd hc (by simp)
      · intro hc; omega
    · intro _; trivial
  · have h : ¬ (0 ≤ position.x ∧ position.x < (g.width : Int) ∧ 0 ≤ position.y ∧
        position.y < (g.height : Int)) := fun hc => hin ((inside_board_iff g position).2 hc)
    simp only [hin]
    constructor
    · constructor
      · intro _; omega
      · intro _; rfl
    · intro hc; omega

/-! ## Decimal digits -/

theorem toDigitsCore_length_mono :
    ∀ (f1 f2 n m : Nat), n ≤ m → n < f1 → m < f2 →
      (Nat.toDigitsCore 10 f1 n []).length ≤ (Nat.toDigitsCore 10 f2 m []).length := by
  intro f1
  induction f1 with
  | zero => intro f2 n m _ hn _; omega
  | succ k ih =>
    intro f2 n m hnm hn hm
    cases f2 with
    | zero => omega
    | succ j =>
      simp only [Nat.toDigitsCore]
      by_cases hn0 : n / 10 = 0
      · rw [if_pos hn0]
        by_cases hm0 : m / 10 = 0
        · rw [if_pos hm0]; simp
        · rw [if_neg hm0, Nat.toDigitsCore_lens_eq]
          simp
      · have hm0 : m / 10 ≠ 0 := by omega
        rw [if_neg hn0, if_neg hm0, Nat.toDigitsCore_lens_eq, Nat.toDigitsCore_lens_eq]
        have := ih j (n / 10) (m / 10) (Nat.div_le_div_right hnm) (by omega) (by omega)
        omega

theorem number_of_digits_mono (n m : Nat) (h : n ≤ m) :
    number_of_digits n ≤ number_of_digits m := by
  unfold number_of_digits Nat.toDigits
  exact toDigitsCore_length_mono _ _ n m h (by omega) (by omega)

theorem number_of_digits_pos (n : Nat) : 1 ≤ number_of_digits n := by
  have h0 : number_of_digits 0 = 1 := by decide
  have := number_of_digits_mono 0 n (Nat.zero_le n)
  omega

theorem number_of_digits_le_ten (n : Nat) (h : n < 2 ^ 32) : number_of_digits n ≤ 10 := by
  unfold number_of_digits Nat.toDigits
  exact Nat.toDigitsCore_length 10 (by decide) (n + 1) n 10 (by omega) (by decide)

theorem cell_text_spec_length (g : gamma_t) (x y : Nat)
    (h : (g.board ⟨(x : Int), (y : Int)⟩).owner ≤ g.number_of_players) :
    (cell_text_spec g x y).length ≤ number_of_digits g.number_of_players := by
  unfold cell_text_spec
  by_cases h0 : (g.board ⟨(x : Int), (y : Int)⟩).owner = 0
  · rw [if_pos h0]
    exact number_of_digits_pos _
  · rw [if_neg h0]
    exact number_of_digits_mono _ _ h

/-! ## The text of `gamma_board` -/

theorem separated_cons (sep a : List Char) (l : List (List Char)) (hl : l ≠ []) :
    separated sep (a :: l) = a ++ sep ++ separated sep l := by
  cases l with
  | nil => exact absurd rfl hl
  | cons b rest => rfl

theorem separated_snoc (sep : List Char) (c : Nat → List Char) :
    ∀ (l : List Nat) (last : Nat),
      separated sep ((l ++ [last]).map c) = l.flatMap (fun x => c x ++ sep) ++ c last := by
  intro l
  induction l with
  | nil => intro last; simp [separated]
  | cons a t ih =>
    intro last
    have hne : (t ++ [last]).map c ≠ [] := by simp
    rw [List.cons_append, List.map_cons, separated_cons sep (c a) _ hne, ih last]
    simp [List.flatMap_cons, List.append_assoc]

theorem flatMap_congr_mem {α β : Type} (l : List α) (f1 f2 : α → List β)
    (h : ∀ a, a ∈ l → f1 a = f2 a) : l.flatMap f1 = l.flatMap f2 := by
  induction l with
  | nil => rfl
  | cons a t ih =>
    rw [List.flatMap_cons, List.flatMap_cons, h a (List.mem_cons_self a t),
      ih (fun b hb => h b (List.mem_cons_of_mem a hb))]

theorem row_eq_separated (sep : List Char) (c : Nat → List Char) (w : Nat) :
    (List.range w).flatMap (fun x => c x ++ (if x < w - 1 then sep else [])) =
      separated sep ((List.range w).map c) := by
  cases w with
  | zero => simp [separated]
  | succ n =>
    rw [List.range_succ, separated_snoc, List.flatMap_append]
    simp only [Nat.add_sub_cancel, List.flatMap_cons, List.flatMap_nil, lt_irrefl, if_false,
      List.append_nil]
    congr 1
    apply flatMap_congr_mem
    intro a ha
    rw [if_pos (List.mem_range.1 ha)]

theorem gamma_board_cell_eq (g : gamma_t) (x y : Nat) (hw : 0 < g.width ∧ g.width < 2 ^ 32)
    (hN : g.number_of_players < 2 ^ 32)
    (hown : (g.board ⟨(x : Int), (y : Int)⟩).owner ≤ g.number_of_players) :
    gamma_board_cell g (number_of_digits g.number_of_players)
        (if number_of_digits g.number_of_players = 1 then 0 else 1) x y =
      cell_text_padded g x y ++ (if x < g.width - 1 then cell_separator g else []) := by
  have hlen := cell_text_spec_length g x y hown
  have hten := number_of_digits_le_ten _ hN
  have hpos := number_of_digits_pos g.number_of_players
  have hstr : owner_to_str (g.board ⟨(x : Int), (y : Int)⟩).owner = cell_text_spec g x y := rfl
  have hsep : List.replicate (if number_of_digits g.number_of_players = 1 then 0 else 1) ' ' =
      cell_separator g := by
    unfold cell_separator
    by_cases h1 : number_of_digits g.number_of_players = 1
    · rw [if_pos h1, if_neg (by omega)]; rfl
    · rw [if_neg h1, if_pos (by omega)]; rfl
  have hwidth : (g.width + (2 ^ 32 - 1)) % 2 ^ 32 = g.width - 1 := by omega
  unfold gamma_board_cell cell_text_padded
  simp only [hstr, hsep, hwidth]
  have hfw : (number_of_digits g.number_of_players +
      (2 ^ 32 - (cell_text_spec g x y).length % 2 ^ 32)) % 2 ^ 32 =
      number_of_digits g.number_of_players - (cell_text_spec g x y).length := by omega
  rw [hfw, if_pos (by omega)]

/-- In every reachable state the characters written by `gamma_board` are the layout
with right-aligned cells. -/
theorem gamma_board_text_eq {width height players areas : Nat} {g : gamma_t}
    (h : Reachable width height players areas g) :
    gamma_board_text g = board_layout_padded g := by
  have hwf := reachable_wellformed h
  obtain ⟨e1, _, _, e4, hw, _, hp, _⟩ := reachable_params h
  unfold gamma_board_text board_layout_padded
  simp only
  apply flatMap_congr_mem
  intro y _
  congr 1
  rw [← row_eq_separated]
  apply flatMap_congr_mem
  intro x _
  exact gamma_board_cell_eq g x y (by rw [e1]; exact hw) (by rw [e4]; exact hp.2)
    (hwf.owner_le _)

/-- Player 1 holds `(0, 0)` on the 2x1 board for ten players. -/
theorem reachable_ten_players :
    Reachable 2 1 10 1 (gamma_move (initial 2 1 10 1) 1 0 0).1 :=
  Reachable.move _ 1 0 0
    (reachable_initial 2 1 10 1 (by decide) (by decide) (by decide) (by decide))

/-- C23 fails as stated: on the 2x1 board for ten players, after player 1 took
`(0, 0)`, `gamma_board` writes ` 1  .` and a line break (each cell right-aligned in
two columns, then the separator), while the layout of the claim is `1 .` and a line
break. -/
theorem board_layout_counterexample :
    Reachable 2 1 10 1 (gamma_move (initial 2 1 10 1) 1 0 0).1 ∧
    gamma_board (gamma_move (initial 2 1 10 1) 1 0 0).1 =
      some [' ', '1', ' ', ' ', '.', Char.ofNat 10] ∧
    board_layout_spec (gamma_move (initial 2 1 10 1) 1 0 0).1 = ['1', ' ', '.', Char.ofNat 10] ∧
    gamma_board (gamma_move (initial 2 1 10 1) 1 0 0).1 ≠
      some (board_layout_spec (gamma_move (initial 2 1 10 1) 1 0 0).1) :=
  ⟨reachable_ten_players, by decide, by decide, by decide⟩

/-- C23, amended: in every reachable state whose text fits the buffer allocated for it,
`gamma_board g` is the concatenation, for `y` from `height - 1` down to 0, of the
renderings of the cells `(0, y)`, ..., `(width - 1, y)` followed by one line break,
where a cell is the decimal representation of its owner's index, or `.` when unowned,
right-aligned by leading spaces to the number of decimal digits of
`number_of_players`, and consecutive cells are separated by one space when
`number_of_players` has more than one decimal digit and by nothing otherwise. -/
theorem board_layout_padded_eq (width height players areas : Nat) (g : gamma_t)
    (h : Reachable width height players areas g)
    (hfits : (gamma_board_text g).length + 1 ≤ gamma_board_size g) :
    gamma_board g = some (board_layout_padded g) := by
  unfold gamma_board
  rw [if_pos hfits, gamma_board_text_eq h]

/-- Instance of the amended C23: the 2x1 board for ten players after one move. -/
theorem board_layout_padded_eq_witness :
    gamma_board (gamma_move (initial 2 1 10 1) 1 0 0).1 =
      some (board_layout_padded (gamma_move (initial 2 1 10 1) 1 0 0).1) ∧
    board_layout_padded (gamma_move (initial 2 1 10 1) 1 0 0).1 =
      [' ', '1', ' ', ' ', '.', Char.ofNat 10] :=
  ⟨board_layout_padded_eq 2 1 10 1 _ reachable_ten_players (by decide), by decide⟩

/-- With at most nine players no cell is padded: the two layouts agree. -/
theorem board_layout_one_digit {width height players areas : Nat} {g : gamma_t}
    (h : Reachable width height players areas g)
    (hone : number_of_digits g.number_of_players = 1) :
    board_layout_padded g = board_layout_spec g := by
  have hwf := reachable_wellformed h
  unfold board_layout_padded board_layout_spec
  apply flatMap_congr_mem
  intro y _
  congr 2
  apply List.map_congr_left
  intro x _
  unfold cell_text_padded
  have h1 := cell_text_spec_length g x y (hwf.owner_le _)
  have h2 : 1 ≤ (cell_text_spec g x y).length := by
    unfold cell_text_spec
    split_ifs
    · simp
    · exact number_of_digits_pos _
  rw [hone, Nat.sub_eq_zero_of_le h2]
  rfl

/-- C24: in every reachable state the counter `owners[p].busy_areas` of every real
player `p` is the number of 4-connected regions formed by the cells that `p` owns. -/
theorem area_counter_exact (width height players areas : Nat) (g : gamma_t)
    (h : Reachable width height players areas g) (p : Nat) (hp1 : 1 ≤ p) (_hp2 : p ≤ players) :
    (g.owners p).busy_areas = (region_count g p : Int) :=
  (reachable_wellformed h).areas_exact p (by omega)

/-- Instance of C24: player 1 after its move on the 2x1 board. -/
theorem area_counter_exact_witness :
    ((gamma_move (initial 2 1 2 1) 1 0 0).1.owners 1).busy_areas = 1 ∧
    ((gamma_move (initial 2 1 2 1) 1 0 0).1.owners 1).busy_areas =
      (region_count (gamma_move (initial 2 1 2 1) 1 0 0).1 1 : Int) :=
  ⟨by decide, area_counter_exact 2 1 2 1 _ reachable_one_move 1 (by decide) (by decide)⟩

theorem bfs_flags_fuel_mono (ok : Position → Bool) (goal : Position) (w : Bool) :
    ∀ (n m : Nat) (f : Position → Bool) (q : List Position) (r : (Position → Bool) × Bool),
      n ≤ m → bfs_flags ok n f q goal w = some r → bfs_flags ok m f q goal w = some r := by
  intro n
  induction n with
  | zero =>
    intro m f q r _ hr
    cases q with
    | nil => cases m <;> simpa [bfs_flags] using hr
    | cons p rest => simp [bfs_flags] at hr
  | succ n ih =>
    intro m f q r hnm hr
    cases m with
    | zero => omega
    | succ m =>
      cases q with
      | nil => simpa [bfs_flags] using hr
      | cons p rest =>
        simp only [bfs_flags] at hr ⊢
        split_ifs at hr ⊢
        · exact hr
        · exact ih m _ _ r (by omega) hr
        · exact hr
        · exact ih m _ _ r (by omega) hr

theorem unvisited_eq_card (g : gamma_t) (o : Nat) (w : Bool) :
    unvisited g (visitable g o) (flags_of g) w =
      ((owned_cells g o).filter (fun c => (g.board c).bfs_flag ≠ w)).card := by
  unfold unvisited
  congr 1
  ext c
  simp only [Finset.mem_filter, visitable_iff, flags_of]
  constructor
  · rintro ⟨_, h1, h2⟩; exact ⟨h1, h2⟩
  · rintro ⟨h1, h2⟩
    exact ⟨(mem_cells g c).2 ((mem_owned_cells g o c).1 h1).1, h1, h2⟩

/-- C26: on every board, for every owner, source, goal and polarity of the visited
mark, the loop of `bfs` ends after at most `1 + 4 * u` dequeues, where `u` is the
number of cells of that owner that are unvisited at the start; `bfs` returns the
result of that run. -/
theorem bfs_dequeue_bound (g : gamma_t) (source goal : Position) (owner : Nat)
    (what_means_visited : Bool) :
    ∃ r,
      bfs_loop
        (1 + 4 * ((owned_cells g owner).filter
          (fun c => (g.board c).bfs_flag ≠ what_means_visited)).card)
        g (queue_insert queue_new source) goal owner what_means_visited = some r ∧
      bfs g source goal owner what_means_visited = r := by
  rw [← unvisited_eq_card]
  obtain ⟨r, hr⟩ := bfs_flags_terminates g (visitable g owner) (visitable_mem_cells g owner) goal
    what_means_visited (1 + 4 * unvisited g (visitable g owner) (flags_of g) what_means_visited)
    (flags_of g) [source] (by simp)
  have hloop := bfs_loop_with_flags g owner goal what_means_visited
  refine ⟨(with_flags g r.1, r.2), ?_, ?_⟩
  · have := hloop (1 + 4 * unvisited g (visitable g owner) (flags_of g) what_means_visited)
      (flags_of g) [source]
    rw [with_flags_flags_of, hr] at this
    exact this
  · have hle := unvisited_le g (visitable g owner) (flags_of g) what_means_visited
    have hbig := bfs_flags_fuel_mono (visitable g owner) goal what_means_visited _
      (4 * (g.width * g.height) + 1) (flags_of g) [source] r (by omega) hr
    have := hloop (4 * (g.width * g.height) + 1) (flags_of g) [source]
    rw [with_flags_flags_of, hbig] at this
    unfold bfs
    rw [show queue_insert queue_new source = [source] from rfl, this]
    rfl

/-- C27: `neighbouring_areas` for the pseudo-owner 0 returns 0 on every board, for
every position and both values of `include_center`; so in every reachable state
`owners[0].busy_areas` is 0 and within `max_areas`. -/
theorem pseudo_owner_never_counted (width height players areas : Nat) (g : gamma_t)
    (h : Reachable width height players areas g) :
    (∀ (s : gamma_t) (position : Position) (include_center : Bool),
      neighbouring_areas s 0 position include_center = (s, 0)) ∧
    (g.owners 0).busy_areas = 0 ∧
    (g.owners 0).busy_areas ≤ (g.max_areas : Int) := by
  have h0 := (reachable_wellformed h).areas_zero
  refine ⟨neighbouring_areas_zero, h0, ?_⟩
  rw [h0]
  exact Int.natCast_nonneg _

/-- Instance of C27: the pseudo-owner after player 1 took `(0, 0)` on the 2x1 board. -/
theorem pseudo_owner_never_counted_witness :
    ((gamma_move (initial 2 1 2 1) 1 0 0).1.owners 0).busy_areas = 0 :=
  (pseudo_owner_never_counted 2 1 2 1 _ reachable_one_move).2.1

/-! ## Moves next to the player's cells -/

theorem touching_pos_of_neighbour (C : Finset Position) (x n : Position) (hadj : adjacent x n)
    (hn : n ∈ C) : 1 ≤ touching C (pushed x) := by
  unfold touching
  apply Finset.card_pos.2
  exact ⟨region C n, Finset.mem_image.2 ⟨n, (mem_pushed_filter C x n).2 ⟨hadj, hn⟩, rfl⟩⟩

theorem count_regions_insert_le (C : Finset Position) (x : Position) (hx : x ∉ C) :
    count_regions (insert x C) ≤ count_regions C + 1 := by
  have := count_regions_insert C x hx
  omega

theorem count_regions_insert_adjacent (C : Finset Position) (x n : Position) (hx : x ∉ C)
    (hadj : adjacent x n) (hn : n ∈ C) : count_regions (insert x C) ≤ count_regions C := by
  have h1 := count_regions_insert C x hx
  have h2 := touching_pos_of_neighbour C x n hadj hn
  unfold touching at h2
  omega

/-- C28: in every reachable state, for a player `p` in range and an unowned cell
`(x, y)` of the board with at least one of its four neighbours owned by `p`,
`gamma_move g p x y` returns true. -/
theorem extending_move_accepted (width height players areas : Nat) (g : gamma_t)
    (h : Reachable width height players areas g) (p x y : Nat)
    (hp : 1 ≤ p ∧ p ≤ players) (hon : x < width ∧ y < height)
    (hfree : (g.board ⟨x, y⟩).owner = 0)
    (hnb : ∃ i, i < 4 ∧ get_neighbour ⟨x, y⟩ i ∈ owned_cells g p) :
    (gamma_move g p x y).2 = true := by
  have hwf := reachable_wellformed h
  obtain ⟨e1, e2, _, e4, _⟩ := reachable_params h
  rw [gamma_move_iff_wf g hwf p x y, e1, e2, e4]
  refine ⟨hp, hon, hfree, ?_⟩
  have hnot : (⟨x, y⟩ : Position) ∉ owned_cells g p := by
    intro hm
    have := ((mem_owned_cells g p _).1 hm).2
    omega
  obtain ⟨i, hi, hmem⟩ := hnb
  have := count_regions_insert_adjacent (owned_cells g p) ⟨x, y⟩ _ hnot ⟨i, hi, rfl⟩ hmem
  exact this.trans (hwf.areas_le p (by omega))

/-- Player 1 holds `(0, 0)` on the 4x4 board for two players and one area. -/
theorem reachable_corner :
    Reachable 4 4 2 1 (gamma_move (initial 4 4 2 1) 1 0 0).1 :=
  Reachable.move _ 1 0 0
    (reachable_initial 4 4 2 1 (by decide) (by decide) (by decide) (by decide))

/-- Instance of C28: on the 4x4 board with one area, player 1 moves to `(0, 0)` and
then to `(1, 0)`. -/
theorem extending_move_accepted_witness :
    (gamma_move (initial 4 4 2 1) 1 0 0).2 = true ∧
    (gamma_move (gamma_move (initial 4 4 2 1) 1 0 0).1 1 1 0).2 = true :=
  ⟨by decide,
    extending_move_accepted 4 4 2 1 _ reachable_corner 1 1 0 ⟨by decide, by decide⟩
      ⟨by decide, by decide⟩ (by decide)
      ⟨2, by decide, (mem_owned_cells _ _ _).2 ⟨by decide, by decide⟩⟩⟩

/-! ## The closed form of `gamma_free_fields` -/

theorem card_filter_cells (g : gamma_t) (P : Position → Prop) [DecidablePred P] :
    ((Finset.range g.width ×ˢ Finset.range g.height).filter
      (fun c => P ⟨(c.1 : Int), (c.2 : Int)⟩)).card = ((cells g).filter P).card := by
  unfold cells
  rw [Finset.filter_image, Finset.card_image_of_injective]
  intro a b hab
  simp only [Position.mk.injEq] at hab
  obtain ⟨h1, h2⟩ := hab
  ext <;> omega

theorem free_fields_eq_card_cells (g : gamma_t) (h : WellFormed g) (player : Nat) :
    (gamma_free_fields g player).2 =
      ((cells g).filter (fun c => (move_valid g player c).2 = true)).card := by
  rw [gamma_free_fields_spec g h]
  exact card_filter_cells g (fun c => (move_valid g player c).2 = true)

theorem move_valid_iff_cells (g : gamma_t) (h : WellFormed g) (p : Nat)
    (hp : 1 ≤ p ∧ p ≤ g.number_of_players) (c : Position) (hc : c ∈ cells g) :
    (move_valid g p c).2 = true ↔
      c ∈ owned_cells g 0 ∧ count_regions (insert c (owned_cells g p)) ≤ g.max_areas := by
  have hin := (mem_cells g c).1 hc
  rw [(move_valid_spec g h p c).2, mem_owned_cells]
  unfold region_count
  rw [owned_cells_with_owner_new g p c hc]
  constructor
  · rintro ⟨_, _, h3, h4⟩; exact ⟨⟨hin, h3⟩, h4⟩
  · rintro ⟨⟨_, h3⟩, h4⟩; exact ⟨hp, hin, h3, h4⟩

theorem busy_fields_zero_small (g : gamma_t) (h : WellFormed g)
    (hsmall : g.width * g.height < 2 ^ 32) :
    (g.owners 0).busy_fields = (owned_cells g 0).card := by
  rw [h.fields_zero]
  have := card_owned_cells_le g 0
  generalize (owned_cells g 0).card = c at this ⊢
  generalize g.width * g.height = wh at this hsmall ⊢
  omega

/-- C29: in every reachable state and for every player `p` in range,
`gamma_free_fields g p` is the number of unowned cells (which is
`owners[0].busy_fields` when `width * height < 2 ^ 32`) if `p` has fewer than `areas`
regions, and the number of unowned cells with at least one of the four neighbours
owned by `p` if `p` has exactly `areas` regions. -/
theorem free_fields_closed_form (width height players areas : Nat) (g : gamma_t)
    (h : Reachable width height players areas g) (p : Nat) (hp : 1 ≤ p ∧ p ≤ players) :
    (region_count g p < areas →
      (gamma_free_fields g p).2 = (owned_cells g 0).card ∧
      (width * height < 2 ^ 32 → (gamma_free_fields g p).2 = (g.owners 0).busy_fields)) ∧
    (region_count g p = areas →
      (gamma_free_fields g p).2 =
        ((owned_cells g 0).filter
          (fun c => ∃ i ∈ Finset.range 4, get_neighbour c i ∈ owned_cells g p)).card) := by
  have hwf := reachable_wellformed h
  obtain ⟨e1, e2, e3, e4, _⟩ := reachable_params h
  have hp' : 1 ≤ p ∧ p ≤ g.number_of_players := by rw [e4]; exact hp
  have hnot : ∀ c, c ∈ owned_cells g 0 → c ∉ owned_cells g p := by
    intro c hc hm
    have h1 := ((mem_owned_cells g 0 c).1 hc).2
    have h2 := ((mem_owned_cells g p c).1 hm).2
    omega
  rw [free_fields_eq_card_cells g hwf]
  constructor
  · intro hlt
    have hset : (cells g).filter (fun c => (move_valid g p c).2 = true) = owned_cells g 0 := by
      ext c
      rw [Finset.mem_filter]
      constructor
      · rintro ⟨hc, hv⟩
        exact ((move_valid_iff_cells g hwf p hp' c hc).1 hv).1
      · intro hc
        have hcc : c ∈ cells g := (mem_cells g c).2 ((mem_owned_cells g 0 c).1 hc).1
        refine ⟨hcc, (move_valid_iff_cells g hwf p hp' c hcc).2 ⟨hc, ?_⟩⟩
        have := count_regions_insert_le (owned_cells g p) c (hnot c hc)
        unfold region_count at hlt
        omega
    rw [hset]
    refine ⟨rfl, ?_⟩
    intro hsmall
    rw [busy_fields_zero_small g hwf (by rw [e1, e2]; exact hsmall)]
  · intro heq
    congr 1
    ext c
    rw [Finset.mem_filter, Finset.mem_filter]
    unfold region_count at heq
    constructor
    · rintro ⟨hc, hv⟩
      obtain ⟨h0, hle⟩ := (move_valid_iff_cells g hwf p hp' c hc).1 hv
      refine ⟨h0, ?_⟩
      by_contra hnone
      have hiso := count_regions_insert_isolated (owned_cells g p) c (hnot c h0) (by
        rintro n ⟨i, hi, rfl⟩ hm
        exact hnone ⟨i, Finset.mem_range.2 hi, hm⟩)
      omega
    · rintro ⟨h0, i, hi, hm⟩
      have hcc : c ∈ cells g := (mem_cells g c).2 ((mem_owned_cells g 0 c).1 h0).1
      refine ⟨hcc, (move_valid_iff_cells g hwf p hp' c hcc).2 ⟨h0, ?_⟩⟩
      have := count_regions_insert_adjacent (owned_cells g p) c _ (hnot c h0)
        ⟨i, Finset.mem_range.1 hi, rfl⟩ hm
      have hle := hwf.areas_le p (by omega)
      unfold region_count at hle
      omega

/-- Instances of C29 on the 3x1 board with one area after player 1 took `(0, 0)`:
player 2 has no region and may take both unowned cells; player 1 has one region and
may take only the unowned cell next to its own. -/
theorem free_fields_closed_form_witness :
    ((gamma_free_fields (gamma_move (initial 3 1 2 1) 1 0 0).1 2).2 =
        (owned_cells (gamma_move (initial 3 1 2 1) 1 0 0).1 0).card ∧
      (gamma_free_fields (gamma_move (initial 3 1 2 1) 1 0 0).1 2).2 = 2) ∧
    ((gamma_free_fields (gamma_move (initial 3 1 2 1) 1 0 0).1 1).2 =
        ((owned_cells (gamma_move (initial 3 1 2 1) 1 0 0).1 0).filter
          (fun c => ∃ i ∈ Finset.range 4,
            get_neighbour c i ∈ owned_cells (gamma_move (initial 3 1 2 1) 1 0 0).1 1)).card ∧
      (gamma_free_fields (gamma_move (initial 3 1 2 1) 1 0 0).1 1).2 = 1) := by
  have h2 := (free_fields_closed_form 3 1 2 1 _ reachable_scenario_c 2
    ⟨by decide, by decide⟩).1
    (by rw [region_count_of_busy_areas reachable_scenario_c 2 0 (by decide) (by decide)]
        decide)
  have h1 := (free_fields_closed_form 3 1 2 1 _ reachable_scenario_c 1
    ⟨by decide, by decide⟩).2
    (region_count_of_busy_areas reachable_scenario_c 1 1 (by decide) (by decide))
  exact ⟨⟨h2.1, by decide⟩, ⟨h1, by decide⟩⟩

/-! ## `are_in_the_same_area` as a relation -/

/-- C30: on every board whose visited flags are clear and for positions `a`, `b`, `c`
of the board, `are_in_the_same_area g a a` is true, `are_in_the_same_area g a b` and
`are_in_the_same_area g b a` return the same value, and if the calls for `a`, `b` and
for `b`, `c` return true then so does the call for `a`, `c`. -/
theorem same_area_equivalence (g : gamma_t) (hclear : all_clear g) (a b c : Position)
    (ha : inside_board g a = true) (hb : inside_board g b = true)
    (hc : inside_board g c = true) :
    (are_in_the_same_area g a a).2 = true ∧
    (are_in_the_same_area g a b).2 = (are_in_the_same_area g b a).2 ∧
    ((are_in_the_same_area g a b).2 = true → (are_in_the_same_area g b c).2 = true →
      (are_in_the_same_area g a c).2 = true) := by
  have haa := (are_in_the_same_area_clear g hclear a a ha ha).2
  have hab := (are_in_the_same_area_clear g hclear a b ha hb).2
  have hba := (are_in_the_same_area_clear g hclear b a hb ha).2
  have hbc := (are_in_the_same_area_clear g hclear b c hb hc).2
  have hac := (are_in_the_same_area_clear g hclear a c ha hc).2
  refine ⟨haa.2 ⟨rfl, connected_refl _ _⟩, ?_, ?_⟩
  · rw [Bool.eq_iff_iff, hab, hba]
    constructor
    · rintro ⟨h1, h2⟩
      exact ⟨h1.symm, by rw [← h1]; exact connected_symm h2⟩
    · rintro ⟨h1, h2⟩
      exact ⟨h1.symm, by rw [← h1]; exact connected_symm h2⟩
  · intro h1 h2
    obtain ⟨e1, c1⟩ := hab.1 h1
    obtain ⟨e2, c2⟩ := hbc.1 h2
    rw [← e1] at c2
    exact hac.2 ⟨e1.trans e2, connected_trans c1 c2⟩

/-- Instance of C30: the three unowned cells of the initial 3x1 board. -/
theorem same_area_equivalence_witness :
    (are_in_the_same_area (initial 3 1 2 1) ⟨(0 : Nat), (0 : Nat)⟩ ⟨(0 : Nat), (0 : Nat)⟩).2 =
      true ∧
    (are_in_the_same_area (initial 3 1 2 1) ⟨(0 : Nat), (0 : Nat)⟩ ⟨(1 : Nat), (0 : Nat)⟩).2 =
      (are_in_the_same_area (initial 3 1 2 1) ⟨(1 : Nat), (0 : Nat)⟩ ⟨(0 : Nat), (0 : Nat)⟩).2 ∧
    (are_in_the_same_area (initial 3 1 2 1) ⟨(0 : Nat), (0 : Nat)⟩ ⟨(2 : Nat), (0 : Nat)⟩).2 =
      true := by
  have h := same_area_equivalence (initial 3 1 2 1) (fun _ => rfl) ⟨(0 : Nat), (0 : Nat)⟩
    ⟨(1 : Nat), (0 : Nat)⟩ ⟨(2 : Nat), (0 : Nat)⟩ (by decide) (by decide) (by decide)
  exact ⟨h.1, h.2.1, h.2.2 (by decide) (by decide)⟩

/-! ## The area count at a cell of the player -/

/-- Player 1 holds the three cells of the 3x1 board for two players and one area. -/
theorem reachable_row_three :
    Reachable 3 1 2 1
      (gamma_move (gamma_move (gamma_move (initial 3 1 2 1) 1 0 0).1 1 1 0).1 1 2 0).1 :=
  Reachable.move _ 1 2 0 (Reachable.move _ 1 1 0 reachable_scenario_c)

/-- C31: on every board whose visited flags are clear, for every player `player ≥ 1`
and every position of the board that `player` owns,
`neighbouring_areas g player position true` returns exactly 1 and leaves the session
as it was, whatever the owners of the four neighbours are. -/
theorem own_cell_one_area (g : gamma_t) (hclear : all_clear g) (player : Nat)
    (hplayer : 1 ≤ player) (position : Position) (hon : inside_board g position = true)
    (hown : (g.board position).owner = player) :
    neighbouring_areas g player position true = (g, 1) := by
  rw [neighbouring_areas_clear g hclear player (by omega) position true]
  simp only [if_true]
  rw [touching_five_mem _ _ ((mem_owned_cells g player position).2 ⟨hon, hown⟩)]

/-- Instance of C31: the middle cell of the 3x1 board whose three cells player 1 holds
(both neighbours on the board belong to player 1). -/
theorem own_cell_one_area_witness :
    ((gamma_move (gamma_move (gamma_move (initial 3 1 2 1) 1 0 0).1 1 1 0).1 1 2 0).1.board
      ⟨0, 0⟩).owner = 1 ∧
    ((gamma_move (gamma_move (gamma_move (initial 3 1 2 1) 1 0 0).1 1 1 0).1 1 2 0).1.board
      ⟨2, 0⟩).owner = 1 ∧
    neighbouring_areas
      (gamma_move (gamma_move (gamma_move (initial 3 1 2 1) 1 0 0).1 1 1 0).1 1 2 0).1 1
      ⟨1, 0⟩ true =
      ((gamma_move (gamma_move (gamma_move (initial 3 1 2 1) 1 0 0).1 1 1 0).1 1 2 0).1, 1) :=
  ⟨by decide, by decide,
    own_cell_one_area _ (reachable_wellformed reachable_row_three).clear 1 (by decide) ⟨1, 0⟩
      (by decide) (by decide)⟩

/-! ## `gamma_golden_possible` and `gamma_golden_move` -/

/-- With fewer than `2 ^ 32 - 1` players, in every reachable state a golden move that
would return true implies that `gamma_golden_possible` returns true. -/
theorem golden_move_needs_possible {width height players areas : Nat} {g : gamma_t}
    (h : Reachable width height players areas g) (hsmall : players < 2 ^ 32 - 1)
    (p x y : Nat) (hmove : (gamma_golden_move g p x y).2 = true) :
    gamma_golden_possible g p = some true := by
  have hwf := reachable_wellformed h
  obtain ⟨hw, hh, _, hN, _⟩ := reachable_params h
  obtain ⟨hp, hunused, hon, ⟨ho1, ho2, ho3⟩, _, _⟩ :=
    (gamma_golden_move_iff_wf g hwf p x y).1 hmove
  rw [hN] at hp ho2
  obtain ⟨b, hb, hiff⟩ := golden_possible_iff_small h hsmall p hp.2
  have hmem : (⟨x, y⟩ : Position) ∈ owned_cells g (g.board ⟨x, y⟩).owner :=
    (mem_owned_cells g _ _).2 ⟨(on_board_iff g x y).2 hon, rfl⟩
  have hb' : b = true :=
    hiff.2 ⟨hunused, (g.board ⟨x, y⟩).owner, ho1, ho2, ho3, Finset.card_pos.2 ⟨_, hmem⟩⟩
  rw [hb, hb']

/-- The converse fails: on the 3x1 board for two players and one area, with player 1 on
`(0, 0)` and player 2 on `(2, 0)`, `gamma_golden_possible g 1` returns true, but every
golden move of player 1 is rejected (the capture of `(2, 0)` would give player 1 two
areas). -/
theorem golden_possible_not_sufficient :
    Reachable 3 1 2 1 (gamma_move (gamma_move (initial 3 1 2 1) 1 0 0).1 2 2 0).1 ∧
    gamma_golden_possible (gamma_move (gamma_move (initial 3 1 2 1) 1 0 0).1 2 2 0).1 1 =
      some true ∧
    (∀ x y : Nat,
      (gamma_golden_move (gamma_move (gamma_move (initial 3 1 2 1) 1 0 0).1 2 2 0).1
        1 x y).2 = false) := by
  have hr : Reachable 3 1 2 1 (gamma_move (gamma_move (initial 3 1 2 1) 1 0 0).1 2 2 0).1 :=
    Reachable.move _ 2 2 0 reachable_scenario_c
  refine ⟨hr, by decide, ?_⟩
  intro x y
  by_contra hne
  have htrue : (gamma_golden_move (gamma_move (gamma_move (initial 3 1 2 1) 1 0 0).1 2 2 0).1
      1 x y).2 = true := by
    simpa using hne
  have hwf := reachable_wellformed hr
  obtain ⟨hw, hh, _⟩ := reachable_params hr
  obtain ⟨_, _, hon, _⟩ := (gamma_golden_move_iff_wf _ hwf 1 x y).1 htrue
  rw [hw, hh] at hon
  obtain ⟨hx, hy⟩ := hon
  have hy0 : y = 0 := by omega
  subst hy0
  interval_cases x
  · exact absurd htrue (by decide)
  · exact absurd htrue (by decide)
  · exact absurd htrue (by decide)

/-- C32 fails at the largest number of players: on the 2x1 board for `4294967295`
players, after player 1 took `(0, 0)`, the golden move of player 2 onto `(0, 0)` would
return true, but the loop of `gamma_golden_possible g 2` does not end, so the call
does not return true (the same defect as in C7). With fewer players the implication
holds (`golden_move_needs_possible`); its converse fails
(`golden_possible_not_sufficient`). -/
theorem golden_move_without_possible :
    Reachable 2 1 4294967295 1 (gamma_move (initial 2 1 4294967295 1) 1 0 0).1 ∧
    (gamma_golden_move (gamma_move (initial 2 1 4294967295 1) 1 0 0).1 2 0 0).2 = true ∧
    (∀ fuel, gamma_golden_possible_loop fuel
      (gamma_move (initial 2 1 4294967295 1) 1 0 0).1 2 1 false = none) ∧
    gamma_golden_possible (gamma_move (initial 2 1 4294967295 1) 1 0 0).1 2 ≠ some true := by
  have h1 := reachableGold_reachable reachableGold_two_moves_max
  have hN := (reachable_params h1).2.2.2.1
  have hN' : (gamma_move (initial 2 1 4294967295 1) 1 0 0).1.number_of_players = 2 ^ 32 - 1 := by
    rw [hN]; norm_num
  refine ⟨h1, by decide,
    fun fuel => golden_possible_loop_max_players _ 2 hN' fuel 1 false (by norm_num), ?_⟩
  rw [golden_possible_max_players _ 2 hN']
  simp

/-! ## The size of the text written by `gamma_board` -/

theorem separated_length (sep : List Char) (d : Nat) :
    ∀ l : List (List Char), (∀ a ∈ l, a.length = d) →
      (separated sep l).length = d * l.length + sep.length * (l.length - 1) := by
  intro l
  induction l with
  | nil => intro _; simp [separated]
  | cons a t ih =>
    intro hl
    have ha : a.length = d := hl a (List.mem_cons_self a t)
    cases t with
    | nil => simp [separated, ha]
    | cons b r =>
      have ht := ih (fun c hc => hl c (List.mem_cons_of_mem a hc))
      rw [separated_cons sep a (b :: r) (by simp), List.length_append, List.length_append, ht, ha]
      simp only [List.length_cons, Nat.add_sub_cancel]
      ring

theorem cell_text_padded_length (g : gamma_t) (x y : Nat)
    (h : (g.board ⟨(x : Int), (y : Int)⟩).owner ≤ g.number_of_players) :
    (cell_text_padded g x y).length = number_of_digits g.number_of_players := by
  unfold cell_text_padded
  have := cell_text_spec_length g x y h
  rw [List.length_append, List.length_replicate]
  omega

theorem cell_separator_length (g : gamma_t) :
    (cell_separator g).length = if number_of_digits g.number_of_players = 1 then 0 else 1 := by
  unfold cell_separator
  have := number_of_digits_pos g.number_of_players
  by_cases h1 : number_of_digits g.number_of_players = 1
  · rw [if_neg (by omega), if_pos h1]; rfl
  · rw [if_pos (by omega), if_neg h1]; rfl

/-- The row `y` of the layout with right-aligned cells, without its line break. -/
theorem row_padded_length (g : gamma_t) (hown : ∀ p, (g.board p).owner ≤ g.number_of_players)
    (y : Nat) :
    (separated (cell_separator g)
      ((List.range g.width).map (fun (x : Nat) => cell_text_padded g x y))).length =
      number_of_digits g.number_of_players * g.width +
        (if number_of_digits g.number_of_players = 1 then 0 else 1) * (g.width - 1) := by
  rw [separated_length (cell_separator g) (number_of_digits g.number_of_players)]
  · rw [List.length_map, List.length_range, cell_separator_length]
  · intro a ha
    obtain ⟨x, _, rfl⟩ := List.mem_map.1 ha
    exact cell_text_padded_length g x y (hown _)

theorem length_flatMap_const {α : Type} (f : α → List Char) (n : Nat) :
    ∀ l : List α, (∀ a ∈ l, (f a).length = n) → (l.flatMap f).length = l.length * n := by
  intro l
  induction l with
  | nil => intro _; simp
  | cons a t ih =>
    intro hl
    rw [List.flatMap_cons, List.length_append, hl a (List.mem_cons_self a t),
      ih (fun b hb => hl b (List.mem_cons_of_mem a hb)), List.length_cons, Nat.succ_mul]
    omega

/-- In every reachable state the text written by `gamma_board` has
`height * (d * width + pad * (width - 1) + 1)` characters, where `d` is the number of
decimal digits of the number of players and `pad` is 0 when `d = 1` and 1 otherwise. -/
theorem gamma_board_text_length {width height players areas : Nat} {g : gamma_t}
    (h : Reachable width height players areas g) :
    (gamma_board_text g).length =
      height * (number_of_digits players * width +
        (if number_of_digits players = 1 then 0 else 1) * (width - 1) + 1) := by
  have hwf := reachable_wellformed h
  obtain ⟨hw, hh, _, hN, _⟩ := reachable_params h
  rw [gamma_board_text_eq h]
  unfold board_layout_padded
  rw [length_flatMap_const _
    (number_of_digits players * width +
        (if number_of_digits players = 1 then 0 else 1) * (width - 1) + 1)]
  · rw [List.length_reverse, List.length_range, hh]
  · intro y _
    rw [List.length_append, row_padded_length g hwf.owner_le y, hN, hw]
    rfl

/-- In every reachable state for which `height * (d * width + pad * (width - 1) + 1) + 1`
is below `2 ^ 32`, the buffer that `gamma_board` allocates has one byte more than the
text has characters, and `gamma_board` returns the text. -/
theorem gamma_board_size_exact {width height players areas : Nat} {g : gamma_t}
    (h : Reachable width height players areas g)
    (hfit : height * (number_of_digits players * width +
        (if number_of_digits players = 1 then 0 else 1) * (width - 1) + 1) + 1 < 2 ^ 32) :
    gamma_board_size g = (gamma_board_text g).length + 1 ∧
    gamma_board g = some (gamma_board_text g) := by
  obtain ⟨hw, hh, _, hN, hwb, hhb, _, _⟩ := reachable_params h
  have hlen := gamma_board_text_length h
  have hsize : gamma_board_size g = (gamma_board_text g).length + 1 := by
    rw [hlen]
    unfold gamma_board_size
    simp only [hw, hh, hN]
    have e1 : (width + (2 ^ 32 - 1)) % 2 ^ 32 = width - 1 := by omega
    rw [e1]
    generalize hR : number_of_digits players * width +
        (if number_of_digits players = 1 then 0 else 1) * (width - 1) + 1 = R at hfit ⊢
    have hRle : R ≤ height * R := Nat.le_mul_of_pos_left R hhb.1
    rw [Nat.mod_eq_of_lt (show R < 2 ^ 32 by omega), Nat.mul_comm R height,
      Nat.mod_eq_of_lt hfit]
  refine ⟨hsize, ?_⟩
  unfold gamma_board
  rw [if_pos (by omega)]

/-- A board whose text does not fit in 32 bits: for the new session of the board of
width and height 65536 for one player the text has `65536 * 65537` characters and the
buffer has `65537` bytes. -/
theorem render_buffer_wraps :
    Reachable 65536 65536 1 1 (initial 65536 65536 1 1) ∧
    (gamma_board_text (initial 65536 65536 1 1)).length = 65536 * 65537 ∧
    gamma_board_size (initial 65536 65536 1 1) = 65537 ∧
    gamma_board (initial 65536 65536 1 1) = none := by
  have hr : Reachable 65536 65536 1 1 (initial 65536 65536 1 1) :=
    reachable_initial _ _ _ _ (by decide) (by decide) (by decide) (by decide)
  have hd : number_of_digits 1 = 1 := by decide
  have hlen := gamma_board_text_length hr
  rw [hd, if_pos rfl] at hlen
  have hsize : gamma_board_size (initial 65536 65536 1 1) = 65537 := by decide
  refine ⟨hr, by rw [hlen], hsize, ?_⟩
  unfold gamma_board
  rw [if_neg (by rw [hsize, hlen]; omega)]

/-- C33 fails when the text has `2 ^ 32 - 1` characters: for the new session of the
board of width 65534 and height 65537 for one player, every row has 65534 characters and
a line break, the text has `65537 * 65535 = 4294967295` characters, which fits in 32
bits, but the size `row_width * height + 1` is computed on `uint32_t` and is 0, so the
buffer does not hold the text. When the size itself is below `2 ^ 32` the buffer has
one byte more than the text (`gamma_board_size_exact`, `gamma_board_text_length`). -/
theorem render_buffer_too_small :
    Reachable 65534 65537 1 1 (initial 65534 65537 1 1) ∧
    number_of_digits 1 = 1 ∧
    (gamma_board_text (initial 65534 65537 1 1)).length = 65537 * (1 * 65534 + 0 * 65533 + 1) ∧
    65537 * (1 * 65534 + 0 * 65533 + 1) = 2 ^ 32 - 1 ∧
    gamma_board_size (initial 65534 65537 1 1) = 0 ∧
    gamma_board (initial 65534 65537 1 1) = none := by
  have hr : Reachable 65534 65537 1 1 (initial 65534 65537 1 1) :=
    reachable_initial _ _ _ _ (by decide) (by decide) (by decide) (by decide)
  have hd : number_of_digits 1 = 1 := by decide
  have hlen := gamma_board_text_length hr
  rw [hd, if_pos rfl] at hlen
  have hsize : gamma_board_size (initial 65534 65537 1 1) = 0 := by decide
  refine ⟨hr, hd, hlen, by norm_num, hsize, ?_⟩
  unfold gamma_board
  rw [if_neg (by rw [hsize]; omega)]

/-! ## Lines and columns of the text written by `gamma_board` -/

theorem text_line_row_zero (rest : List Char) :
    ∀ row : List Char, (∀ c ∈ row, c ≠ Char.ofNat 10) →
      text_line (row ++ Char.ofNat 10 :: rest) 0 = row := by
  intro row
  induction row with
  | nil => intro _; simp [text_line]
  | cons c t ih =>
    intro h
    have hc : c ≠ Char.ofNat 10 := h c (List.mem_cons_self c t)
    rw [List.cons_append, text_line, if_neg hc, ih (fun b hb => h b (List.mem_cons_of_mem c hb))]

theorem text_line_row_succ (rest : List Char) (n : Nat) :
    ∀ row : List Char, (∀ c ∈ row, c ≠ Char.ofNat 10) →
      text_line (row ++ Char.ofNat 10 :: rest) (n + 1) = text_line rest n := by
  intro row
  induction row with
  | nil => intro _; simp [text_line]
  | cons c t ih =>
    intro h
    have hc : c ≠ Char.ofNat 10 := h c (List.mem_cons_self c t)
    rw [List.cons_append, text_line, if_neg hc, ih (fun b hb => h b (List.mem_cons_of_mem c hb))]

/-- Line `k` of a text made of the rows `height - 1`, ..., 0, each ended by a line
break, is the row `height - 1 - k`. -/
theorem text_line_rows (row : Nat → List Char) (hrow : ∀ y, ∀ c ∈ row y, c ≠ Char.ofNat 10) :
    ∀ (height k : Nat), k < height →
      text_line ((List.range height).reverse.flatMap (fun y => row y ++ [Char.ofNat 10])) k =
        row (height - 1 - k) := by
  intro height
  induction height with
  | zero => intro k hk; omega
  | succ h ih =>
    intro k hk
    rw [List.range_succ, List.reverse_append, List.reverse_singleton, List.singleton_append,
      List.flatMap_cons, List.append_assoc, List.singleton_append]
    cases k with
    | zero => rw [text_line_row_zero _ _ (hrow h)]; rfl
    | succ j =>
      rw [text_line_row_succ _ _ _ (hrow h), ih j (by omega)]
      congr 1
      omega

theorem separated_drop_take (sep : List Char) (d : Nat) :
    ∀ (l : List (List Char)) (i : Nat) (c : List Char), l[i]? = some c →
      (∀ a ∈ l, a.length = d) →
      ((separated sep l).drop (i * (d + sep.length))).take d = c := by
  intro l
  induction l with
  | nil => intro i c hc; simp at hc
  | cons a t ih =>
    intro i c hc hl
    have ha : a.length = d := hl a (List.mem_cons_self a t)
    cases i with
    | zero =>
      simp only [List.getElem?_cons_zero, Option.some.injEq] at hc
      subst hc
      rw [Nat.zero_mul, List.drop_zero]
      cases t with
      | nil => simp [separated, ← ha]
      | cons b r =>
        rw [separated_cons sep a (b :: r) (by simp), List.append_assoc, ← ha, List.take_left]
    | succ j =>
      rw [List.getElem?_cons_succ] at hc
      have hne : t ≠ [] := by
        rintro rfl
        simp at hc
      rw [separated_cons sep a t hne]
      have e : (j + 1) * (d + sep.length) = (a ++ sep).length + j * (d + sep.length) := by
        rw [List.length_append, ha, Nat.succ_mul]
        omega
      rw [e, List.drop_append]
      exact ih j c hc (fun b hb => hl b (List.mem_cons_of_mem a hb))

theorem digitChar_ne_newline (n : Nat) : Nat.digitChar (n % 10) ≠ Char.ofNat 10 := by
  have h : n % 10 < 10 := Nat.mod_lt n (by decide)
  generalize n % 10 = m at h
  interval_cases m <;> decide

theorem toDigitsCore_no_newline :
    ∀ (fuel n : Nat) (acc : List Char), (∀ c ∈ acc, c ≠ Char.ofNat 10) →
      ∀ c ∈ Nat.toDigitsCore 10 fuel n acc, c ≠ Char.ofNat 10 := by
  intro fuel
  induction fuel with
  | zero => intro n acc hacc c hc; exact hacc c (by simpa [Nat.toDigitsCore] using hc)
  | succ k ih =>
    intro n acc hacc c hc
    have hacc2 : ∀ b ∈ Nat.digitChar (n % 10) :: acc, b ≠ Char.ofNat 10 := by
      intro b hb
      rcases List.mem_cons.1 hb with rfl | hb
      · exact digitChar_ne_newline n
      · exact hacc b hb
    simp only [Nat.toDigitsCore] at hc
    split_ifs at hc
    · exact hacc2 c hc
    · exact ih _ _ hacc2 c hc

theorem cell_text_padded_no_newline (g : gamma_t) (x y : Nat) :
    ∀ c ∈ cell_text_padded g x y, c ≠ Char.ofNat 10 := by
  intro c hc
  unfold cell_text_padded cell_text_spec at hc
  rcases List.mem_append.1 hc with h1 | h1
  · rw [(List.mem_replicate.1 h1).2]; decide
  · split_ifs at h1
    · rw [List.mem_singleton.1 h1]; decide
    · exact toDigitsCore_no_newline _ _ [] (by simp) c h1

theorem separated_no_newline (sep : List Char) (hsep : ∀ c ∈ sep, c ≠ Char.ofNat 10) :
    ∀ l : List (List Char), (∀ a ∈ l, ∀ c ∈ a, c ≠ Char.ofNat 10) →
      ∀ c ∈ separated sep l, c ≠ Char.ofNat 10 := by
  intro l
  induction l with
  | nil => intro _ c hc; simp [separated] at hc
  | cons a t ih =>
    intro hl c hc
    cases t with
    | nil => exact hl a (List.mem_cons_self a []) c (by simpa [separated] using hc)
    | cons b r =>
      rw [separated_cons sep a (b :: r) (by simp)] at hc
      rcases List.mem_append.1 hc with h1 | h1
      · rcases List.mem_append.1 h1 with h2 | h2
        · exact hl a (List.mem_cons_self a _) c h2
        · exact hsep c h2
      · exact ih (fun a2 ha2 => hl a2 (List.mem_cons_of_mem a ha2)) c h1

theorem row_padded_no_newline (g : gamma_t) (y : Nat) :
    ∀ c ∈ separated (cell_separator g)
      ((List.range g.width).map (fun (x : Nat) => cell_text_padded g x y)),
      c ≠ Char.ofNat 10 := by
  apply separated_no_newline
  · intro c hc
    unfold cell_separator at hc
    split_ifs at hc
    · rw [List.mem_singleton.1 hc]; decide
    · simp at hc
  · intro a ha
    obtain ⟨x, _, rfl⟩ := List.mem_map.1 ha
    exact cell_text_padded_no_newline g x y

/-- In every reachable state, line `k` of the text written by `gamma_board` is the row
`height - 1 - k` of the board: its cells right-aligned, separated. -/
theorem gamma_board_text_line {width height players areas : Nat} {g : gamma_t}
    (h : Reachable width height players areas g) (k : Nat) (hk : k < height) :
    text_line (gamma_board_text g) k =
      separated (cell_separator g)
        ((List.range g.width).map (fun (x : Nat) => cell_text_padded g x (height - 1 - k))) := by
  obtain ⟨_, hh, _⟩ := reachable_params h
  rw [gamma_board_text_eq h]
  unfold board_layout_padded
  rw [hh]
  exact text_line_rows
    (fun y => separated (cell_separator g)
      ((List.range g.width).map (fun (x : Nat) => cell_text_padded g x y)))
    (fun y => row_padded_no_newline g y) height k hk

/-- In every reachable state every line of the text written by `gamma_board` has
`d * width + pad * (width - 1)` characters. -/
theorem gamma_board_row_length {width height players areas : Nat} {g : gamma_t}
    (h : Reachable width height players areas g) (k : Nat) (hk : k < height) :
    (text_line (gamma_board_text g) k).length =
      number_of_digits players * width +
        (if number_of_digits players = 1 then 0 else 1) * (width - 1) := by
  obtain ⟨hw, _, _, hN, _⟩ := reachable_params h
  rw [gamma_board_text_line h k hk, row_padded_length g (reachable_wellformed h).owner_le,
    hN, hw]

theorem gamma_board_position_eq (g : gamma_t) (hN : g.number_of_players < 2 ^ 32)
    (p : Position) :
    gamma_board_position g p =
      ⟨p.x * ((number_of_digits g.number_of_players +
          (if number_of_digits g.number_of_players = 1 then 0 else 1) : Nat) : Int) + 1,
        (g.height : Int) - p.y⟩ := by
  unfold gamma_board_position
  have hd := number_of_digits_le_ten g.number_of_players hN
  have hlt : number_of_digits g.number_of_players +
      (if number_of_digits g.number_of_players = 1 then 0 else 1) < 2 ^ 32 := by
    split_ifs <;> omega
  simp only [Nat.mod_eq_of_lt hlt]

/-- C34: in every reachable state, for every position `(x, y)` of the board,
`gamma_board_position` returns the column `x * (d + pad) + 1` and the line
`height - y`, both at least 1, where `d` is the number of decimal digits of the number
of players and `pad` is 0 when `d = 1` and 1 otherwise; and in the text that
`gamma_board` returns, the `d` characters from that column of that line on (lines and
columns counted from 1) are the rendering of the cell `(x, y)`, its owner right-aligned
in `d` columns. -/
theorem cursor_matches_rendering (width height players areas : Nat) (g : gamma_t)
    (h : Reachable width height players areas g) (x y : Nat)
    (hon : x < width ∧ y < height) :
    gamma_board_position g ⟨x, y⟩ =
      ⟨((x * (number_of_digits players +
          (if number_of_digits players = 1 then 0 else 1)) + 1 : Nat) : Int),
        ((height - y : Nat) : Int)⟩ ∧
    1 ≤ height - y ∧
    (∀ text : List Char, gamma_board g = some text →
      ((text_line text ((gamma_board_position g ⟨x, y⟩).y.toNat - 1)).drop
          ((gamma_board_position g ⟨x, y⟩).x.toNat - 1)).take (number_of_digits players) =
        cell_text_padded g x y) ∧
    (cell_text_padded g x y).length = number_of_digits players := by
  have hwf := reachable_wellformed h
  obtain ⟨hw, hh, _, hN, _, _, hpb, _⟩ := reachable_params h
  have hpos : gamma_board_position g ⟨x, y⟩ =
      ⟨((x * (number_of_digits players +
          (if number_of_digits players = 1 then 0 else 1)) + 1 : Nat) : Int),
        ((height - y : Nat) : Int)⟩ := by
    rw [gamma_board_position_eq g (by rw [hN]; exact hpb.2), hN, hh]
    congr 1
    have := hon.2
    dsimp only
    omega
  have hlen := cell_text_padded_length g x y (hwf.owner_le _)
  rw [hN] at hlen
  refine ⟨hpos, by omega, ?_, hlen⟩
  intro text htext
  have htext2 : text = gamma_board_text g := by
    unfold gamma_board at htext
    split_ifs at htext
    exact (Option.some.inj htext).symm
  rw [hpos, htext2]
  simp only [Int.toNat_ofNat, Nat.add_sub_cancel]
  rw [gamma_board_text_line h (height - y - 1) (by omega)]
  have hy : height - 1 - (height - y - 1) = y := by omega
  rw [hy]
  have hsep : (cell_separator g).length = if number_of_digits players = 1 then 0 else 1 := by
    rw [cell_separator_length, hN]
  rw [← hsep]
  apply separated_drop_take (cell_separator g) (number_of_digits players)
  · rw [List.getElem?_map, List.getElem?_range (by rw [hw]; exact hon.1)]
    rfl
  · intro a ha
    obtain ⟨x2, _, rfl⟩ := List.mem_map.1 ha
    rw [cell_text_padded_length g x2 y (hwf.owner_le _), hN]

/-- Instance of C34: the cell `(1, 0)` of the 2x1 board for ten players after player
1 took `(0, 0)`: the text is ` 1  .` and a line break, the cursor goes to column 4 of
line 1, and the two characters from there on are a blank and `.`. -/
theorem cursor_matches_rendering_witness :
    gamma_board (gamma_move (initial 2 1 10 1) 1 0 0).1 =
      some [' ', '1', ' ', ' ', '.', Char.ofNat 10] ∧
    gamma_board_position (gamma_move (initial 2 1 10 1) 1 0 0).1 ⟨1, 0⟩ = ⟨4, 1⟩ ∧
    ((text_line [' ', '1', ' ', ' ', '.', Char.ofNat 10]
        ((gamma_board_position (gamma_move (initial 2 1 10 1) 1 0 0).1 ⟨1, 0⟩).y.toNat - 1)).drop
        ((gamma_board_position (gamma_move (initial 2 1 10 1) 1 0 0).1 ⟨1, 0⟩).x.toNat - 1)).take
        (number_of_digits 10) =
      cell_text_padded (gamma_move (initial 2 1 10 1) 1 0 0).1 1 0 ∧
    cell_text_padded (gamma_move (initial 2 1 10 1) 1 0 0).1 1 0 = [' ', '.'] :=
  ⟨by decide, by decide,
    (cursor_matches_rendering 2 1 10 1 _ reachable_ten_players 1 0 (by decide)).2.2.1
      [' ', '1', ' ', ' ', '.', Char.ofNat 10] (by decide),
    by decide⟩

/-! ## `strToInt` -/

theorem digit_value_le (c : Char) (h : c ≤ '9') : c.toNat - '0'.toNat ≤ 9 := by
  have h2 : c.toNat ≤ '9'.toNat := h
  have h3 : '9'.toNat = 57 := by decide
  have h4 : '0'.toNat = 48 := by decide
  omega

theorem foldl_digits_le (s : List Char) :
    ∀ a : Nat, a ≤ s.foldl (fun n c => 10 * n + (c.toNat - '0'.toNat)) a := by
  induction s with
  | nil => intro a; exact Nat.le_refl a
  | cons c t ih =>
    intro a
    rw [List.foldl_cons]
    have := ih (10 * a + (c.toNat - '0'.toNat))
    omega

theorem strToInt_loop_some (s : List Char) :
    ∀ (r v : Nat), strToInt_loop s r = some v →
      (∀ c ∈ s, '0' ≤ c ∧ c ≤ '9') ∧
      v = s.foldl (fun n c => 10 * n + (c.toNat - '0'.toNat)) r := by
  induction s with
  | nil =>
    intro r v h
    simp only [strToInt_loop, Option.some.injEq] at h
    exact ⟨by simp, h.symm⟩
  | cons c t ih =>
    intro r v h
    rw [strToInt_loop] at h
    split_ifs at h with hg
    have hd := digit_value_le c hg.2.1
    have hr : r ≤ 2 ^ 32 - 1 := hg.2.2
    rw [Nat.mod_eq_of_lt (by omega)] at h
    obtain ⟨h1, h2⟩ := ih _ v h
    refine ⟨?_, by rw [List.foldl_cons]; exact h2⟩
    intro b hb
    rcases List.mem_cons.1 hb with rfl | hb
    · exact ⟨hg.1, hg.2.1⟩
    · exact h1 b hb

theorem strToInt_loop_digits (s : List Char) :
    ∀ r : Nat, r ≤ UINT32_MAX → (∀ c ∈ s, '0' ≤ c ∧ c ≤ '9') →
      s.foldl (fun n c => 10 * n + (c.toNat - '0'.toNat)) r ≤ UINT32_MAX →
      strToInt_loop s r = some (s.foldl (fun n c => 10 * n + (c.toNat - '0'.toNat)) r) := by
  induction s with
  | nil => intro r _ _ _; rfl
  | cons c t ih =>
    intro r hr hs hv
    have hc := hs c (List.mem_cons_self c t)
    have hd := digit_value_le c hc.2
    have hr2 : r ≤ 2 ^ 32 - 1 := hr
    rw [List.foldl_cons] at hv ⊢
    rw [strToInt_loop, if_pos ⟨hc.1, hc.2, hr⟩, Nat.mod_eq_of_lt (by omega)]
    exact ih _ (Nat.le_trans (foldl_digits_le t _) hv)
      (fun b hb => hs b (List.mem_cons_of_mem c hb)) hv

theorem strToInt_some (s : List Char) (output : Nat) :
    strToInt (some s) output =
      match strToInt_loop s 0 with
      | none => (false, output)
      | some result =>
        (decide (result ≤ UINT32_MAX), if result ≤ UINT32_MAX then result % 2 ^ 32 else output) :=
  rfl

/-- C35: for every string `s`, `strToInt` returns true exactly when every character
of `s` is a decimal digit and the number that `s` denotes (0 for the empty string,
leading zeros allowed) is at most `2 ^ 32 - 1`; then `*output` holds that number; when
it returns false `*output` keeps its content; and whenever the loop, having read a
part `pre` of `s` with the accumulator `r`, executes the assignment for the next
character `c`, the value `10 * r + (c - '0')` is below `2 ^ 64`. -/
theorem strToInt_spec (s : List Char) (output : Nat) :
    ((strToInt (some s) output).1 = true ↔
      (∀ c ∈ s, '0' ≤ c ∧ c ≤ '9') ∧ decimal_value s ≤ 2 ^ 32 - 1) ∧
    ((strToInt (some s) output).1 = true → (strToInt (some s) output).2 = decimal_value s) ∧
    ((strToInt (some s) output).1 = false → (strToInt (some s) output).2 = output) ∧
    (∀ (pre : List Char) (c : Char) (r : Nat), (pre ++ [c]) <+: s →
      strToInt_loop pre 0 = some r → '0' ≤ c ∧ c ≤ '9' ∧ r ≤ UINT32_MAX →
      10 * r + (c.toNat - '0'.toNat) < 2 ^ 64) := by
  have key : ∀ v, strToInt_loop s 0 = some v → v = decimal_value s :=
    fun v hv => (strToInt_loop_some s 0 v hv).2
  refine ⟨⟨?_, ?_⟩, ?_, ?_, ?_⟩
  · intro h
    rw [strToInt_some] at h
    cases hl : strToInt_loop s 0 with
    | none => rw [hl] at h; simp at h
    | some v =>
      rw [hl] at h
      obtain ⟨h1, h2⟩ := strToInt_loop_some s 0 v hl
      have hv : v ≤ 2 ^ 32 - 1 := by simpa [UINT32_MAX] using h
      exact ⟨h1, by unfold decimal_value; rw [← h2]; exact hv⟩
  · rintro ⟨h1, h2⟩
    have hl := strToInt_loop_digits s 0 (Nat.zero_le _) h1 h2
    rw [strToInt_some, hl]
    simpa [UINT32_MAX, decimal_value] using h2
  · intro h
    rw [strToInt_some] at h ⊢
    cases hl : strToInt_loop s 0 with
    | none => rw [hl] at h; simp at h
    | some v =>
      rw [hl] at h
      dsimp only at h ⊢
      have hv : v ≤ UINT32_MAX := by simpa using h
      have hv2 : v ≤ 2 ^ 32 - 1 := hv
      simp only [if_pos hv]
      rw [Nat.mod_eq_of_lt (by omega)]
      exact key v hl
  · intro h
    rw [strToInt_some] at h ⊢
    cases hl : strToInt_loop s 0 with
    | none => rfl
    | some v =>
      rw [hl] at h
      dsimp only at h ⊢
      have hv : ¬ v ≤ UINT32_MAX := by simpa using h
      simp only [if_neg hv]
  · intro pre c r _ _ hg
    have hd := digit_value_le c hg.2.1
    have hr : r ≤ 2 ^ 32 - 1 := hg.2.2
    omega

/-- Values of `strToInt`: the largest number, the first one too large, leading zeros,
the empty string, a string with a letter, a string of thirty digits. -/
theorem strToInt_examples :
    strToInt (some ['4', '2', '9', '4', '9', '6', '7', '2', '9', '5']) 7 = (true, 4294967295) ∧
    strToInt (some ['4', '2', '9', '4', '9', '6', '7', '2', '9', '6']) 7 = (false, 7) ∧
    strToInt (some ['0', '0', '1', '2']) 7 = (true, 12) ∧
    strToInt (some []) 7 = (true, 0) ∧
    strToInt (some ['1', '2', 'a']) 7 = (false, 7) ∧
    strToInt (some (List.replicate 30 '9')) 7 = (false, 7) ∧
    strToInt none 7 = (false, 7) := by
  decide

/-- The number denoted, digit by digit: `decimal_value` is `Nat.ofDigits 10` of the
digits, least significant first. -/
theorem decimal_value_eq_ofDigits (s : List Char) :
    decimal_value s = Nat.ofDigits 10 (s.reverse.map (fun c => c.toNat - '0'.toNat)) := by
  unfold decimal_value
  have h : ∀ (t : List Char) (a : Nat),
      t.foldl (fun n c => 10 * n + (c.toNat - '0'.toNat)) a =
        Nat.ofDigits 10 (t.reverse.map (fun c => c.toNat - '0'.toNat)) +
          10 ^ t.length * a := by
    intro t
    induction t with
    | nil => intro a; simp
    | cons c r ih =>
      intro a
      rw [List.foldl_cons, ih, List.reverse_cons, List.map_append, Nat.ofDigits_append]
      simp only [List.map_cons, List.map_nil, Nat.ofDigits_singleton, List.length_map,
        List.length_reverse, List.length_cons]
      ring
  rw [h s 0]
  simp

/-! ## `parse` and `numberOfTokens` -/

theorem parse_loop_nil (n : Nat) : parse_loop n [] = List.replicate n none := by
  cases n with
  | zero => rfl
  | succ k => simp [parse_loop]

/-- The array of `parse`: tokens first, then NULL slots. -/
theorem parse_loop_shape :
    ∀ (n : Nat) (string : List Char), ∃ toks : List (List Char),
      toks.length ≤ n ∧
      parse_loop n string = toks.map some ++ List.replicate (n - toks.length) none := by
  intro n
  induction n with
  | zero => intro s; exact ⟨[], Nat.le_refl 0, rfl⟩
  | succ k ih =>
    intro s
    by_cases hs : s = []
    · refine ⟨[], Nat.zero_le _, ?_⟩
      rw [hs, parse_loop_nil]
      rfl
    · rw [parse_loop, if_neg hs]
      by_cases ht : s.dropWhile isspace = []
      · refine ⟨[], Nat.zero_le _, ?_⟩
        simp only [ht, ne_eq, not_true_eq_false, if_false, List.dropWhile_nil, parse_loop_nil,
          List.map_nil, List.length_nil, Nat.sub_zero, List.nil_append]
        rfl
      · obtain ⟨toks, hlen, heq⟩ :=
          ih ((s.dropWhile isspace).dropWhile (fun c => !isspace c))
        refine ⟨(if k = 0 then s.dropWhile isspace
          else (s.dropWhile isspace).takeWhile (fun c => !isspace c)) :: toks, ?_, ?_⟩
        · simp only [List.length_cons]; omega
        · simp only [ne_eq, ht, not_false_eq_true, if_true, heq, List.map_cons,
            List.length_cons, List.cons_append, Nat.add_sub_add_right]

theorem numberOfTokens_loop_shape (toks : List (List Char)) :
    ∀ (m result : Nat), result + toks.length ≤ MAX_NUMBER_OF_TOKENS + 1 →
      numberOfTokens_loop (toks.map some ++ List.replicate m none) result =
        if m = 0 then Except.error (result + toks.length)
        else Except.ok (result + toks.length) := by
  induction toks with
  | nil =>
    intro m result h
    cases m with
    | zero => simp [numberOfTokens_loop, h] at h ⊢; exact h
    | succ j =>
      simp only [List.map_nil, List.nil_append, List.replicate_succ, List.length_nil,
        Nat.add_zero] at h ⊢
      rw [numberOfTokens_loop, if_pos h]
      simp
  | cons t r ih =>
    intro m result h
    simp only [List.length_cons] at h
    rw [List.map_cons, List.cons_append, numberOfTokens_loop, if_pos (by omega)]
    rw [ih m (result + 1) (by omega)]
    simp only [List.length_cons]
    have e : result + 1 + r.length = result + (r.length + 1) := by omega
    rw [e]

/-- The array that `parse` returns has `MAX_NUMBER_OF_TOKENS + 1 = 6` slots, the
non-NULL slots first. When one of the slots is NULL, `numberOfTokens` returns the number
of non-NULL slots without leaving the array; when all 6 slots are non-NULL it reads the
slot of index 6. -/
theorem numberOfTokens_parse (string : List Char) :
    ∃ toks : List (List Char),
      parse string = toks.map some ++ List.replicate (6 - toks.length) none ∧
      toks.length ≤ 6 ∧ (parse string).length = 6 ∧
      (toks.length < 6 → numberOfTokens (parse string) = Except.ok toks.length) ∧
      (toks.length = 6 → numberOfTokens (parse string) = Except.error 6) := by
  obtain ⟨toks, hlen, heq⟩ := parse_loop_shape (MAX_NUMBER_OF_TOKENS + 1) string
  have hlen6 : toks.length ≤ 6 := hlen
  have hparse : parse string = toks.map some ++ List.replicate (6 - toks.length) none := heq
  have hnum := numberOfTokens_loop_shape toks (6 - toks.length) 0
    (by rw [Nat.zero_add]; exact hlen)
  rw [Nat.zero_add] at hnum
  refine ⟨toks, hparse, hlen6, ?_, ?_, ?_⟩
  · rw [hparse, List.length_append, List.length_map, List.length_replicate]
    omega
  · intro hlt
    unfold numberOfTokens
    rw [hparse, hnum, if_neg (by omega)]
  · intro h6
    unfold numberOfTokens
    rw [hparse, hnum, if_pos (by omega), h6]

/-- C36 fails for a line with six tokens: `parse` fills all
`MAX_NUMBER_OF_TOKENS + 1 = 6` slots of the array for the line `a b c d e f`, and
`numberOfTokens`, whose loop runs while `result <= MAX_NUMBER_OF_TOKENS + 1`, then reads
the slot of index 6, behind the last slot of the array. When a slot is NULL the function
returns the number of tokens and stays inside the array (`numberOfTokens_parse`). -/
theorem numberOfTokens_reads_behind_array :
    parse ['a', ' ', 'b', ' ', 'c', ' ', 'd', ' ', 'e', ' ', 'f'] =
      [some ['a'], some ['b'], some ['c'], some ['d'], some ['e'], some ['f']] ∧
    (parse ['a', ' ', 'b', ' ', 'c', ' ', 'd', ' ', 'e', ' ', 'f']).length =
      MAX_NUMBER_OF_TOKENS + 1 ∧
    numberOfTokens (parse ['a', ' ', 'b', ' ', 'c', ' ', 'd', ' ', 'e', ' ', 'f']) =
      Except.error 6 ∧
    numberOfTokens (parse ['m', ' ', '1', ' ', '2', ' ', '3']) = Except.ok 4 := by
  refine ⟨by decide, by decide, ?_, ?_⟩ <;> rfl

end Gamma
